import Mathlib

set_option maxHeartbeats 1600000

/-!
Verification development for the instrumented sorting execution engine of
this repository (source files: sortingService.ts, types.ts, App.tsx).

The engine is shallowly embedded: JavaScript numbers are modelled as `Int`
(all engine arithmetic on array values is integral), the mutable working
array as a `List Int` threaded through explicit state, the shared stats
object as a record, and every invocation of the update callback as an
event appended to a trace.  Asynchronous suspension (await/sleep) has no
observable effect on the array, the counters or the order of events, so
the value-level model elides it; wall-clock time and pausing are modelled
separately by a clocked driver (`runDriver`) with explicit duration
oracles.
-/

/-- Highlight payload handed to the update callback (types.ts, Highlight). -/
structure Highlight where
  comparing : Option (List Nat) := none
  swapping : Option (List Nat) := none
  deriving Repr, DecidableEq

/-- Performance counters (types.ts, SortStats).  `time` is written only by
the driver at the end of a run. -/
structure SortStats where
  comparisons : Nat := 0
  swaps : Nat := 0
  writes : Nat := 0
  time : Int := 0
  deriving Repr, DecidableEq

/-- One delivered callback invocation: the array snapshot passed as
`[...arr]`, the highlights, the stats value at that instant and the
optional error message (types.ts, UpdateCallback). -/
structure EmitEvent where
  arr : List Int
  hl : Highlight
  stats : SortStats
  errorMessage : Option String := none
  deriving Repr, DecidableEq

/-- Working state of one run: the working array, the shared stats object
and the trace of callback invocations delivered so far. -/
structure St where
  arr : List Int
  stats : SortStats
  trace : List EmitEvent
  deriving Repr, DecidableEq

/-- stats.comparisons += k -/
def St.addC (s : St) (k : Nat) : St :=
  { s with stats := { s.stats with comparisons := s.stats.comparisons + k } }

/-- stats.swaps += k -/
def St.addS (s : St) (k : Nat) : St :=
  { s with stats := { s.stats with swaps := s.stats.swaps + k } }

/-- stats.writes += k -/
def St.addW (s : St) (k : Nat) : St :=
  { s with stats := { s.stats with writes := s.stats.writes + k } }

/-- arr[i], reads are always in bounds in the embedded loops. -/
def St.getA (s : St) (i : Nat) : Int := s.arr.getD i 0

/-- arr[i] = v -/
def St.setA (s : St) (i : Nat) (v : Int) : St := { s with arr := s.arr.set i v }

/-- The destructuring swap `[arr[i], arr[j]] = [arr[j], arr[i]]`. -/
def St.swapA (s : St) (i j : Nat) : St :=
  let a := s.getA i
  let b := s.getA j
  (s.setA i b).setA j a

/-- One call of the driver-owned `update` function, as observable at the
value level: appends the snapshot `[...arr]`, the highlights and the
current stats to the trace (sortingService.ts lines 369-383; pacing and
pausing only advance the clock and are modelled in `runDriver`).  The
built-in sorts never pass a statUpdate, so the `Object.assign` merge is
the identity here. -/
def St.emitE (s : St) (h : Highlight) : St :=
  { s with trace := s.trace ++ [{ arr := s.arr, hl := h, stats := s.stats }] }

@[simp] theorem St.arr_addC (s : St) (k : Nat) : (s.addC k).arr = s.arr := rfl
@[simp] theorem St.arr_addS (s : St) (k : Nat) : (s.addS k).arr = s.arr := rfl
@[simp] theorem St.arr_addW (s : St) (k : Nat) : (s.addW k).arr = s.arr := rfl
@[simp] theorem St.arr_emitE (s : St) (h : Highlight) : (s.emitE h).arr = s.arr := rfl
@[simp] theorem St.arr_setA (s : St) (i : Nat) (v : Int) :
    (s.setA i v).arr = s.arr.set i v := rfl

@[simp] theorem St.getA_addC (s : St) (k i : Nat) : (s.addC k).getA i = s.getA i := rfl
@[simp] theorem St.getA_addS (s : St) (k i : Nat) : (s.addS k).getA i = s.getA i := rfl
@[simp] theorem St.getA_addW (s : St) (k i : Nat) : (s.addW k).getA i = s.getA i := rfl
@[simp] theorem St.getA_emitE (s : St) (h : Highlight) (i : Nat) :
    (s.emitE h).getA i = s.getA i := rfl

/-- The value-level effect of the swap on the array. -/
def swapL (l : List Int) (i j : Nat) : List Int :=
  (l.set i (l.getD j 0)).set j (l.getD i 0)

@[simp] theorem St.arr_swapA (s : St) (i j : Nat) :
    (s.swapA i j).arr = swapL s.arr i j := rfl

@[simp] theorem length_swapL (l : List Int) (i j : Nat) :
    (swapL l i j).length = l.length := by
  simp [swapL]

@[simp] theorem St.length_addC (s : St) (k : Nat) : (s.addC k).arr.length = s.arr.length := rfl
@[simp] theorem St.length_addS (s : St) (k : Nat) : (s.addS k).arr.length = s.arr.length := rfl
@[simp] theorem St.length_addW (s : St) (k : Nat) : (s.addW k).arr.length = s.arr.length := rfl
@[simp] theorem St.length_emitE (s : St) (h : Highlight) :
    (s.emitE h).arr.length = s.arr.length := rfl

@[simp] theorem St.stats_emitE (s : St) (h : Highlight) : (s.emitE h).stats = s.stats := rfl
@[simp] theorem St.stats_setA (s : St) (i : Nat) (v : Int) : (s.setA i v).stats = s.stats := rfl
@[simp] theorem St.stats_swapA (s : St) (i j : Nat) : (s.swapA i j).stats = s.stats := rfl

/-! ### List helper lemmas -/

theorem getD_set_self {α : Type} (l : List α) (i : Nat) (v d : α) (h : i < l.length) :
    (l.set i v).getD i d = v := by
  simp [List.getD_eq_getElem?_getD, List.getElem?_set_self, h]

theorem getD_set_ne {α : Type} (l : List α) (i j : Nat) (v d : α) (h : i ≠ j) :
    (l.set i v).getD j d = l.getD j d := by
  simp [List.getD_eq_getElem?_getD, List.getElem?_set_ne h]

/-- Replacing the k-th element and consing the old k-th element in front is
a permutation of consing the new value. -/
theorem perm_getD_cons_set (t : List Int) (a : Int) :
    ∀ k, k < t.length → (t.getD k 0 :: t.set k a).Perm (a :: t) := by
  intro k
  induction t generalizing k with
  | nil => intro h; simp at h
  | cons b u ih =>
    intro hk
    cases k with
    | zero => simpa using List.Perm.swap a b u
    | succ k =>
      have hk' : k < u.length := by simpa using hk
      have h1 : (u.getD k 0 :: b :: u.set k a).Perm (b :: u.getD k 0 :: u.set k a) :=
        List.Perm.swap b (u.getD k 0) (u.set k a)
      have h2 : (b :: u.getD k 0 :: u.set k a).Perm (b :: a :: u) :=
        (ih k hk').cons b
      have h3 : (b :: a :: u).Perm (a :: b :: u) := List.Perm.swap a b u
      simpa using (h1.trans h2).trans h3

theorem set_getD_self {α : Type} (d : α) (l : List α) (i : Nat) (h : i < l.length) :
    l.set i (l.getD i d) = l := by
  apply List.ext_getElem?
  intro j
  by_cases hj : i = j
  · subst hj
    simp [List.getElem?_set_self h, List.getElem?_eq_getElem h]
  · simp [List.getElem?_set_ne hj]

theorem perm_swapL_lt (i : Nat) : ∀ (j : Nat) (l : List Int), i < j → j < l.length →
    (swapL l i j).Perm l := by
  induction i with
  | zero =>
    intro j l hij hj
    match j, l, hj with
    | k+1, a :: t, hj =>
      have hk : k < t.length := by simpa using hj
      have he : swapL (a :: t) 0 (k+1) = t.getD k 0 :: t.set k a := by
        simp [swapL]
      rw [he]
      exact perm_getD_cons_set t a k hk
  | succ m ih =>
    intro j l hij hj
    match j, l, hj with
    | k+1, a :: t, hj =>
      have he : swapL (a :: t) (m+1) (k+1) = a :: swapL t m k := by
        simp [swapL]
      rw [he]
      exact (ih k t (by omega) (by simpa using hj)).cons a

theorem swapL_comm (l : List Int) (i j : Nat) (h : i ≠ j) :
    swapL l i j = swapL l j i := by
  simp only [swapL]
  exact List.set_comm _ _ _ h

theorem perm_swapL (l : List Int) (i j : Nat) (hi : i < l.length) (hj : j < l.length) :
    (swapL l i j).Perm l := by
  rcases Nat.lt_trichotomy i j with hij | rfl | hij
  · exact perm_swapL_lt i j l hij hj
  · simp only [swapL, List.set_set]
    rw [set_getD_self 0 l i hi]
  · rw [swapL_comm l i j (by omega)]
    exact perm_swapL_lt j i l hij hi

/-! ### Bubble sort (sortingService.ts, bubbleSortFunc, lines 36-54) -/

/-- Inner pass `for (let i = 0; i < n - 1; i++)` of bubbleSortFunc.
Returns the state together with the `swapped` flag. -/
def bubbleInner (s : St) (i n : Nat) (swapped : Bool) : St × Bool :=
  if h : i + 1 < n then
    let s1 := (s.addC 1).emitE { comparing := some [i, i + 1] }
    if s1.getA i > s1.getA (i + 1) then
      let s2 := (((s1.addS 1).addW 2).swapA i (i + 1)).emitE { swapping := some [i, i + 1] }
      bubbleInner s2 (i + 1) n true
    else
      bubbleInner s1 (i + 1) n swapped
  else
    (s, swapped)
termination_by n - i

/-- The do/while loop of bubbleSortFunc; `n` is the shrinking scan bound,
decremented after every pass, and the loop repeats while `swapped`.  A pass
with `n = 0` or `n = 1` scans nothing and leaves `swapped` false, so the
loop always exits by the time `n` reaches 0. -/
def bubbleOuter (s : St) : Nat → St
  | 0 => (bubbleInner s 0 0 false).1
  | n + 1 =>
    let p := bubbleInner s 0 (n + 1) false
    if p.2 then bubbleOuter p.1 n else p.1

def bubbleSortFunc (s : St) : St := bubbleOuter s s.arr.length

/-! ### Selection sort (sortingService.ts, selectionSortFunc, lines 56-74) -/

/-- Inner loop `for (let j = i + 1; j < n; j++)` scanning for the minimum. -/
def selInner (s : St) (minIdx j n : Nat) : St × Nat :=
  if h : j < n then
    let s1 := (s.addC 1).emitE { comparing := some [minIdx, j] }
    if s1.getA j < s1.getA minIdx then
      selInner s1 j (j + 1) n
    else
      selInner s1 minIdx (j + 1) n
  else
    (s, minIdx)
termination_by n - j

/-- Outer loop `for (let i = 0; i < n - 1; i++)` of selectionSortFunc. -/
def selOuter (s : St) (i n : Nat) : St :=
  if h : i + 1 < n then
    let p := selInner s i (i + 1) n
    let s2 :=
      if p.2 ≠ i then
        (((p.1.addS 1).addW 2).swapA i p.2).emitE { swapping := some [i, p.2] }
      else p.1
    selOuter s2 (i + 1) n
  else s
termination_by n - i

def selectionSortFunc (s : St) : St := selOuter s 0 s.arr.length

/-! ### Insertion sort (sortingService.ts, insertionSortFunc, lines 76-94) -/

/-- Shift loop `while (j >= 0 && arr[j] > current)`; `j` is an `Int`
because it runs down to `-1`. -/
def insShift (s : St) (current : Int) (j : Int) : St × Int :=
  if h : 0 ≤ j ∧ s.getA j.toNat > current then
    let s1 := (((s.addC 1).addS 1).addW 1).setA (j.toNat + 1) (s.getA j.toNat)
    let s2 := s1.emitE { swapping := some [j.toNat, j.toNat + 1] }
    insShift s2 current (j - 1)
  else
    (s, j)
termination_by (j + 1).toNat

/-- Outer loop `for (let i = 1; i < n; i++)` of insertionSortFunc. -/
def insOuter (s : St) (i n : Nat) : St :=
  if h : i < n then
    let current := s.getA i
    let s1 := s.emitE { comparing := some [i] }
    let p := insShift s1 current ((i : Int) - 1)
    let s2 := if 0 ≤ p.2 then p.1.addC 1 else p.1
    let s3 := (s2.addW 1).setA (p.2 + 1).toNat current
    insOuter s3 (i + 1) n
  else s
termination_by n - i

def insertionSortFunc (s : St) : St := insOuter s 1 s.arr.length

/-! ### Quick sort (sortingService.ts, quickSortFunc, lines 96-125).
Indices are `Int` because `high` can be `-1` (empty array) and recursion
reaches `pivotIndex - 1`. -/

/-- Partition scan `for (let j = low; j < high; j++)` of the Lomuto
partition; `i` is the last index of the below-pivot region. -/
def qpartInner (s : St) (pivot : Int) (i j high : Int) : St × Int :=
  if h : j < high then
    let s1 := (s.addC 1).emitE { comparing := some [j.toNat, high.toNat] }
    if s1.getA j.toNat < pivot then
      let s2 := (((s1.addS 1).addW 2).swapA (i + 1).toNat j.toNat).emitE
        { swapping := some [(i + 1).toNat, j.toNat] }
      qpartInner s2 pivot (i + 1) (j + 1) high
    else
      qpartInner s1 pivot i (j + 1) high
  else (s, i)
termination_by (high - j).toNat

/-- The partition body: scan, then swap the pivot into place; returns the
pivot index `i + 1`. -/
def qpartition (s : St) (low high : Int) : St × Int :=
  let pivot := s.getA high.toNat
  let p := qpartInner s pivot (low - 1) low high
  let s2 := (((p.1.addS 1).addW 2).swapA (p.2 + 1).toNat high.toNat).emitE
    { swapping := some [(p.2 + 1).toNat, high.toNat] }
  (s2, p.2 + 1)

theorem qpartInner_snd_range (s : St) (pivot i j high : Int) (h1 : i < j) (h2 : j ≤ high) :
    i ≤ (qpartInner s pivot i j high).2 ∧ (qpartInner s pivot i j high).2 ≤ high - 1 := by
  induction s, pivot, i, j, high using qpartInner.induct with
  | case1 s pivot i j high h s1 hlt s2 ih =>
    rw [qpartInner, dif_pos h, if_pos hlt]
    have := ih (by omega) (by omega)
    simp only [] at this ⊢
    unfold_let s2 s1 at this ⊢
    omega
  | case2 s pivot i j high h s1 hlt ih =>
    rw [qpartInner, dif_pos h, if_neg hlt]
    have := ih (by omega) (by omega)
    simp only [] at this ⊢
    unfold_let s1 at this ⊢
    omega
  | case3 s pivot i j high h =>
    rw [qpartInner, dif_neg h]
    omega

/-- Pivot index returned by the partition lies in `[low, high]`. -/
theorem qpartition_snd_range (s : St) (low high : Int) (h : low < high) :
    low ≤ (qpartition s low high).2 ∧ (qpartition s low high).2 ≤ high := by
  have := qpartInner_snd_range s (s.getA high.toNat) (low - 1) low high (by omega) (by omega)
  simp only [qpartition]
  omega

/-- The recursive `sort(low, high)` of quickSortFunc. -/
def qsort (s : St) (low high : Int) : St :=
  if h : low < high then
    let p := qpartition s low high
    let s2 := qsort p.1 low (p.2 - 1)
    qsort s2 (p.2 + 1) high
  else s
termination_by (high + 1 - low).toNat
decreasing_by
  · have := qpartition_snd_range s low high h
    omega
  · have := qpartition_snd_range s low high h
    omega

def quickSortFunc (s : St) : St := qsort s 0 ((s.arr.length : Int) - 1)

/-! ### Merge sort (sortingService.ts, mergeSortFunc, lines 128-171) -/

/-- The copy loops `for (let i = 0; i < n1; i++) L[i] = arr[l + i]`
(and likewise for `R`), building the temporary slice left to right. -/
def buildSlice (arr : List Int) (start : Nat) : Nat → List Int
  | 0 => []
  | k + 1 => arr.getD start 0 :: buildSlice arr (start + 1) k

/-- The main merge loop `while (i < n1 && j < n2)`.  Returns the state and
the final `i`, `j`, `k`. -/
def mergeMain (s : St) (L R : List Int) (i j k : Nat) : St × Nat × Nat × Nat :=
  if h : i < L.length ∧ j < R.length then
    if L.getD i 0 ≤ R.getD j 0 then
      mergeMain (((((s.addC 1).setA k (L.getD i 0)).addS 1).addW 1).emitE
        { comparing := some [k] }) L R (i + 1) j (k + 1)
    else
      mergeMain (((((s.addC 1).setA k (R.getD j 0)).addS 1).addW 1).emitE
        { comparing := some [k] }) L R i (j + 1) (k + 1)
  else (s, i, j, k)
termination_by (L.length - i) + (R.length - j)

/-- Drain loop `while (i < n1)`. -/
def mergeDrainL (s : St) (L : List Int) (i k : Nat) : St × Nat :=
  if h : i < L.length then
    mergeDrainL ((((s.setA k (L.getD i 0)).addS 1).addW 1).emitE
      { comparing := some [k] }) L (i + 1) (k + 1)
  else (s, k)
termination_by L.length - i

/-- Drain loop `while (j < n2)`. -/
def mergeDrainR (s : St) (R : List Int) (j k : Nat) : St × Nat :=
  if h : j < R.length then
    mergeDrainR ((((s.setA k (R.getD j 0)).addS 1).addW 1).emitE
      { comparing := some [k] }) R (j + 1) (k + 1)
  else (s, k)
termination_by R.length - j

/-- The `merge(l, m, r)` body.  `l`, `m`, `r` are nonnegative whenever it
is invoked (`sort` only recurses on nonnegative subranges of `[0, n-1]`). -/
def mergeRanges (s : St) (l m r : Int) : St :=
  match h1 : mergeMain s (buildSlice s.arr l.toNat ((m - l + 1).toNat))
      (buildSlice s.arr (m + 1).toNat ((r - m).toNat)) 0 0 l.toNat with
  | (s1, i1, j1, k1) =>
    match h2 : mergeDrainL s1 (buildSlice s.arr l.toNat ((m - l + 1).toNat)) i1 k1 with
    | (s2, k2) =>
      (mergeDrainR s2 (buildSlice s.arr (m + 1).toNat ((r - m).toNat)) j1 k2).1

/-- The recursive `sort(l, r)` of mergeSortFunc; `m = l + floor((r-l)/2)`
and `r - l > 0` in the recursive case, so `Int` division is exact floor. -/
def msort (s : St) (l r : Int) : St :=
  if h : l ≥ r then s
  else
    mergeRanges (msort (msort s l (l + (r - l) / 2)) (l + (r - l) / 2 + 1) r)
      l (l + (r - l) / 2) r
termination_by (r - l).toNat
decreasing_by
  · omega
  · omega

def mergeSortFunc (s : St) : St := msort s 0 ((s.arr.length : Int) - 1)

/-! ### Heap sort (sortingService.ts, heapSortFunc, lines 174-208) -/

/-- Largest of `i` and its existing children, computed exactly as the two
sequential comparisons of `heapify` (the interleaved emits do not change
the array, so reading through `s` is faithful). -/
def heapChild1 (s : St) (size i : Nat) : Nat :=
  if 2 * i + 1 < size ∧ s.getA (2 * i + 1) > s.getA i then 2 * i + 1 else i

def heapLargest (s : St) (size i : Nat) : Nat :=
  if 2 * i + 2 < size ∧ s.getA (2 * i + 2) > s.getA (heapChild1 s size i) then 2 * i + 2
  else heapChild1 s size i

/-- The instrumentation emitted ahead of the largest-child decision. -/
def heapCmpEmits (s : St) (size i : Nat) : St :=
  let s1 := if 2 * i + 1 < size then (s.addC 1).emitE { comparing := some [2 * i + 1, i] } else s
  if 2 * i + 2 < size then
    (s1.addC 1).emitE { comparing := some [2 * i + 2, heapChild1 s size i] }
  else s1

theorem heapLargest_lt_size (s : St) (size i : Nat) (h : i < size) :
    heapLargest s size i < size := by
  unfold heapLargest heapChild1
  split_ifs <;> omega

theorem heapLargest_ge (s : St) (size i : Nat) : i ≤ heapLargest s size i := by
  unfold heapLargest heapChild1
  split_ifs <;> omega

def heapify (s : St) (size i : Nat) : St :=
  if hL : heapLargest s size i ≠ i then
    heapify (((((heapCmpEmits s size i).addS 1).addW 2).swapA i (heapLargest s size i)).emitE
      { swapping := some [i, heapLargest s size i] }) size (heapLargest s size i)
  else heapCmpEmits s size i
termination_by size - i
decreasing_by
  have h1 := heapLargest_ge s size i
  have h2 : heapLargest s size i < size := by
    by_cases h : i < size
    · exact heapLargest_lt_size s size i h
    · exfalso
      apply hL
      unfold heapLargest heapChild1
      split_ifs <;> omega
  omega

/-- Build phase `for (let i = Math.floor(n / 2) - 1; i >= 0; i--)`; the
argument counts the remaining iterations, so `heapBuildLoop s n (n / 2)`
runs `heapify` at `n / 2 - 1, …, 0`. -/
def heapBuildLoop (s : St) (n : Nat) : Nat → St
  | 0 => s
  | k + 1 => heapBuildLoop (heapify s n k) n k

/-- Extraction phase `for (let i = n - 1; i > 0; i--)`. -/
def heapExtractLoop (s : St) : Nat → St
  | 0 => s
  | i + 1 =>
    heapExtractLoop (heapify ((((s.addS 1).addW 2).swapA 0 (i + 1)).emitE
      { swapping := some [0, i + 1] }) (i + 1) 0) i

def heapSortFunc (s : St) : St :=
  heapExtractLoop (heapBuildLoop s s.arr.length (s.arr.length / 2)) (s.arr.length - 1)

/-! ### Radix sort (sortingService.ts, radixSortFunc, lines 210-240).
`Math.floor(a / exp)` is `Int.fdiv` (`exp` is a positive power of ten) and
the JS remainder is `Int.tmod`.  A negative digit would make JS write to a
negative array key, silently corrupting the pass with `undefined` holes
outside the Int value domain; the model returns `none` there.  On the
empty array `getMax` yields `undefined` in JS and the digit-loop guard
`NaN > 0` is false; the model defaults to `0`, for which the guard `0 > 0`
is likewise false, so both do zero passes. -/

def radixGetMaxLoop (arr : List Int) (mx : Int) (i : Nat) : Int :=
  if h : i < arr.length then
    radixGetMaxLoop arr (if arr.getD i 0 > mx then arr.getD i 0 else mx) (i + 1)
  else mx
termination_by arr.length - i

def radixGetMax (arr : List Int) : Int := radixGetMaxLoop arr (arr.getD 0 0) 1

/-- Digit of `v` at the pass of significance `exp`:
`Math.floor(arr[i] / exp) % 10`. -/
def radixDigit (v : Int) (exp : Nat) : Int := (v.fdiv exp).tmod 10

/-- Counting pass `for (i…) count[digit]++`. -/
def csCountLoop (arr : List Int) (exp : Nat) (i : Nat) (count : List Nat) :
    Option (List Nat) :=
  if h : i < arr.length then
    if hd : 0 ≤ radixDigit (arr.getD i 0) exp then
      csCountLoop arr exp (i + 1)
        (count.set (radixDigit (arr.getD i 0) exp).toNat
          (count.getD (radixDigit (arr.getD i 0) exp).toNat 0 + 1))
    else none
  else some count
termination_by arr.length - i

/-- Prefix-sum pass `for (let i = 1; i < 10; i++) count[i] += count[i-1]`. -/
def csPrefixLoop (count : List Nat) (i : Nat) : List Nat :=
  if h : i < 10 then
    csPrefixLoop (count.set i (count.getD i 0 + count.getD (i - 1) 0)) (i + 1)
  else count
termination_by 10 - i

/-- Placement pass `for (let i = arr.length - 1; i >= 0; i--)`; the fuel
argument is `i + 1`.  `output` cells start as `none` (array holes). -/
def csPlaceLoop (arr : List Int) (exp : Nat) :
    Nat → List Nat → List (Option Int) → Option (List (Option Int))
  | 0, _, output => some output
  | i + 1, count, output =>
    if hd : 0 ≤ radixDigit (arr.getD i 0) exp then
      if hc : 0 < count.getD (radixDigit (arr.getD i 0) exp).toNat 0 then
        csPlaceLoop arr exp i
          (count.set (radixDigit (arr.getD i 0) exp).toNat
            (count.getD (radixDigit (arr.getD i 0) exp).toNat 0 - 1))
          (output.set (count.getD (radixDigit (arr.getD i 0) exp).toNat 0 - 1)
            (some (arr.getD i 0)))
      else none
    else none

/-- Copy-back loop `for (i…) { swaps++; writes++; arr[i] = output[i]; emit }`. -/
def csCopyLoop (s : St) (output : List (Option Int)) (i : Nat) : Option St :=
  if h : i < s.arr.length then
    match output.getD i none with
    | some v => csCopyLoop ((((s.addS 1).addW 1).setA i v).emitE { swapping := some [i] }) output (i + 1)
    | none => none
  else some s
termination_by s.arr.length - i

def countingSort (s : St) (exp : Nat) : Option St := do
  let count1 ← csCountLoop s.arr exp 0 (List.replicate 10 0)
  let output ← csPlaceLoop s.arr exp s.arr.length (csPrefixLoop count1 1)
    (List.replicate s.arr.length none)
  csCopyLoop s output 0

/-- Digit loop `for (let exp = 1; Math.floor(max / exp) > 0; exp *= 10)`.
The guard forces `exp ≥ 1` and `max > 0` in the recursive case, from which
the pass count is bounded. -/
def radixLoop (s : St) (mx : Int) (exp : Nat) : Option St :=
  if h : mx.fdiv exp > 0 then
    match countingSort s exp with
    | some s1 => radixLoop s1 mx (exp * 10)
    | none => none
  else some s
termination_by (mx.fdiv exp).toNat
decreasing_by
  have hx : 0 < mx := by
    rcases Int.lt_trichotomy mx 0 with hm | hm | hm
    · exfalso
      rcases Nat.eq_zero_or_pos exp with he0 | hep
      · rw [he0] at h
        simp [Int.fdiv_zero] at h
      · have hep' : (0 : Int) < (exp : Int) := by exact_mod_cast hep
        have := Int.fdiv_neg' hm hep'
        omega
    · rw [hm] at h
      simp [Int.zero_fdiv] at h
    · exact hm
  have he : exp ≠ 0 := by
    intro he0
    rw [he0] at h
    simp [Int.fdiv_zero] at h
  have h1 : mx.fdiv exp = ((mx.toNat / exp : Nat) : Int) := by
    rw [Int.fdiv_eq_ediv _ (by positivity)]
    conv_lhs => rw [show mx = ((mx.toNat : Nat) : Int) by omega]
    rw [← Int.ofNat_ediv]
  have h2 : mx.fdiv ((exp * 10 : Nat) : Int) = ((mx.toNat / (exp * 10) : Nat) : Int) := by
    rw [Int.fdiv_eq_ediv _ (by positivity)]
    conv_lhs => rw [show mx = ((mx.toNat : Nat) : Int) by omega]
    rw [← Int.ofNat_ediv]
  have h3 : mx.toNat / (exp * 10) < mx.toNat / exp := by
    rw [← Nat.div_div_eq_div_mul]
    have hpos : 0 < mx.toNat / exp := by
      by_contra hc
      rw [h1] at h
      omega
    exact Nat.div_lt_self hpos (by omega)
  rw [h1] at h ⊢
  rw [h2]
  omega

def radixSortFunc (s : St) : Option St := radixLoop s (radixGetMax s.arr) 1

/-! ### Bucket sort (sortingService.ts, bucketSortFunc, lines 242-273).
`Math.floor(Math.sqrt(n))` is `Nat.sqrt`; the bucket index
`Math.floor((arr[i] / (max + 1)) * bucketCount)` is the exact rational
floor `(v * bucketCount).fdiv (max + 1)`.  When the index falls outside
`[0, bucketCount)` (possible only for inputs with negative values), JS
dereferences an undefined bucket and throws; the model returns `none`.
`max + 1 = 0` (all values ≤ -1 with maximum -1) makes JS divide by zero
and throw on the resulting Infinity index; also `none`. -/

def bucketListMax (l : List Int) : Int := l.foldl max (l.getD 0 0)

def bucketIndexOf (v mx : Int) (bc : Nat) : Option Nat :=
  if mx + 1 = 0 then none
  else
    if h : 0 ≤ (v * bc).fdiv (mx + 1) ∧ (v * bc).fdiv (mx + 1) < bc then
      some ((v * bc).fdiv (mx + 1)).toNat
    else none

def bucketDistribute (s : St) (mx : Int) (bc : Nat) (i : Nat)
    (buckets : List (List Int)) : Option (St × List (List Int)) :=
  if h : i < s.arr.length then
    match bucketIndexOf (s.getA i) mx bc with
    | some bi =>
      bucketDistribute (s.addS 1) mx bc (i + 1)
        (buckets.set bi (buckets.getD bi [] ++ [s.getA i]))
    | none => none
  else some (s, buckets)
termination_by s.arr.length - i

/-- In-bucket shift loop `while (k >= 0 && buckets[i][k] > current)`. -/
def bucketInsShift (b : List Int) (current : Int) (k : Int) : List Int × Int :=
  if h : 0 ≤ k ∧ b.getD k.toNat 0 > current then
    bucketInsShift (b.set (k.toNat + 1) (b.getD k.toNat 0)) current (k - 1)
  else (b, k)
termination_by (k + 1).toNat

theorem bucketInsShift_length (b : List Int) (current : Int) (k : Int) :
    (bucketInsShift b current k).1.length = b.length := by
  induction b, current, k using bucketInsShift.induct with
  | case1 b current k h ih =>
    rw [bucketInsShift, dif_pos h]
    rw [ih]
    simp
  | case2 b current k h =>
    rw [bucketInsShift, dif_neg h]

/-- Per-bucket insertion sort `for (let j = 1; j < buckets[i].length; j++)`
(uninstrumented). -/
def bucketInsLoop (b : List Int) (j : Nat) : List Int :=
  if h : j < b.length then
    bucketInsLoop
      (((bucketInsShift b (b.getD j 0) ((j : Int) - 1)).1).set
        ((bucketInsShift b (b.getD j 0) ((j : Int) - 1)).2 + 1).toNat (b.getD j 0))
      (j + 1)
  else b
termination_by b.length - j
decreasing_by
  have := bucketInsShift_length b (b.getD j 0) ((j : Int) - 1)
  simp only [List.length_set]
  omega

/-- Write-back `arr[index++] = buckets[i][j]` for one bucket. -/
def bucketWriteBack (s : St) (b : List Int) (index : Nat) : St × Nat :=
  match b with
  | [] => (s, index)
  | v :: rest =>
    bucketWriteBack (((s.setA index v).addW 1).emitE { swapping := some [index] })
      rest (index + 1)

def bucketGatherLoop (s : St) (buckets : List (List Int)) (index : Nat) : St :=
  match buckets with
  | [] => s
  | b :: rest =>
    bucketGatherLoop (bucketWriteBack s b index).1 rest (bucketWriteBack s b index).2

def bucketSortFunc (s : St) : Option St :=
  if s.arr.length ≤ 0 then some s
  else
    match bucketDistribute s (if bucketListMax s.arr = 0 then 1 else bucketListMax s.arr)
        (Nat.sqrt s.arr.length) 0 (List.replicate (Nat.sqrt s.arr.length) []) with
    | some (s1, buckets) =>
      some (bucketGatherLoop s1 (buckets.map (fun b => bucketInsLoop b 1)) 0)
    | none => none

/-! ### Bogo sort (sortingService.ts, bogoSortFunc, lines 275-295).
`Math.random()` is modelled by an oracle `rand : Nat → Nat` indexed by a
call counter; `Math.floor(Math.random() * (i + 1)) ∈ [0, i]` becomes
`rand ctr % (i + 1)`.  The unbounded `while (!isSorted()) shuffle()` loop
gets a fuel parameter: `none` models a run that has not terminated within
`fuel` shuffle passes. -/

def bogoIsSorted (s : St) (i : Nat) : St × Bool :=
  if h : i + 1 < s.arr.length then
    if (s.addC 1).getA i > (s.addC 1).getA (i + 1) then (s.addC 1, false)
    else bogoIsSorted (s.addC 1) (i + 1)
  else (s, true)
termination_by s.arr.length - i

/-- Shuffle loop `for (let i = arr.length - 1; i > 0; i--)`; the argument
is the loop variable itself (the loop body runs for values `i ≥ 1`). -/
def bogoShuffleLoop (s : St) (rand : Nat → Nat) (ctr : Nat) : Nat → St × Nat
  | 0 => (s, ctr)
  | i + 1 =>
    bogoShuffleLoop (((s.addS 1).addW 2).swapA (i + 1) (rand ctr % (i + 2))) rand
      (ctr + 1) i

def bogoShuffle (s : St) (rand : Nat → Nat) (ctr : Nat) : St × Nat :=
  ((bogoShuffleLoop s rand ctr (s.arr.length - 1)).1.emitE {},
    (bogoShuffleLoop s rand ctr (s.arr.length - 1)).2)

def bogoLoop (rand : Nat → Nat) (fuel ctr : Nat) (s : St) : Option St :=
  if (bogoIsSorted s 0).2 then some (bogoIsSorted s 0).1
  else
    match fuel with
    | 0 => none
    | f + 1 =>
      bogoLoop rand f (bogoShuffle (bogoIsSorted s 0).1 rand ctr).2
        (bogoShuffle (bogoIsSorted s 0).1 rand ctr).1
termination_by fuel

def bogoSortFunc (rand : Nat → Nat) (fuel : Nat) (s : St) : Option St :=
  bogoLoop rand fuel 0 s

/-! ### Dynamic code loader (sortingService.ts, userCodeFunc, lines 298-336).
`new Function('return ' + userCode)()` evaluates arbitrary text; its
outcome is abstracted by `EvalOutcome` (the evaluated expression has no
access to the working array or the stats object, which are not in its
scope, so compilation can never mutate them).  The compiled callable is
abstracted by its observable behaviour `UserFn`: it may return, or throw
an `Error` carrying a message and an optional line/column extracted from
its stack by the regex match, or throw a non-`Error` value; in each case
it leaves the shared state at some point of its progress. -/

/-- Behaviour of the compiled callable on a given state: the state at
return or at the point of failure, and how it finished. -/
inductive UserRunOutcome where
  | ok (s : St)
  | threwError (s : St) (msg : String) (loc : Option (Nat × Nat))
  | threwNonError (s : St)

def UserFn : Type := St → UserRunOutcome

/-- Outcome of evaluating the source text. -/
inductive EvalOutcome where
  | throwsError (msg : String)
  | throwsNonError
  | yields (callable : Bool) (fn : UserFn)

/-- Message of the explicit non-callable error thrown inside the compile
try-block. -/
def notAFunctionMsg : String :=
  "Provided code does not evaluate to a function. Make sure \x27async function userSort...\x27 is defined."

/-- Result of one variant invocation: `none` models a run that does not
terminate; `some (s, none)` a normal return with final state `s`;
`some (s, some msg)` a throw with message `msg`, leaving state `s`. -/
def VariantResult : Type := Option (St × Option String)

def userCodeFunc (outcome : EvalOutcome) (s : St) : VariantResult :=
  match outcome with
  | .throwsError msg => some (s, some ("Compilation Error: " ++ msg))
  | .throwsNonError => some (s, some "An unknown compilation error occurred.")
  | .yields false _ => some (s, some ("Compilation Error: " ++ notAFunctionMsg))
  | .yields true fn =>
    match fn s with
    | .ok s1 => some (s1, none)
    | .threwError s1 msg (some (line, col)) =>
      some (s1, some ("Runtime Error: " ++ msg ++ " (at line " ++ toString line ++
        ", column " ++ toString col ++ ")"))
    | .threwError s1 msg none => some (s1, some ("Runtime Error: " ++ msg))
    | .threwNonError s1 => some (s1, some "An unknown runtime error occurred.")

/-! ### The value-level driver (sortingService.ts, getAlgorithmRunner,
lines 363-402).  The returned runner copies the caller array into a fresh
working state with zeroed counters (lines 364-365), runs the variant, and
on normal return emits one final update with the sorted snapshot and
returns the stats (lines 397-401); if the variant threw, it invokes the
callback once with the ORIGINAL initialArray, the stats as of failure and
the message prefixed `Error: `, and returns no stats (lines 388-395).
Wall-clock and paused time only affect `stats.time` and are modelled by
the clocked driver `runDriver` below; here `time` is left 0. -/

def runVariant (f : St → VariantResult) (initialArray : List Int) :
    Option (St × Option SortStats) :=
  match f { arr := initialArray, stats := {}, trace := [] } with
  | none => none
  | some (s, none) =>
    some ({ s with trace := s.trace ++ [{ arr := s.arr, hl := {}, stats := s.stats }] },
      some s.stats)
  | some (s, some msg) =>
    some ({ s with trace := s.trace ++
      [{ arr := initialArray, hl := {}, stats := s.stats,
         errorMessage := some ("Error: " ++ msg) }] }, none)

/-- Total built-in variants as `VariantResult` computations. -/
def asVariant (f : St → St) : St → VariantResult := fun s => some (f s, none)

/-- Option-valued variants (radix models silent JS corruption as
divergence, bucket models the JS throw as divergence at the value level;
neither run is a normal termination). -/
def asVariantO (f : St → Option St) : St → VariantResult :=
  fun s => (f s).map (fun s1 => (s1, none))

/-- Algorithm keys (types.ts, AlgorithmKey). -/
inductive AlgorithmKey where
  | bubbleSort | selectionSort | insertionSort | quickSort | mergeSort
  | heapSort | radixSort | bucketSort | bogoSort | userCode
  deriving Repr, DecidableEq

/-- The switch of getAlgorithmRunner (lines 346-361): maps a key (plus the
optional user source text) to the variant step function, or throws.  The
`evalOracle` parameter abstracts what `new Function(…)()` yields for a
given source text; `rand`/`fuel` feed bogo's randomness model.  JS `!userCode`
is true both for a missing argument and for the empty string. -/
def getAlgorithmRunner (evalOracle : String → EvalOutcome) (rand : Nat → Nat)
    (fuel : Nat) (key : AlgorithmKey) (userCode : Option String) :
    Except String (St → VariantResult) :=
  match key with
  | .bubbleSort => .ok (asVariant bubbleSortFunc)
  | .selectionSort => .ok (asVariant selectionSortFunc)
  | .insertionSort => .ok (asVariant insertionSortFunc)
  | .quickSort => .ok (asVariant quickSortFunc)
  | .mergeSort => .ok (asVariant mergeSortFunc)
  | .heapSort => .ok (asVariant heapSortFunc)
  | .radixSort => .ok (asVariantO radixSortFunc)
  | .bucketSort => .ok (asVariantO bucketSortFunc)
  | .bogoSort => .ok (asVariantO (bogoSortFunc rand fuel))
  | .userCode =>
    match userCode with
    | none => .error "User code must be provided for \x27userCode\x27 algorithm."
    | some code =>
      if code = "" then .error "User code must be provided for \x27userCode\x27 algorithm."
      else .ok (userCodeFunc (evalOracle code))

/-! ### The clocked driver model (sortingService.ts lines 363-402, with
time observable).  The bound variant is abstracted as a program: a list of
steps, each "mutate the shared array/stats arbitrarily, then await
update(highlights, statUpdate)", followed by a final arbitrary mutation
and either a normal return or a throw.  A `PacingOracle` supplies, per
update call, the measured durations: awaiting the callback, the total
time blocked in the `while (getIsPaused()) await sleep(50)` loop (0 if
the pause flag was false), and the inter-step delay. -/

/-- A partial stats object, merged by `Object.assign(stats, statUpdate)`:
fields present in the delta overwrite the shared object. -/
structure StatsDelta where
  comparisons : Option Nat := none
  swaps : Option Nat := none
  writes : Option Nat := none
  time : Option Int := none

def StatsDelta.assign (d : StatsDelta) (st : SortStats) : SortStats :=
  { comparisons := d.comparisons.getD st.comparisons,
    swaps := d.swaps.getD st.swaps,
    writes := d.writes.getD st.writes,
    time := d.time.getD st.time }

structure AbsStep where
  mutArr : List Int → List Int
  mutStats : SortStats → SortStats
  hl : Highlight
  delta : StatsDelta

structure AbsProg where
  steps : List AbsStep
  finalMutArr : List Int → List Int
  finalMutStats : SortStats → SortStats
  outcome : Option String

structure PacingOracle where
  cbDur : Nat → Nat
  pauseDur : Nat → Nat
  delayDur : Nat → Nat

/-- Driver-internal run state: working array, shared stats, delivered
events, the clock, accumulated `pausedTime` and the update-call counter. -/
structure DrSt where
  arr : List Int
  stats : SortStats
  events : List EmitEvent
  clock : Nat
  paused : Nat
  k : Nat

/-- One call of `update` (lines 369-383): assign the delta, deliver the
snapshot, then block while paused and apply the delay; the clock advances
by all three durations, `pausedTime` only by the pause block. -/
def drUpdate (o : PacingOracle) (d : DrSt) (h : Highlight) (delta : StatsDelta) : DrSt :=
  { arr := d.arr,
    stats := delta.assign d.stats,
    events := d.events ++ [{ arr := d.arr, hl := h, stats := delta.assign d.stats }],
    clock := d.clock + o.cbDur d.k + o.pauseDur d.k + o.delayDur d.k,
    paused := d.paused + o.pauseDur d.k,
    k := d.k + 1 }

def drStep (o : PacingOracle) (d : DrSt) (st : AbsStep) : DrSt :=
  drUpdate o { d with arr := st.mutArr d.arr, stats := st.mutStats d.stats } st.hl st.delta

/-- State after the variant has finished (returned or thrown): all steps
executed, then the final mutation applied. -/
def driverInner (prog : AbsProg) (o : PacingOracle) (initialArray : List Int)
    (startTime : Nat) : DrSt :=
  let d1 := prog.steps.foldl (drStep o)
    { arr := initialArray, stats := {}, events := [], clock := startTime, paused := 0, k := 0 }
  { d1 with arr := prog.finalMutArr d1.arr, stats := prog.finalMutStats d1.stats }

structure DriverResult where
  events : List EmitEvent
  result : Option SortStats
  finalArr : List Int
  endClock : Nat
  pausedTotal : Nat

/-- The driver run (lines 385-402).  On normal return `stats.time` is set
to `performance.now() - startTime - pausedTime` and one final update with
the sorted snapshot is delivered, returning the stats; on a throw the
callback is invoked once with the ORIGINAL `initialArray`, a copy of the
stats carrying the identically computed time, and `Error: ` + message,
and no stats are returned.  The thrown failure is consumed by the catch:
`runDriver` is a total function, never propagating it. -/
def runDriver (prog : AbsProg) (o : PacingOracle) (initialArray : List Int)
    (startTime : Nat) : DriverResult :=
  let d2 := driverInner prog o initialArray startTime
  match prog.outcome with
  | none =>
    { events := d2.events ++
        [{ arr := d2.arr, hl := {},
           stats := { d2.stats with time := ((d2.clock - startTime) - d2.paused : Nat) } }],
      result := some { d2.stats with time := ((d2.clock - startTime) - d2.paused : Nat) },
      finalArr := d2.arr,
      endClock := d2.clock + o.cbDur d2.k,
      pausedTotal := d2.paused }
  | some msg =>
    { events := d2.events ++
        [{ arr := initialArray, hl := {},
           stats := { d2.stats with time := ((d2.clock - startTime) - d2.paused : Nat) },
           errorMessage := some ("Error: " ++ msg) }],
      result := none,
      finalArr := d2.arr,
      endClock := d2.clock + o.cbDur d2.k,
      pausedTotal := d2.paused }

/-! ### Reference-cell model of snapshot delivery (lines 369-371 and 399).
JS arrays are heap references; `updateCallback([...arr], …)` allocates a
fresh array.  `cells` is the heap (cell 0 is the working array, owned by
the engine); each update allocates a new cell holding a copy of cell 0
and delivers its address, recorded together with a ghost copy of the
snapshot content at delivery time.  `cbWrite` models the external
callback overwriting the content of the array it received (it has no
reference to any other cell). -/

structure RefSt where
  cells : List (List Int)
  events : List (Nat × List Int)

def refEmit (cbWrite : Nat → Option (List Int)) (r : RefSt) : RefSt :=
  { cells :=
      match cbWrite r.events.length with
      | some v => (r.cells ++ [r.cells.getD 0 []]).set r.cells.length v
      | none => r.cells ++ [r.cells.getD 0 []],
    events := r.events ++ [(r.cells.length, r.cells.getD 0 [])] }

/-- One algorithm step: mutate the working cell in place, then update. -/
def refStep (cbWrite : Nat → Option (List Int)) (r : RefSt)
    (mutate : List Int → List Int) : RefSt :=
  refEmit cbWrite { r with cells := r.cells.set 0 (mutate (r.cells.getD 0 [])) }

def runRef (steps : List (List Int → List Int)) (cbWrite : Nat → Option (List Int))
    (init : List Int) : RefSt :=
  refEmit cbWrite (steps.foldl (refStep cbWrite) { cells := [init], events := [] })

/-! ### The App-side callback with its cancellation guard
(App.tsx, useArenaState, lines 147-159 and the effect cleanup 204-206).
The engine has no access to the flag: it is closed over by the callback,
whose body starts with `if (isCancelled) return;`.  Once the cleanup has
set the flag, every subsequent invocation returns without touching the
arena state. -/

structure AppState where
  array : List Int
  highlights : Highlight
  stats : SortStats
  error : Option String
  deriving Repr, DecidableEq

/-- `errorMessage.replace(/^Error:\s*/, '')` for the messages the engine
produces (prefix `Error: ` followed by the payload). -/
def stripErrorMark (m : String) : String :=
  if m.startsWith "Error: " then m.drop 7
  else if m.startsWith "Error:" then m.drop 6
  else m

def appApplyEvent (st : AppState) (ev : EmitEvent) : AppState :=
  { array := ev.arr,
    highlights := ev.hl,
    stats := ev.stats,
    error :=
      match ev.errorMessage with
      | some m => some (stripErrorMark m)
      | none => st.error }

def appUpdateCallback (isCancelled : Bool) (st : AppState) (ev : EmitEvent) : AppState :=
  if isCancelled then st else appApplyEvent st ev

/-- Delivery of an event stream to the arena: the `b`-th and later
invocations, with the cancellation flag set from invocation `flip` on
(the flag flips once, monotonically, by the effect cleanup). -/
def appDeliverFrom (flip : Nat) (st : AppState) : Nat → List EmitEvent → AppState
  | _, [] => st
  | b, ev :: rest =>
    appDeliverFrom flip (appUpdateCallback (decide (flip ≤ b)) st ev) (b + 1) rest

def appDeliver (events : List EmitEvent) (flip : Nat) (st0 : AppState) : AppState :=
  appDeliverFrom flip st0 0 events

/-! ## Claims -/

/-- C5: Running bubble sort on the input array [5,3,8,1] terminates with
the final array equal to [1,3,5,8] and with final counters
comparisons = 6 and swaps = 4. -/
theorem bubbleSort_example_run :
    (runVariant (asVariant bubbleSortFunc) [5, 3, 8, 1]).map
        (fun p => (p.1.arr, p.2.map (fun st => (st.comparisons, st.swaps)))) =
      some ([1, 3, 5, 8], some (6, 4)) := by
  simp [runVariant, asVariant, bubbleSortFunc, bubbleOuter, bubbleInner,
    St.addC, St.addS, St.addW, St.emitE, St.getA, St.setA, St.swapA, swapL]

/-- C9: Calling getAlgorithmRunner with the key userCode and a missing or
empty source-text string throws synchronously (JS `!userCode` is true for
both), with the exact message of line 357; the error is returned before
any runner value exists, so no callback can have been invoked and no
array or counters object created for the call. -/
theorem getAlgorithmRunner_userCode_missing_throws
    (evalOracle : String → EvalOutcome) (rand : Nat → Nat) (fuel : Nat)
    (uc : Option String) (h : uc = none ∨ uc = some "") :
    getAlgorithmRunner evalOracle rand fuel .userCode uc =
      .error "User code must be provided for \x27userCode\x27 algorithm." := by
  rcases h with rfl | rfl <;> simp [getAlgorithmRunner]

theorem getAlgorithmRunner_userCode_missing_throws_witness :
    getAlgorithmRunner (fun _ => .throwsNonError) (fun _ => 0) 0 .userCode none =
      .error "User code must be provided for \x27userCode\x27 algorithm." :=
  getAlgorithmRunner_userCode_missing_throws _ _ _ none (Or.inl rfl)

/-- C2 (counterexample to the claim as stated): a compile-phase failure
in which the evaluation throws a value that is not an Error instance
(e.g. the source text `(() => { throw 42 })()`, which certainly does not
yield a callable value) is rethrown by the `instanceof Error` else-branch
of line 313 with the message "An unknown compilation error occurred.",
which does not start with "Compilation Error:". -/
theorem userCode_compile_nonError_throw_unprefixed :
    userCodeFunc .throwsNonError { arr := [3, 1], stats := {}, trace := [] } =
      some ({ arr := [3, 1], stats := {}, trace := [] },
        some "An unknown compilation error occurred.") ∧
    "Compilation Error:".data.isPrefixOf "An unknown compilation error occurred.".data =
      false := by
  exact ⟨rfl, by decide⟩

/-- C2 (amended): when the userCode source text fails the compile phase,
the run aborts with a thrown Error and the state at the moment of the
throw is exactly the input state — the working array unmutated and every
counter at its initial value.  The message starts with
"Compilation Error:" when the evaluation threw an Error (e.g. a
SyntaxError for malformed text) or yielded a non-callable value; when the
evaluation threw a non-Error value it is the fixed unknown-error message. -/
theorem userCode_compile_error_clean_abort (outcome : EvalOutcome) (s : St) :
    (∀ msg, outcome = .throwsError msg →
      userCodeFunc outcome s = some (s, some ("Compilation Error: " ++ msg))) ∧
    (∀ b fn, outcome = .yields b fn → b = false →
      userCodeFunc outcome s = some (s, some ("Compilation Error: " ++ notAFunctionMsg))) ∧
    (outcome = .throwsNonError →
      userCodeFunc outcome s = some (s, some "An unknown compilation error occurred.")) := by
  refine ⟨?_, ?_, ?_⟩
  · intro msg h
    subst h
    rfl
  · intro b fn h hb
    subst h
    subst hb
    rfl
  · intro h
    subst h
    rfl

theorem userCode_compile_error_clean_abort_witness :
    userCodeFunc (.throwsError "Unexpected token") { arr := [3, 1], stats := {}, trace := [] } =
      some ({ arr := [3, 1], stats := {}, trace := [] },
        some ("Compilation Error: " ++ "Unexpected token")) :=
  (userCode_compile_error_clean_abort (.throwsError "Unexpected token")
    { arr := [3, 1], stats := {}, trace := [] }).1 "Unexpected token" rfl

/-- C3 (counterexample to the claim as stated): a compiled callable that
throws a non-Error value (e.g. `throw 42`) during execution is rethrown
by the `instanceof Error` else-branch of line 334 with the message
"An unknown runtime error occurred.", which does not start with
"Runtime Error:". -/
theorem userCode_runtime_nonError_throw_unprefixed :
    userCodeFunc (.yields true (fun s => .threwNonError s))
        { arr := [4, 2], stats := {}, trace := [] } =
      some ({ arr := [4, 2], stats := {}, trace := [] },
        some "An unknown runtime error occurred.") ∧
    "Runtime Error:".data.isPrefixOf "An unknown runtime error occurred.".data = false := by
  exact ⟨rfl, by decide⟩

/-- C3 (amended): when the compiled callable throws during execution, the
variant catches and rethrows, reporting precisely the state at the point
of failure (no rollback of mutations already applied).  When the thrown
failure is an Error instance, the message is prefixed "Runtime Error: "
and suffixed " (at line L, column C)" exactly when a line and column were
extracted from its stack; a non-Error thrown value is reported with the
fixed unknown-error message. -/
theorem userCode_runtime_error_annotated_no_rollback (fn : UserFn) (s s1 : St) :
    (∀ msg loc, fn s = .threwError s1 msg loc →
      userCodeFunc (.yields true fn) s =
        some (s1, some
          (match loc with
           | some (line, col) =>
             "Runtime Error: " ++ msg ++ " (at line " ++ toString line ++
               ", column " ++ toString col ++ ")"
           | none => "Runtime Error: " ++ msg))) ∧
    (fn s = .threwNonError s1 →
      userCodeFunc (.yields true fn) s =
        some (s1, some "An unknown runtime error occurred.")) := by
  constructor
  · intro msg loc h
    rcases loc with _ | ⟨line, col⟩ <;> simp [userCodeFunc, h]
  · intro h
    simp [userCodeFunc, h]

theorem userCode_runtime_error_annotated_no_rollback_witness :
    userCodeFunc (.yields true (fun _ => .threwError { arr := [7, 1], stats := {}, trace := [] }
        "x is not defined" (some (2, 5)))) { arr := [1, 7], stats := {}, trace := [] } =
      some ({ arr := [7, 1], stats := {}, trace := [] },
        some ("Runtime Error: " ++ "x is not defined" ++ " (at line " ++ toString 2 ++
          ", column " ++ toString 5 ++ ")")) :=
  (userCode_runtime_error_annotated_no_rollback
    (fun _ => .threwError { arr := [7, 1], stats := {}, trace := [] }
      "x is not defined" (some (2, 5)))
    { arr := [1, 7], stats := {}, trace := [] }
    { arr := [7, 1], stats := {}, trace := [] }).1 "x is not defined" (some (2, 5)) rfl

/-- C6: Bogo sort on the already-sorted input [1,2,3] never enters the
shuffle routine: the `isSorted` scan succeeds immediately after its two
adjacent comparisons, so the loop body (the only place that swaps and the
only emit inside the variant) never runs.  The run's trace is exactly the
single final completion callback, carrying swaps = 0 and comparisons = 2,
for every randomness oracle and any fuel. -/
theorem bogoSort_sorted_input_no_shuffle (rand : Nat → Nat) (fuel : Nat) :
    (runVariant (asVariantO (bogoSortFunc rand fuel)) [1, 2, 3]).map
        (fun p => (p.1.trace, p.2.map (fun st => (st.comparisons, st.swaps)))) =
      some ([{ arr := [1, 2, 3], hl := {},
               stats := { comparisons := 2, swaps := 0, writes := 0, time := 0 } }],
        some (2, 0)) := by
  have hs : bogoIsSorted { arr := [1, 2, 3], stats := {}, trace := [] } 0 =
      ({ arr := [1, 2, 3],
         stats := { comparisons := 2, swaps := 0, writes := 0, time := 0 },
         trace := [] }, true) := by
    rw [bogoIsSorted]
    norm_num [St.addC, St.getA]
    rw [bogoIsSorted]
    norm_num [St.addC, St.getA]
    rw [bogoIsSorted]
    norm_num
  have hl : bogoLoop rand fuel 0 { arr := [1, 2, 3], stats := {}, trace := [] } =
      some { arr := [1, 2, 3],
             stats := { comparisons := 2, swaps := 0, writes := 0, time := 0 },
             trace := [] } := by
    rw [bogoLoop.eq_def, hs]
    simp
  simp [runVariant, asVariantO, bogoSortFunc, hl]

/-! ### Driver bookkeeping lemmas -/

@[simp] theorem drStep_clock (o : PacingOracle) (d : DrSt) (st : AbsStep) :
    (drStep o d st).clock = d.clock + o.cbDur d.k + o.pauseDur d.k + o.delayDur d.k := rfl
@[simp] theorem drStep_k (o : PacingOracle) (d : DrSt) (st : AbsStep) :
    (drStep o d st).k = d.k + 1 := rfl
@[simp] theorem drStep_paused (o : PacingOracle) (d : DrSt) (st : AbsStep) :
    (drStep o d st).paused = d.paused + o.pauseDur d.k := rfl
@[simp] theorem drStep_events_length (o : PacingOracle) (d : DrSt) (st : AbsStep) :
    (drStep o d st).events.length = d.events.length + 1 := by
  simp [drStep, drUpdate]

/-- Sum of `f 0 + … + f (n-1)`. -/
def sumTo (f : Nat → Nat) : Nat → Nat
  | 0 => 0
  | n + 1 => sumTo f n + f n

theorem sumTo_congr (f g : Nat → Nat) (h : ∀ t, f t = g t) :
    ∀ n, sumTo f n = sumTo g n := by
  intro n
  induction n with
  | zero => rfl
  | succ n ih => simp [sumTo, ih, h]

theorem sumTo_shift (g : Nat → Nat) (k : Nat) :
    ∀ n, sumTo (fun t => g (k + t)) (n + 1) = g k + sumTo (fun t => g (k + 1 + t)) n := by
  intro n
  induction n with
  | zero => simp [sumTo]
  | succ n ih =>
    rw [show n + 1 + 1 = (n + 1) + 1 from rfl, sumTo, ih, sumTo]
    have hc : k + (n + 1) = k + 1 + n := by omega
    simp only [hc]
    omega

theorem foldl_drStep_spec (o : PacingOracle) :
    ∀ (steps : List AbsStep) (d : DrSt),
      (steps.foldl (drStep o) d).clock =
        d.clock + sumTo (fun t => o.cbDur (d.k + t) + o.pauseDur (d.k + t) +
          o.delayDur (d.k + t)) steps.length ∧
      (steps.foldl (drStep o) d).paused =
        d.paused + sumTo (fun t => o.pauseDur (d.k + t)) steps.length ∧
      (steps.foldl (drStep o) d).k = d.k + steps.length ∧
      (steps.foldl (drStep o) d).events.length = d.events.length + steps.length := by
  intro steps
  induction steps with
  | nil =>
    intro d
    simp [sumTo]
  | cons st rest ih =>
    intro d
    simp only [List.foldl_cons, List.length_cons]
    rcases ih (drStep o d st) with ⟨h1, h2, h3, h4⟩
    refine ⟨?_, ?_, ?_, ?_⟩
    · rw [h1]
      rw [sumTo_shift (fun m => o.cbDur m + o.pauseDur m + o.delayDur m) d.k rest.length]
      simp only [drStep_clock, drStep_k]
      omega
    · rw [h2]
      rw [sumTo_shift (fun m => o.pauseDur m) d.k rest.length]
      simp only [drStep_paused, drStep_k]
      omega
    · rw [h3]
      simp only [drStep_k]
      omega
    · rw [h4]
      simp only [drStep_events_length]
      omega

@[simp] theorem driverInner_clock (prog : AbsProg) (o : PacingOracle)
    (init : List Int) (start : Nat) :
    (driverInner prog o init start).clock =
      start + sumTo (fun t => o.cbDur t + o.pauseDur t + o.delayDur t) prog.steps.length := by
  have h := (foldl_drStep_spec o prog.steps
    { arr := init, stats := {}, events := [], clock := start, paused := 0, k := 0 }).1
  simp only [driverInner]
  rw [h]
  exact congrArg (start + ·) (sumTo_congr _ _ (fun t => by rw [Nat.zero_add]) _)

@[simp] theorem driverInner_paused (prog : AbsProg) (o : PacingOracle)
    (init : List Int) (start : Nat) :
    (driverInner prog o init start).paused =
      sumTo (fun t => o.pauseDur t) prog.steps.length := by
  have h := (foldl_drStep_spec o prog.steps
    { arr := init, stats := {}, events := [], clock := start, paused := 0, k := 0 }).2.1
  simp only [driverInner]
  rw [h]
  simp only [Nat.zero_add]

@[simp] theorem driverInner_events_length (prog : AbsProg) (o : PacingOracle)
    (init : List Int) (start : Nat) :
    (driverInner prog o init start).events.length = prog.steps.length := by
  have h := (foldl_drStep_spec o prog.steps
    { arr := init, stats := {}, events := [], clock := start, paused := 0, k := 0 }).2.2.2
  simp only [driverInner]
  rw [h]
  simp

/-- C7: For every run that completes successfully, the final
`stats.time` equals the wall-clock duration of the sort (its end clock
minus the start timestamp) minus the total duration accumulated while the
pause predicate was observed true — exactly, in the clocked model where
each update call contributes its callback, pause-block and delay
durations to the clock. -/
theorem driver_success_time_excludes_pause (prog : AbsProg) (o : PacingOracle)
    (init : List Int) (start : Nat) (h : prog.outcome = none) :
    ∃ stf, (runDriver prog o init start).result = some stf ∧
      stf.time = (((driverInner prog o init start).clock - start) -
        sumTo (fun t => o.pauseDur t) prog.steps.length : Nat) ∧
      (driverInner prog o init start).clock =
        start + sumTo (fun t => o.cbDur t + o.pauseDur t + o.delayDur t)
          prog.steps.length := by
  refine ⟨{ (driverInner prog o init start).stats with
    time := (((driverInner prog o init start).clock - start) -
      (driverInner prog o init start).paused : Nat) }, ?_, ?_, ?_⟩
  · simp [runDriver, h]
  · simp
  · simp

def witProgOk : AbsProg :=
  { steps := [], finalMutArr := id, finalMutStats := id, outcome := none }

def witProgBoom : AbsProg :=
  { steps := [], finalMutArr := fun _ => [9, 9], finalMutStats := id, outcome := some "boom" }

def witOracle : PacingOracle :=
  { cbDur := fun _ => 1, pauseDur := fun _ => 2, delayDur := fun _ => 3 }

theorem driver_success_time_excludes_pause_witness :
    ∃ stf, (runDriver witProgOk witOracle [5, 1] 100).result = some stf ∧
      stf.time = (((driverInner witProgOk witOracle [5, 1] 100).clock - 100) -
        sumTo (fun t => witOracle.pauseDur t) witProgOk.steps.length : Nat) ∧
      (driverInner witProgOk witOracle [5, 1] 100).clock =
        100 + sumTo (fun t => witOracle.cbDur t + witOracle.pauseDur t +
          witOracle.delayDur t) witProgOk.steps.length :=
  driver_success_time_excludes_pause witProgOk witOracle [5, 1] 100 rfl

/-- C4: If the variant throws, the driver delivers exactly one further
callback invocation — carrying the ORIGINAL pre-run input array, the
counters as of the failure with `time = now - start - pausedTime`, and
the error message — and returns no stats result; the throw itself is
consumed at the driver boundary (`runDriver` is a total function of the
program, never re-raising). -/
theorem driver_failure_single_callback_no_result (prog : AbsProg) (o : PacingOracle)
    (init : List Int) (start : Nat) (msg : String) (h : prog.outcome = some msg) :
    (runDriver prog o init start).result = none ∧
    (runDriver prog o init start).events =
      (driverInner prog o init start).events ++
        [{ arr := init, hl := {},
           stats := { (driverInner prog o init start).stats with
             time := (((driverInner prog o init start).clock - start) -
               (driverInner prog o init start).paused : Nat) },
           errorMessage := some ("Error: " ++ msg) }] ∧
    (runDriver prog o init start).events.length = prog.steps.length + 1 := by
  refine ⟨?_, ?_, ?_⟩
  · simp [runDriver, h]
  · simp only [runDriver, h]
  · simp only [runDriver, h]
    rw [List.length_append]
    simp

theorem driver_failure_single_callback_no_result_witness :
    (runDriver witProgBoom witOracle [2, 1] 7).result = none ∧
    (runDriver witProgBoom witOracle [2, 1] 7).events =
      (driverInner witProgBoom witOracle [2, 1] 7).events ++
        [{ arr := [2, 1], hl := {},
           stats := { (driverInner witProgBoom witOracle [2, 1] 7).stats with
             time := (((driverInner witProgBoom witOracle [2, 1] 7).clock - 7) -
               (driverInner witProgBoom witOracle [2, 1] 7).paused : Nat) },
           errorMessage := some ("Error: " ++ "boom") }] ∧
    (runDriver witProgBoom witOracle [2, 1] 7).events.length =
      witProgBoom.steps.length + 1 :=
  driver_failure_single_callback_no_result witProgBoom witOracle [2, 1] 7 "boom" rfl

/-! ### Snapshot freshness (C10) -/

theorem getD_append_lt {α : Type} (l l' : List α) (i : Nat) (d : α) (h : i < l.length) :
    (l ++ l').getD i d = l.getD i d := by
  simp [List.getD_eq_getElem?_getD, List.getElem?_append, h]

theorem getD_append_self {α : Type} (l : List α) (x d : α) :
    (l ++ [x]).getD l.length d = x := by
  simp [List.getD_eq_getElem?_getD, List.getElem?_append_right (Nat.le_refl l.length)]

/-- Observations preserved between two runs that differ only in what the
external callback writes into the snapshot arrays it received. -/
def RelInv (r r' : RefSt) : Prop :=
  r.cells.getD 0 [] = r'.cells.getD 0 [] ∧ r.events = r'.events ∧
    r.cells.length = r'.cells.length ∧ 1 ≤ r.cells.length

theorem refEmit_rel (cb1 cb2 : Nat → Option (List Int)) (r r' : RefSt)
    (h : RelInv r r') : RelInv (refEmit cb1 r) (refEmit cb2 r') := by
  obtain ⟨h0, hev, hlen, hpos⟩ := h
  have hget1 : ∀ (cb : Nat → Option (List Int)) (x : RefSt), 1 ≤ x.cells.length →
      (refEmit cb x).cells.getD 0 [] = x.cells.getD 0 [] := by
    intro cb x hx
    simp only [refEmit]
    cases cb x.events.length with
    | none => exact getD_append_lt _ _ 0 _ (by omega)
    | some v =>
      rw [getD_set_ne _ _ _ _ _ (by omega)]
      exact getD_append_lt _ _ 0 _ (by omega)
  have hlen1 : ∀ (cb : Nat → Option (List Int)) (x : RefSt),
      (refEmit cb x).cells.length = x.cells.length + 1 := by
    intro cb x
    simp only [refEmit]
    cases cb x.events.length with
    | none => simp
    | some v => simp
  refine ⟨?_, ?_, ?_, ?_⟩
  · rw [hget1 cb1 r hpos, hget1 cb2 r' (by omega)]
    exact h0
  · simp only [refEmit, hev, hlen, h0]
  · rw [hlen1, hlen1, hlen]
  · rw [hlen1]
    omega

theorem refStep_rel (cb1 cb2 : Nat → Option (List Int)) (r r' : RefSt)
    (mutate : List Int → List Int) (h : RelInv r r') :
    RelInv (refStep cb1 r mutate) (refStep cb2 r' mutate) := by
  obtain ⟨h0, hev, hlen, hpos⟩ := h
  apply refEmit_rel
  refine ⟨?_, hev, ?_, ?_⟩
  · simp only []
    rw [h0, getD_set_self _ _ _ _ (by omega), getD_set_self _ _ _ _ (by omega)]
  · simp [hlen]
  · simp
    omega

theorem refFold_rel (cb1 cb2 : Nat → Option (List Int)) :
    ∀ (steps : List (List Int → List Int)) (r r' : RefSt), RelInv r r' →
      RelInv (steps.foldl (refStep cb1) r) (steps.foldl (refStep cb2) r') := by
  intro steps
  induction steps with
  | nil => intro r r' h; exact h
  | cons m rest ih =>
    intro r r' h
    exact ih _ _ (refStep_rel cb1 cb2 r r' m h)

/-- With a callback that does not write into its received arrays, every
delivered cell keeps the ghost snapshot recorded at its emit. -/
def GhostInv (r : RefSt) : Prop :=
  1 ≤ r.cells.length ∧
    ∀ p ∈ r.events, 1 ≤ p.1 ∧ p.1 < r.cells.length ∧ r.cells.getD p.1 [] = p.2

theorem refEmit_ghost (r : RefSt) (h : GhostInv r) :
    GhostInv (refEmit (fun _ => none) r) := by
  obtain ⟨hpos, hp⟩ := h
  constructor
  · simp [refEmit]
  · intro p hpmem
    simp only [refEmit, List.mem_append, List.mem_singleton] at hpmem
    rcases hpmem with hold | rfl
    · obtain ⟨h1, h2, h3⟩ := hp p hold
      refine ⟨h1, ?_, ?_⟩
      · simp [refEmit]
        omega
      · simp only [refEmit]
        rw [getD_append_lt _ _ _ _ h2]
        exact h3
    · refine ⟨by omega, ?_, ?_⟩
      · simp [refEmit]
      · simp only [refEmit]
        exact getD_append_self _ _ _

theorem refStep_ghost (r : RefSt) (mutate : List Int → List Int) (h : GhostInv r) :
    GhostInv (refStep (fun _ => none) r mutate) := by
  obtain ⟨hpos, hp⟩ := h
  apply refEmit_ghost
  constructor
  · simp only []
    simp
    omega
  · intro p hpmem
    simp only [] at hpmem
    obtain ⟨h1, h2, h3⟩ := hp p hpmem
    refine ⟨h1, by simp [h2], ?_⟩
    simp only []
    rw [getD_set_ne _ _ _ _ _ (by omega)]
    exact h3

theorem refFold_ghost :
    ∀ (steps : List (List Int → List Int)) (r : RefSt), GhostInv r →
      GhostInv (steps.foldl (refStep (fun _ => none)) r) := by
  intro steps
  induction steps with
  | nil => intro r h; exact h
  | cons m rest ih =>
    intro r h
    exact ih _ (refStep_ghost r m h)

theorem refFold_addr_pos (cbW : Nat → Option (List Int)) :
    ∀ (steps : List (List Int → List Int)) (r : RefSt),
      1 ≤ r.cells.length → (∀ p ∈ r.events, 1 ≤ p.1) →
      1 ≤ (steps.foldl (refStep cbW) r).cells.length ∧
        ∀ p ∈ (steps.foldl (refStep cbW) r).events, 1 ≤ p.1 := by
  intro steps
  induction steps with
  | nil => intro r h1 h2; exact ⟨h1, h2⟩
  | cons m rest ih =>
    intro r h1 h2
    apply ih
    · simp only [refStep, refEmit]
      cases cbW r.events.length with
      | none => simp
      | some v => simp
    · intro p hpmem
      simp only [refStep, refEmit, List.mem_append, List.mem_singleton] at hpmem
      rcases hpmem with hold | rfl
      · exact h2 p hold
      · simp
        omega

/-- C10: Every callback invocation on the non-failure path passes a
freshly allocated copy of the working array.  In the reference-cell
model: (1) the delivered address is never the working cell; (2) whatever
the callback writes into the arrays it received, the working array and
the whole event stream (addresses and contents delivered) are unchanged;
(3) with a non-mutating callback, the cell delivered at each emit still
holds, at the end of the run, exactly the snapshot recorded at that emit
— later mutations by the algorithm never alter a delivered snapshot. -/
theorem callback_snapshots_fresh_and_immutable
    (steps : List (List Int → List Int)) (cbW : Nat → Option (List Int))
    (init : List Int) :
    (∀ p ∈ (runRef steps cbW init).events, 1 ≤ p.1) ∧
    ((runRef steps cbW init).cells.getD 0 [] =
        (runRef steps (fun _ => none) init).cells.getD 0 [] ∧
      (runRef steps cbW init).events = (runRef steps (fun _ => none) init).events) ∧
    (∀ p ∈ (runRef steps (fun _ => none) init).events,
      (runRef steps (fun _ => none) init).cells.getD p.1 [] = p.2) := by
  have hrel : RelInv (steps.foldl (refStep cbW) { cells := [init], events := [] })
      (steps.foldl (refStep (fun _ => none)) { cells := [init], events := [] }) :=
    refFold_rel cbW (fun _ => none) steps _ _ ⟨rfl, rfl, rfl, by simp⟩
  have hghost : GhostInv ((runRef steps (fun _ => none) init)) := by
    apply refEmit_ghost
    exact refFold_ghost steps _ ⟨by simp, by simp⟩
  have haddr := refFold_addr_pos cbW steps { cells := [init], events := [] }
    (by simp) (by simp)
  refine ⟨?_, ?_, ?_⟩
  · intro p hpmem
    simp only [runRef, refEmit, List.mem_append, List.mem_singleton] at hpmem
    rcases hpmem with hold | rfl
    · exact haddr.2 p hold
    · have := haddr.1
      simp
      omega
  · exact ⟨(refEmit_rel cbW (fun _ => none) _ _ hrel).1,
      (refEmit_rel cbW (fun _ => none) _ _ hrel).2.1⟩
  · intro p hpmem
    exact (hghost.2 p hpmem).2.2

/-! ### Cancellation (C8) -/

theorem appDeliverFrom_cancelled :
    ∀ (evs : List EmitEvent) (flip b : Nat) (st : AppState), flip ≤ b →
      appDeliverFrom flip st b evs = st := by
  intro evs
  induction evs with
  | nil => intro flip b st h; rfl
  | cons ev rest ih =>
    intro flip b st h
    simp only [appDeliverFrom, appUpdateCallback, decide_eq_true h, if_pos]
    exact ih flip (b + 1) st (by omega)

theorem appDeliverFrom_take :
    ∀ (evs : List EmitEvent) (b : Nat) (flip : Nat) (st : AppState),
      appDeliverFrom flip st b evs = appDeliverFrom flip st b (evs.take (flip - b)) := by
  intro evs
  induction evs with
  | nil => intro b flip st; simp
  | cons ev rest ih =>
    intro b flip st
    by_cases h : flip ≤ b
    · rw [appDeliverFrom_cancelled _ _ _ _ h]
      have h0 : flip - b = 0 := by omega
      rw [h0]
      rfl
    · have h1 : flip - b = (flip - (b + 1)) + 1 := by omega
      rw [h1]
      simp only [List.take_succ_cons, appDeliverFrom]
      exact ih (b + 1) flip _

/-- C8 (amended): the cancellation flag lives in the App callback, not in
the engine: once it is set (from invocation index `flip` on), every later
invocation returns at the `if (isCancelled) return` guard, so the arena
state after the whole stream equals the state after just the first `flip`
deliveries — no further state change and no final-callback effect.  A
cancellation observed before any delivery leaves the arena state
untouched entirely.  (The engine itself keeps invoking the callback: see
the counterexample theorem.) -/
theorem cancellation_freezes_arena_state (events : List EmitEvent) (flip : Nat)
    (st0 : AppState) :
    appDeliver events flip st0 = appDeliver (events.take flip) flip st0 ∧
    appDeliver events 0 st0 = st0 := by
  constructor
  · have := appDeliverFrom_take events 0 flip st0
    simpa [appDeliver] using this
  · exact appDeliverFrom_cancelled events 0 0 st0 (by omega)

/-- C8 (counterexample to the claim as stated): the claim says that after
the flag flip no further emit calls occur, i.e. the callback-invocation
count never rises above its value at the flip.  The runner closes over no
cancellation flag at all (getAlgorithmRunner takes none), so it keeps
invoking the callback: bubble sort on [2,1] delivers 3 invocations
(compare, swap, final) whatever the flag does; with the flag flipped
after the first invocation, the count still reaches 3 > 1. -/
theorem cancellation_callback_invocations_continue :
    (runVariant (asVariant bubbleSortFunc) [2, 1]).map (fun p => p.1.trace.length) =
      some 3 ∧ ¬ (3 ≤ 1) := by
  constructor
  · simp [runVariant, asVariant, bubbleSortFunc, bubbleOuter, bubbleInner,
      St.addC, St.addS, St.addW, St.emitE, St.getA, St.setA, St.swapA, swapL]
  · omega

/-! ### Sortedness infrastructure for the variant proofs (C1) -/

/-- Adjacent-pairs ordering, the form the loop invariants produce. -/
def adjSorted (l : List Int) : Prop :=
  ∀ i, i + 1 < l.length → l.getD i 0 ≤ l.getD (i + 1) 0

theorem getD_eq_get (l : List Int) (i : Nat) (h : i < l.length) :
    l.getD i 0 = l.get ⟨i, h⟩ := by
  simp [List.getD_eq_getElem?_getD, List.getElem?_eq_getElem h]

theorem sorted_of_adjSorted (l : List Int) (h : adjSorted l) : l.Sorted (· ≤ ·) := by
  rw [List.Sorted, ← List.chain'_iff_pairwise, List.chain'_iff_get]
  intro i hi
  have h1 := h i (by omega)
  rw [getD_eq_get l i (by omega), getD_eq_get l (i + 1) (by omega)] at h1
  exact h1

theorem adjSorted_of_sorted (l : List Int) (h : l.Sorted (· ≤ ·)) : adjSorted l := by
  intro i hi
  rw [List.Sorted, ← List.chain'_iff_pairwise, List.chain'_iff_get] at h
  have h1 := h i (by omega)
  rw [getD_eq_get l i (by omega), getD_eq_get l (i + 1) (by omega)]
  exact h1

/-- Lists of equal length that agree pointwise are equal. -/
theorem eq_of_getD_eq (l l' : List Int) (hlen : l.length = l'.length)
    (h : ∀ k, k < l.length → l.getD k 0 = l'.getD k 0) : l = l' := by
  apply List.ext_getElem hlen
  intro i h1 h2
  have := h i h1
  rw [getD_eq_get l i h1, getD_eq_get l' i h2] at this
  exact this

/-- A membership-to-index bridge. -/
theorem mem_iff_getD (l : List Int) (v : Int) :
    v ∈ l ↔ ∃ k, k < l.length ∧ l.getD k 0 = v := by
  constructor
  · intro hv
    obtain ⟨⟨k, hk⟩, he⟩ := List.mem_iff_get.mp hv
    exact ⟨k, hk, by rw [getD_eq_get l k hk, he]⟩
  · rintro ⟨k, hk, rfl⟩
    rw [getD_eq_get l k hk]
    exact List.get_mem l k hk

/-- `drop` agreement from pointwise agreement above `n`. -/
theorem drop_eq_of_getD_eq (l l' : List Int) (n : Nat) (hlen : l.length = l'.length)
    (h : ∀ k, n ≤ k → k < l.length → l.getD k 0 = l'.getD k 0) :
    l.drop n = l'.drop n := by
  apply eq_of_getD_eq
  · simp [hlen]
  · intro k hk
    simp only [List.length_drop] at hk
    have h1 : n + k < l.length := by omega
    have h2 : n + k < l'.length := by omega
    rw [getD_eq_get _ k (by simp; omega), List.get_drop', getD_eq_get _ k (by simp [List.length_drop]; omega), List.get_drop']
    have := h (n + k) (by omega) h1
    rw [getD_eq_get l _ h1, getD_eq_get l' _ h2] at this
    simpa using this

/-- If two lists are permutations and agree above `n`, their prefixes of
length `n` are permutations. -/
theorem take_perm_of_perm_of_drop_eq (l l' : List Int) (n : Nat)
    (hperm : l'.Perm l) (hdrop : l'.drop n = l.drop n) :
    (l'.take n).Perm (l.take n) := by
  have h1 : l'.take n ++ l'.drop n = l' := List.take_append_drop n l'
  have h2 : l.take n ++ l.drop n = l := List.take_append_drop n l
  have hx : (l'.take n ++ l'.drop n).Perm (l.take n ++ l.drop n) := by
    rw [h1, h2]
    exact hperm
  rw [hdrop] at hx
  exact (List.perm_append_right_iff (l.drop n)).mp hx

/-! ### Bubble sort correctness -/

theorem getD_swapL_fst (l : List Int) (i j : Nat) (hi : i < l.length) :
    (swapL l i j).getD i 0 = l.getD j 0 := by
  by_cases hij : i = j
  · subst hij
    simp only [swapL]
    rw [getD_set_self _ _ _ _ (by simpa using hi)]
  · simp only [swapL]
    rw [getD_set_ne _ _ _ _ _ (fun he => hij he.symm), getD_set_self _ _ _ _ hi]

theorem getD_swapL_snd (l : List Int) (i j : Nat) (hj : j < l.length) :
    (swapL l i j).getD j 0 = l.getD i 0 := by
  simp only [swapL]
  rw [getD_set_self _ _ _ _ (by simpa using hj)]

theorem getD_swapL_other (l : List Int) (i j k : Nat) (hki : k ≠ i) (hkj : k ≠ j) :
    (swapL l i j).getD k 0 = l.getD k 0 := by
  simp only [swapL]
  rw [getD_set_ne _ _ _ _ _ (fun he => hkj he.symm), getD_set_ne _ _ _ _ _ (fun he => hki he.symm)]

theorem bubbleInner_arr_length (s : St) (i n : Nat) (sw : Bool) :
    (bubbleInner s i n sw).1.arr.length = s.arr.length := by
  induction s, i, n, sw using bubbleInner.induct with
  | case1 s i n sw h s1 hlt s2 ih =>
    rw [bubbleInner, dif_pos h, if_pos hlt]
    simp only []
    unfold_let s2 s1 at ih
    rw [ih]
    simp
  | case2 s i n sw h s1 hlt ih =>
    rw [bubbleInner, dif_pos h, if_neg hlt]
    try simp only []
    unfold_let s1 at ih
    rw [ih]
    simp
  | case3 s i n sw h =>
    rw [bubbleInner, dif_neg h]

theorem getD_take (l : List Int) (n j : Nat) (h : j < n) :
    (l.take n).getD j 0 = l.getD j 0 := by
  simp [List.getD_eq_getElem?_getD, List.getElem?_take, h]

theorem getD_mem_take (l : List Int) (n k : Nat) (hk : k < n) (hkl : k < l.length) :
    l.getD k 0 ∈ l.take n := by
  rw [← getD_take l n k hk]
  exact (mem_iff_getD _ _).mpr ⟨k, by simp; omega, rfl⟩

theorem take_mem_getD (l : List Int) (n : Nat) (v : Int) (h : v ∈ l.take n) :
    ∃ j, j < n ∧ j < l.length ∧ l.getD j 0 = v := by
  obtain ⟨j, hj, he⟩ := (mem_iff_getD _ _).mp h
  simp only [List.length_take] at hj
  refine ⟨j, by omega, by omega, ?_⟩
  rw [← getD_take l n j (by omega)]
  exact he

theorem bubbleInner_arr_perm (s : St) (i n : Nat) (sw : Bool) :
    n ≤ s.arr.length → (bubbleInner s i n sw).1.arr.Perm s.arr := by
  induction s, i, n, sw using bubbleInner.induct with
  | case1 s i n sw h s1 hlt s2 ih =>
    intro hn
    rw [bubbleInner, dif_pos h, if_pos hlt]
    try simp only []
    unfold_let s2 s1 at ih
    refine (ih (by simpa using hn)).trans ?_
    simp only [St.arr_emitE, St.arr_swapA, St.arr_addC, St.arr_addS, St.arr_addW]
    exact perm_swapL _ _ _ (by omega) (by omega)
  | case2 s i n sw h s1 hlt ih =>
    intro hn
    rw [bubbleInner, dif_pos h, if_neg hlt]
    try simp only []
    unfold_let s1 at ih
    exact (ih (by simpa using hn)).trans (by simp)
  | case3 s i n sw h =>
    intro hn
    rw [bubbleInner, dif_neg h]

theorem bubbleInner_arr_frame (s : St) (i n : Nat) (sw : Bool) :
    ∀ k, (k < i ∨ n ≤ k) →
      (bubbleInner s i n sw).1.arr.getD k 0 = s.arr.getD k 0 := by
  induction s, i, n, sw using bubbleInner.induct with
  | case1 s i n sw h s1 hlt s2 ih =>
    intro k hk
    rw [bubbleInner, dif_pos h, if_pos hlt]
    try simp only []
    unfold_let s2 s1 at ih
    rw [ih k (by omega)]
    simp only [St.arr_emitE, St.arr_swapA, St.arr_addC, St.arr_addS, St.arr_addW]
    rw [getD_swapL_other _ _ _ _ (by omega) (by omega)]
  | case2 s i n sw h s1 hlt ih =>
    intro k hk
    rw [bubbleInner, dif_pos h, if_neg hlt]
    try simp only []
    unfold_let s1 at ih
    rw [ih k (by omega)]
    simp
  | case3 s i n sw h =>
    intro k hk
    rw [bubbleInner, dif_neg h]

theorem bubbleInner_max (s : St) (i n : Nat) (sw : Bool) :
    n ≤ s.arr.length → (i < n ∨ n = 0) →
    (∀ k, k ≤ i → s.arr.getD k 0 ≤ s.arr.getD i 0) →
    ∀ k, k + 1 ≤ n →
      (bubbleInner s i n sw).1.arr.getD k 0 ≤
        (bubbleInner s i n sw).1.arr.getD (n - 1) 0 := by
  induction s, i, n, sw using bubbleInner.induct with
  | case1 s i n sw h s1 hlt s2 ih =>
    intro hn hin hpre
    have hlt2 : s.arr.getD (i + 1) 0 < s.arr.getD i 0 := by
      have hc := hlt
      unfold_let s1 at hc
      simp only [St.getA, St.arr_emitE, St.arr_addC] at hc
      omega
    rw [bubbleInner, dif_pos h, if_pos hlt]
    try simp only []
    unfold_let s2 s1 at ih
    apply ih (by simpa using hn) (by omega)
    intro k hk
    simp only [St.arr_emitE, St.arr_swapA, St.arr_addC, St.arr_addS, St.arr_addW]
    rw [getD_swapL_snd _ _ _ (by omega)]
    rcases Nat.lt_or_ge k (i + 1) with hki | hki
    · rcases Nat.lt_or_ge k i with hki2 | hki2
      · rw [getD_swapL_other _ _ _ _ (by omega) (by omega)]
        exact hpre k (by omega)
      · have hke : k = i := by omega
        subst hke
        rw [getD_swapL_fst _ _ _ (by omega)]
        omega
    · have hke : k = i + 1 := by omega
      subst hke
      rw [getD_swapL_snd _ _ _ (by omega)]
  | case2 s i n sw h s1 hlt ih =>
    intro hn hin hpre
    have hlt2 : s.arr.getD i 0 ≤ s.arr.getD (i + 1) 0 := by
      have hc := hlt
      unfold_let s1 at hc
      simp only [St.getA, St.arr_emitE, St.arr_addC] at hc
      omega
    rw [bubbleInner, dif_pos h, if_neg hlt]
    try simp only []
    unfold_let s1 at ih
    apply ih (by simpa using hn) (by omega)
    intro k hk
    simp only [St.arr_emitE, St.arr_addC]
    rcases Nat.lt_or_ge k (i + 1) with hki | hki
    · exact le_trans (hpre k (by omega)) hlt2
    · have hke : k = i + 1 := by omega
      subst hke
      exact le_refl _
  | case3 s i n sw h =>
    intro hn hin hpre
    rw [bubbleInner, dif_neg h]
    intro k hk
    have hi : i = n - 1 := by omega
    subst hi
    exact hpre k (by omega)

theorem bubbleInner_flag_sticks (s : St) (i n : Nat) (sw : Bool) :
    sw = true → (bubbleInner s i n sw).2 = true := by
  induction s, i, n, sw using bubbleInner.induct with
  | case1 s i n sw h s1 hlt s2 ih =>
    intro hsw
    rw [bubbleInner, dif_pos h, if_pos hlt]
    try simp only []
    unfold_let s2 s1 at ih
    exact ih rfl
  | case2 s i n sw h s1 hlt ih =>
    intro hsw
    rw [bubbleInner, dif_pos h, if_neg hlt]
    try simp only []
    unfold_let s1 at ih
    exact ih hsw
  | case3 s i n sw h =>
    intro hsw
    rw [bubbleInner, dif_neg h]
    exact hsw

theorem bubbleInner_no_swap (s : St) (i n : Nat) (sw : Bool) :
    (bubbleInner s i n sw).2 = false →
    (bubbleInner s i n sw).1.arr = s.arr ∧
      ∀ k, i ≤ k → k + 1 < n → s.arr.getD k 0 ≤ s.arr.getD (k + 1) 0 := by
  induction s, i, n, sw using bubbleInner.induct with
  | case1 s i n sw h s1 hlt s2 ih =>
    intro hfalse
    rw [bubbleInner, dif_pos h, if_pos hlt] at hfalse
    try simp only [] at hfalse
    unfold_let s2 s1 at ih
    rw [bubbleInner_flag_sticks _ _ _ _ rfl] at hfalse
    exact absurd hfalse (by simp)
  | case2 s i n sw h s1 hlt ih =>
    intro hfalse
    rw [bubbleInner, dif_pos h, if_neg hlt] at hfalse
    try simp only [] at hfalse
    unfold_let s1 at ih
    have hlt2 : s.arr.getD i 0 ≤ s.arr.getD (i + 1) 0 := by
      have hc := hlt
      unfold_let s1 at hc
      simp only [St.getA, St.arr_emitE, St.arr_addC] at hc
      omega
    obtain ⟨h1, h2⟩ := ih hfalse
    constructor
    · rw [bubbleInner, dif_pos h, if_neg hlt]
      try simp only []
      rw [h1]
      simp
    · intro k hk hk1
      rcases Nat.lt_or_ge k i with hik | hik
      · omega
      rcases Nat.eq_or_lt_of_le hik with hik2 | hik2
      · rw [← hik2]
        exact hlt2
      · have := h2 k (by omega) hk1
        simpa using this
  | case3 s i n sw h =>
    intro hfalse
    rw [bubbleInner, dif_neg h]
    refine ⟨rfl, ?_⟩
    intro k hk hk1
    omega

theorem bubbleOuter_sorted : ∀ (n : Nat) (s : St),
    n ≤ s.arr.length →
    (∀ k, n ≤ k → k + 1 < s.arr.length → s.arr.getD k 0 ≤ s.arr.getD (k + 1) 0) →
    (∀ j k, j < n → n ≤ k → k < s.arr.length → s.arr.getD j 0 ≤ s.arr.getD k 0) →
    adjSorted (bubbleOuter s n).arr ∧ (bubbleOuter s n).arr.Perm s.arr := by
  intro n
  induction n with
  | zero =>
    intro s hn h1 h2
    have he : bubbleOuter s 0 = s := by
      rw [bubbleOuter, bubbleInner, dif_neg (by omega)]
    rw [he]
    exact ⟨fun i hi => h1 i (by omega) hi, List.Perm.refl _⟩
  | succ m ih =>
    intro s hn h1 h2
    have hperm := bubbleInner_arr_perm s 0 (m + 1) false (by omega)
    have hlen := bubbleInner_arr_length s 0 (m + 1) false
    have hframe := bubbleInner_arr_frame s 0 (m + 1) false
    have hmax := bubbleInner_max s 0 (m + 1) false (by omega) (by omega)
      (fun k hk => by
        have hk0 : k = 0 := by omega
        subst hk0
        exact le_refl _)
    have hdrop : (bubbleInner s 0 (m + 1) false).1.arr.drop (m + 1) = s.arr.drop (m + 1) := by
      apply drop_eq_of_getD_eq _ _ _ hlen
      intro k hk hk2
      exact hframe k (by omega)
    have htake : ((bubbleInner s 0 (m + 1) false).1.arr.take (m + 1)).Perm
        (s.arr.take (m + 1)) :=
      take_perm_of_perm_of_drop_eq _ _ _ hperm hdrop
    -- a value sitting in the processed prefix after the pass came from the
    -- prefix before the pass
    have hfrom : ∀ j, j < m + 1 →
        ∃ j2, j2 < m + 1 ∧ j2 < s.arr.length ∧
          s.arr.getD j2 0 = (bubbleInner s 0 (m + 1) false).1.arr.getD j 0 := by
      intro j hj
      rcases Nat.lt_or_ge j s.arr.length with hjl | hjl
      · have hmem : (bubbleInner s 0 (m + 1) false).1.arr.getD j 0 ∈
            (bubbleInner s 0 (m + 1) false).1.arr.take (m + 1) :=
          getD_mem_take _ _ _ hj (by omega)
        exact take_mem_getD _ _ _ (htake.subset hmem)
      · refine ⟨j, hj, by omega, ?_⟩
        rw [List.getD_eq_getElem?_getD, List.getD_eq_getElem?_getD,
          List.getElem?_eq_none (by omega), List.getElem?_eq_none (by omega)]
    rw [bubbleOuter]
    try simp only []
    by_cases hp : (bubbleInner s 0 (m + 1) false).2
    · rw [if_pos hp]
      have hih := ih (bubbleInner s 0 (m + 1) false).1
        (by omega)
        (by
          intro k hk hk1
          rcases Nat.eq_or_lt_of_le hk with hke | hklt
          · subst hke
            rcases Nat.lt_or_ge (m + 1) s.arr.length with hm1 | hm1
            · rw [hframe (m + 1) (by omega)]
              obtain ⟨j2, hj2a, hj2b, hj2e⟩ := hfrom m (by omega)
              rw [← hj2e]
              exact h2 j2 (m + 1) hj2a (by omega) hm1
            · omega
          · rw [hframe k (by omega), hframe (k + 1) (by omega)]
            exact h1 k (by omega) (by omega))
        (by
          intro j k hj hk hkl
          rcases Nat.eq_or_lt_of_le hk with hke | hklt
          · subst hke
            exact hmax j (by omega)
          · rw [hframe k (by omega)]
            obtain ⟨j2, hj2a, hj2b, hj2e⟩ := hfrom j (by omega)
            rw [← hj2e]
            exact h2 j2 k hj2a (by omega) (by omega))
      exact ⟨hih.1, hih.2.trans hperm⟩
    · rw [if_neg hp]
      obtain ⟨heq, hadj⟩ := bubbleInner_no_swap s 0 (m + 1) false (by simpa using hp)
      rw [heq]
      constructor
      · intro k hk
        rcases Nat.lt_or_ge (k + 1) (m + 1) with hkm | hkm
        · exact hadj k (by omega) hkm
        rcases Nat.eq_or_lt_of_le hkm with hke | hklt
        · have hkm2 : k = m := by omega
          rw [hkm2]
          exact h2 m (m + 1) (by omega) (by omega) (by omega)
        · exact h1 k (by omega) (by omega)
      · exact List.Perm.refl _

/-- Bubble sort leaves the working array a sorted permutation of its
input, for every starting state. -/
theorem bubbleSortFunc_sorts (s : St) :
    (bubbleSortFunc s).arr.Perm s.arr ∧ (bubbleSortFunc s).arr.Sorted (· ≤ ·) := by
  have h := bubbleOuter_sorted s.arr.length s (le_refl _)
    (fun k hk hk1 => by omega) (fun j k hj hk hkl => by omega)
  exact ⟨h.2, sorted_of_adjSorted _ h.1⟩

/-! ### Selection sort correctness -/

theorem selInner_arr (s : St) (minIdx j n : Nat) :
    (selInner s minIdx j n).1.arr = s.arr := by
  induction s, minIdx, j, n using selInner.induct with
  | case1 s minIdx j n h s1 hlt ih =>
    rw [selInner, dif_pos h, if_pos hlt]
    try simp only []
    unfold_let s1 at ih
    rw [ih]
    simp
  | case2 s minIdx j n h s1 hlt ih =>
    rw [selInner, dif_pos h, if_neg hlt]
    try simp only []
    unfold_let s1 at ih
    rw [ih]
    simp
  | case3 s minIdx j n h =>
    rw [selInner, dif_neg h]

theorem selInner_min (s : St) (minIdx j n : Nat) :
    minIdx < n →
    (selInner s minIdx j n).2 < n ∧
    (minIdx ≤ (selInner s minIdx j n).2 ∨ j ≤ (selInner s minIdx j n).2) ∧
    s.arr.getD (selInner s minIdx j n).2 0 ≤ s.arr.getD minIdx 0 ∧
    ∀ k, j ≤ k → k < n →
      s.arr.getD (selInner s minIdx j n).2 0 ≤ s.arr.getD k 0 := by
  induction s, minIdx, j, n using selInner.induct with
  | case1 s minIdx j n h s1 hlt ih =>
    intro hm
    have hlt2 : s.arr.getD j 0 < s.arr.getD minIdx 0 := by
      have hc := hlt
      unfold_let s1 at hc
      simp only [St.getA, St.arr_emitE, St.arr_addC] at hc
      omega
    rw [selInner, dif_pos h, if_pos hlt]
    try simp only []
    unfold_let s1 at ih
    obtain ⟨ih1, ih2, ih3, ih4⟩ := ih h
    simp only [St.arr_emitE, St.arr_addC] at ih3 ih4
    refine ⟨ih1, ?_, ?_, ?_⟩
    · right
      omega
    · exact le_trans ih3 (le_of_lt hlt2)
    · intro k hk hkn
      rcases Nat.eq_or_lt_of_le hk with hke | hklt
      · rw [← hke]
        exact ih3
      · exact ih4 k (by omega) hkn
  | case2 s minIdx j n h s1 hlt ih =>
    intro hm
    have hlt2 : s.arr.getD minIdx 0 ≤ s.arr.getD j 0 := by
      have hc := hlt
      unfold_let s1 at hc
      simp only [St.getA, St.arr_emitE, St.arr_addC] at hc
      omega
    rw [selInner, dif_pos h, if_neg hlt]
    try simp only []
    unfold_let s1 at ih
    obtain ⟨ih1, ih2, ih3, ih4⟩ := ih hm
    simp only [St.arr_emitE, St.arr_addC] at ih3 ih4
    refine ⟨ih1, ?_, ih3, ?_⟩
    · rcases ih2 with h2 | h2
      · left; exact h2
      · right; omega
    · intro k hk hkn
      rcases Nat.eq_or_lt_of_le hk with hke | hklt
      · rw [← hke]
        exact le_trans ih3 hlt2
      · exact ih4 k (by omega) hkn
  | case3 s minIdx j n h =>
    intro hm
    rw [selInner, dif_neg h]
    exact ⟨hm, Or.inl (le_refl _), le_refl _, fun k hk hkn => by omega⟩

theorem selOuter_sorted : ∀ (s : St) (i n : Nat),
    n = s.arr.length →
    (∀ j k, j < i → j < k → k < s.arr.length → s.arr.getD j 0 ≤ s.arr.getD k 0) →
    adjSorted (selOuter s i n).arr ∧ (selOuter s i n).arr.Perm s.arr := by
  intro s i n
  induction s, i, n using selOuter.induct with
  | case1 s i n h p s2 ih =>
    intro hn hinv
    obtain ⟨hr1, hr2, hr3, hr4⟩ := selInner_min s i (i + 1) n (by omega)
    have hparr : p.1.arr = s.arr := selInner_arr s i (i + 1) n
    have hrge : i ≤ p.2 := by
      unfold_let p
      omega
    rw [selOuter, dif_pos h]
    try simp only []
    unfold_let s2 p at ih
    by_cases hcase : (selInner s i (i + 1) n).2 ≠ i
    · rw [dif_pos hcase] at ih
      rw [if_pos hcase]
      have harr2 : (((((selInner s i (i + 1) n).1.addS 1).addW 2).swapA i
            (selInner s i (i + 1) n).2).emitE
            { swapping := some [i, (selInner s i (i + 1) n).2] }).arr =
          swapL s.arr i (selInner s i (i + 1) n).2 := by
        simp only [St.arr_emitE, St.arr_swapA, St.arr_addS, St.arr_addW]
        rw [selInner_arr]
      have hih := ih (by rw [harr2]; simp [hn]) ?_
      · refine ⟨hih.1, hih.2.trans ?_⟩
        rw [harr2]
        exact perm_swapL _ _ _ (by omega) (by omega)
      · intro j k hj hjk hkl
        rw [harr2] at hkl ⊢
        simp only [length_swapL] at hkl
        by_cases hji : j = i
        · rw [hji]
          rw [getD_swapL_fst _ _ _ (by omega)]
          by_cases hkr : k = (selInner s i (i + 1) n).2
          · rw [hkr]
            rw [getD_swapL_snd _ _ _ (by omega)]
            exact hr3
          · rw [getD_swapL_other _ _ _ _ (by omega) hkr]
            exact hr4 k (by omega) (by omega)
        · have hji2 : j < i := by omega
          rw [getD_swapL_other _ _ _ _ (by omega) (by omega)]
          by_cases hki : k = i
          · rw [hki]
            rw [getD_swapL_fst _ _ _ (by omega)]
            exact hinv j (selInner s i (i + 1) n).2 hji2 (by omega) (by omega)
          · by_cases hkr : k = (selInner s i (i + 1) n).2
            · rw [hkr]
              rw [getD_swapL_snd _ _ _ (by omega)]
              exact hinv j i hji2 (by omega) (by omega)
            · rw [getD_swapL_other _ _ _ _ hki hkr]
              exact hinv j k hji2 hjk hkl
    · rw [dif_neg hcase] at ih
      rw [if_neg hcase]
      have hri : (selInner s i (i + 1) n).2 = i := by omega
      have hih := ih (by rw [hparr]; exact hn) ?_
      · refine ⟨hih.1, hih.2.trans ?_⟩
        rw [hparr]
      · intro j k hj hjk hkl
        rw [hparr] at hkl ⊢
        by_cases hji : j = i
        · rw [hji]
          have hx := hr4 k (by omega) (by omega)
          rw [hri] at hx
          exact hx
        · exact hinv j k (by omega) hjk hkl
  | case2 s i n h =>
    intro hn hinv
    rw [selOuter, dif_neg h]
    refine ⟨?_, List.Perm.refl _⟩
    intro k hk
    exact hinv k (k + 1) (by omega) (by omega) (by omega)

/-- Selection sort leaves the working array a sorted permutation of its
input, for every starting state. -/
theorem selectionSortFunc_sorts (s : St) :
    (selectionSortFunc s).arr.Perm s.arr ∧
      (selectionSortFunc s).arr.Sorted (· ≤ ·) := by
  have h := selOuter_sorted s 0 s.arr.length rfl (fun j k hj hjk hkl => by omega)
  exact ⟨h.2, sorted_of_adjSorted _ h.1⟩

/-! ### Bogo sort correctness -/

theorem bogoIsSorted_true (s : St) (i : Nat) :
    (bogoIsSorted s i).2 = true →
    (bogoIsSorted s i).1.arr = s.arr ∧
    ∀ k, i ≤ k → k + 1 < s.arr.length → s.arr.getD k 0 ≤ s.arr.getD (k + 1) 0 := by
  induction s, i using bogoIsSorted.induct with
  | case1 s i h hgt =>
    intro htrue
    rw [bogoIsSorted, dif_pos h, if_pos hgt] at htrue
    simp at htrue
  | case2 s i h hgt ih =>
    intro htrue
    rw [bogoIsSorted, dif_pos h, if_neg hgt] at htrue
    obtain ⟨ih1, ih2⟩ := ih htrue
    have hgt2 : s.arr.getD i 0 ≤ s.arr.getD (i + 1) 0 := by
      have hc := hgt
      simp only [St.getA, St.arr_addC] at hc
      omega
    constructor
    · rw [bogoIsSorted, dif_pos h, if_neg hgt]
      rw [ih1]
      simp
    · intro k hk hk1
      rcases Nat.eq_or_lt_of_le hk with hke | hklt
      · rw [← hke]
        exact hgt2
      · have hx := ih2 k (by omega) (by simpa using hk1)
        simpa using hx
  | case3 s i h =>
    intro htrue
    rw [bogoIsSorted, dif_neg h]
    exact ⟨rfl, fun k hk hk1 => by omega⟩

theorem bogoShuffleLoop_perm (rand : Nat → Nat) :
    ∀ (v : Nat) (s : St) (ctr : Nat), v < s.arr.length ∨ v = 0 →
      (bogoShuffleLoop s rand ctr v).1.arr.Perm s.arr ∧
      (bogoShuffleLoop s rand ctr v).1.arr.length = s.arr.length := by
  intro v
  induction v with
  | zero =>
    intro s ctr hv
    exact ⟨List.Perm.refl _, rfl⟩
  | succ i ih =>
    intro s ctr hv
    have hv2 : i + 1 < s.arr.length := by omega
    rw [bogoShuffleLoop]
    have hj : rand ctr % (i + 2) < s.arr.length := by
      have := Nat.mod_lt (rand ctr) (show 0 < i + 2 by omega)
      omega
    have harr : (((s.addS 1).addW 2).swapA (i + 1) (rand ctr % (i + 2))).arr =
        swapL s.arr (i + 1) (rand ctr % (i + 2)) := by simp
    obtain ⟨ihp, ihl⟩ := ih (((s.addS 1).addW 2).swapA (i + 1) (rand ctr % (i + 2)))
      (ctr + 1) (by rw [harr]; simp; omega)
    rw [harr] at ihp ihl
    constructor
    · exact ihp.trans (perm_swapL _ _ _ hv2 hj)
    · rw [ihl]
      simp

theorem bogoIsSorted_arr (s : St) (i : Nat) : (bogoIsSorted s i).1.arr = s.arr := by
  induction s, i using bogoIsSorted.induct with
  | case1 s i h hgt =>
    rw [bogoIsSorted, dif_pos h, if_pos hgt]
    simp
  | case2 s i h hgt ih =>
    rw [bogoIsSorted, dif_pos h, if_neg hgt]
    rw [ih]
    simp
  | case3 s i h =>
    rw [bogoIsSorted, dif_neg h]

theorem bogoShuffle_arr_perm (s : St) (rand : Nat → Nat) (ctr : Nat) :
    (bogoShuffle s rand ctr).1.arr.Perm s.arr := by
  have hv : s.arr.length - 1 < s.arr.length ∨ s.arr.length - 1 = 0 := by
    rcases Nat.eq_zero_or_pos s.arr.length with h0 | h0
    · right; omega
    · left; omega
  have := (bogoShuffleLoop_perm rand (s.arr.length - 1) s ctr hv).1
  simpa [bogoShuffle] using this

theorem bogoLoop_sorts (rand : Nat → Nat) :
    ∀ (fuel ctr : Nat) (s : St) (s1 : St), bogoLoop rand fuel ctr s = some s1 →
      s1.arr.Perm s.arr ∧ s1.arr.Sorted (· ≤ ·) := by
  intro fuel
  induction fuel with
  | zero =>
    intro ctr s s1 h
    rw [bogoLoop] at h
    by_cases hs : (bogoIsSorted s 0).2
    · rw [if_pos hs] at h
      obtain ⟨ha, hadj⟩ := bogoIsSorted_true s 0 hs
      have hs1 : s1 = (bogoIsSorted s 0).1 := by
        injection h with h2
        exact h2.symm
      rw [hs1, ha]
      exact ⟨List.Perm.refl _,
        sorted_of_adjSorted _ (fun k hk => hadj k (by omega) hk)⟩
    · rw [if_neg hs] at h
      exact absurd h (by simp)
  | succ f ih =>
    intro ctr s s1 h
    rw [bogoLoop] at h
    by_cases hs : (bogoIsSorted s 0).2
    · rw [if_pos hs] at h
      obtain ⟨ha, hadj⟩ := bogoIsSorted_true s 0 hs
      have hs1 : s1 = (bogoIsSorted s 0).1 := by
        injection h with h2
        exact h2.symm
      rw [hs1, ha]
      exact ⟨List.Perm.refl _,
        sorted_of_adjSorted _ (fun k hk => hadj k (by omega) hk)⟩
    · rw [if_neg hs] at h
      obtain ⟨hp, hsort⟩ := ih _ _ _ h
      refine ⟨hp.trans ?_, hsort⟩
      exact (bogoShuffle_arr_perm _ rand ctr).trans
        (by rw [bogoIsSorted_arr s 0])

/-! ### Insertion sort correctness -/

theorem insShift_spec (s : St) (current : Int) (j : Int) :
    -1 ≤ j → j + 1 < (s.arr.length : Int) →
    -1 ≤ (insShift s current j).2 ∧ (insShift s current j).2 ≤ j ∧
    (insShift s current j).1.arr.length = s.arr.length ∧
    (∀ k : Nat, ((k : Int) < (insShift s current j).2 + 2 ∨ (k : Int) > j + 1) →
      (insShift s current j).1.arr.getD k 0 = s.arr.getD k 0) ∧
    (∀ k : Nat, (insShift s current j).2 + 2 ≤ (k : Int) → (k : Int) ≤ j + 1 →
      (insShift s current j).1.arr.getD k 0 = s.arr.getD (k - 1) 0) ∧
    ((insShift s current j).2 < 0 ∨
      s.arr.getD ((insShift s current j).2).toNat 0 ≤ current) ∧
    (∀ k : Nat, (insShift s current j).2 + 1 ≤ (k : Int) → (k : Int) ≤ j →
      s.arr.getD k 0 > current) := by
  induction s, current, j using insShift.induct with
  | case1 s current j h s1 s2 ih =>
    intro hj1 hj2
    obtain ⟨hj0, hgt⟩ := h
    have hgt2 : s.arr.getD j.toNat 0 > current := by
      simpa [St.getA] using hgt
    rw [insShift, dif_pos ⟨hj0, hgt⟩]
    try simp only []
    unfold_let s2 s1 at ih
    have harr2 : (((((s.addC 1).addS 1).addW 1).setA (j.toNat + 1)
        (s.getA j.toNat)).emitE
        { swapping := some [j.toNat, j.toNat + 1] }).arr =
        s.arr.set (j.toNat + 1) (s.arr.getD j.toNat 0) := by
      simp [St.getA]
    obtain ⟨ih1, ih2, ih3, ih4, ih5, ih6, ih7⟩ := ih (by omega) (by rw [harr2]; simp; omega)
    rw [harr2] at ih3 ih4 ih5 ih6 ih7
    have hlen : (s.arr.set (j.toNat + 1) (s.arr.getD j.toNat 0)).length = s.arr.length := by
      simp
    refine ⟨by omega, by omega, by rw [ih3, hlen], ?_, ?_, ?_, ?_⟩
    · intro k hk
      rcases hk with hk | hk
      · rw [ih4 k (Or.inl hk)]
        rw [getD_set_ne _ _ _ _ _ (by omega)]
      · rw [ih4 k (Or.inr (by omega))]
        rw [getD_set_ne _ _ _ _ _ (by omega)]
    · intro k hk1 hk2
      by_cases hkj : (k : Int) = j + 1
      · have hkn : k = j.toNat + 1 := by omega
        rw [ih4 k (Or.inr (by omega))]
        rw [hkn, getD_set_self _ _ _ _ (by omega)]
        simp
      · rw [ih5 k hk1 (by omega)]
        rw [getD_set_ne _ _ _ _ _ (by omega)]
    · rcases ih6 with h6 | h6
      · exact Or.inl h6
      · right
        rw [getD_set_ne _ _ _ _ _ (by omega)] at h6
        exact h6
    · intro k hk1 hk2
      by_cases hkj : (k : Int) = j
      · have hkn : k = j.toNat := by omega
        rw [hkn]
        exact hgt2
      · have := ih7 k hk1 (by omega)
        rw [getD_set_ne _ _ _ _ _ (by omega)] at this
        exact this
  | case2 s current j h =>
    intro hj1 hj2
    rw [insShift, dif_neg h]
    refine ⟨hj1, le_refl _, rfl, fun k hk => rfl, ?_, ?_, ?_⟩
    · intro k hk1 hk2
      omega
    · by_cases hj0 : j < 0
      · exact Or.inl hj0
      · right
        have : ¬ s.getA j.toNat > current := by
          intro hc
          exact h ⟨by omega, hc⟩
        simpa [St.getA] using this
    · intro k hk1 hk2
      omega

/-- An array obtained by inserting the old `i`-th value at slot `m` and
shifting the block `[m, i)` up by one is a permutation of the original. -/
theorem perm_of_insert_shift :
    ∀ (d : Nat) (t v : List Int) (m i : Nat), i - m = d → m ≤ i → i < t.length →
      v.length = t.length →
      (∀ k, k < m → v.getD k 0 = t.getD k 0) →
      v.getD m 0 = t.getD i 0 →
      (∀ k, m < k → k ≤ i → v.getD k 0 = t.getD (k - 1) 0) →
      (∀ k, i < k → k < t.length → v.getD k 0 = t.getD k 0) →
      v.Perm t := by
  intro d
  induction d with
  | zero =>
    intro t v m i hd hmi hil hlen h1 h2 h3 h4
    have hmi2 : m = i := by omega
    have he : v = t := by
      apply eq_of_getD_eq v t hlen
      intro k hk
      rcases Nat.lt_trichotomy k m with hc | hc | hc
      · exact h1 k hc
      · rw [hc, h2, hmi2]
      · rw [h4 k (by omega) (by omega)]
    rw [he]
  | succ d ih =>
    intro t v m i hd hmi hil hlen h1 h2 h3 h4
    have hmlt : m < i := by omega
    have hvlen : m + 1 < v.length := by omega
    have hperm : (swapL v m (m + 1)).Perm v := perm_swapL v m (m + 1) (by omega) (by omega)
    have happly : (swapL v m (m + 1)).Perm t := by
      apply ih t (swapL v m (m + 1)) (m + 1) i (by omega) (by omega) hil (by simp [hlen])
      · intro k hk
        rcases Nat.lt_trichotomy k m with hc | hc | hc
        · rw [getD_swapL_other _ _ _ _ (by omega) (by omega)]
          exact h1 k hc
        · rw [hc, getD_swapL_fst _ _ _ (by omega)]
          rw [h3 (m + 1) (by omega) (by omega)]
          simp
        · omega
      · rw [getD_swapL_snd _ _ _ (by omega)]
        exact h2
      · intro k hk1 hk2
        rw [getD_swapL_other _ _ _ _ (by omega) (by omega)]
        exact h3 k (by omega) hk2
      · intro k hk1 hk2
        rw [getD_swapL_other _ _ _ _ (by omega) (by omega)]
        exact h4 k hk1 hk2
    exact (hperm.symm).trans happly

theorem insOuter_sorted : ∀ (s : St) (i n : Nat),
    n = s.arr.length →
    (∀ a b, a < b → b < i → s.arr.getD a 0 ≤ s.arr.getD b 0) →
    adjSorted (insOuter s i n).arr ∧ (insOuter s i n).arr.Perm s.arr := by
  intro s i n
  induction s, i, n using insOuter.induct with
  | case1 s i n h current s1 p s2 s3 ih =>
    intro hn hinv
    have hq := insShift_spec (s.emitE { comparing := some [i] }) (s.getA i)
      ((i : Int) - 1) (by omega)
      (by
        have hlen1 : (s.emitE { comparing := some [i] }).arr.length = s.arr.length := rfl
        rw [hlen1]
        omega)
    obtain ⟨hr1, hr2, hr3, hr4, hr5, hr6, hr7⟩ := hq
    rw [insOuter, dif_pos h]
    try simp only []
    unfold_let s3 s2 p s1 current at ih
    have hle : ∀ a c : Nat, a ≤ c → c < i → s.arr.getD a 0 ≤ s.arr.getD c 0 := by
      intro a c hac hci
      rcases Nat.eq_or_lt_of_le hac with he | hl
      · rw [he]
      · exact hinv a c hl hci
    set q := insShift (s.emitE { comparing := some [i] }) (s.getA i) ((i : Int) - 1)
      with hqdef
    set M := (q.2 + 1).toNat with hMdef
    simp only [St.arr_emitE, St.getA] at hr3 hr4 hr5 hr6 hr7
    have hMi : (M : Int) = q.2 + 1 := by omega
    have hMle : M ≤ i := by omega
    have hlen2 : q.1.arr.length = s.arr.length := hr3
    have hS3 : (((if h : (0 : Int) ≤ q.2 then q.1.addC 1 else q.1).addW 1).setA M
        (s.getA i)).arr = q.1.arr.set M (s.arr.getD i 0) := by
      by_cases hc : (0 : Int) ≤ q.2
      · rw [dif_pos hc]
        simp [St.getA]
      · rw [dif_neg hc]
        simp [St.getA]
    have hvm : (q.1.arr.set M (s.arr.getD i 0)).getD M 0 = s.arr.getD i 0 :=
      getD_set_self _ _ _ _ (by omega)
    have hvlt : ∀ k, k < M →
        (q.1.arr.set M (s.arr.getD i 0)).getD k 0 = s.arr.getD k 0 := by
      intro k hk
      rw [getD_set_ne _ _ _ _ _ (by omega)]
      exact hr4 k (Or.inl (by omega))
    have hvmid : ∀ k, M < k → k ≤ i →
        (q.1.arr.set M (s.arr.getD i 0)).getD k 0 = s.arr.getD (k - 1) 0 := by
      intro k hk1 hk2
      rw [getD_set_ne _ _ _ _ _ (by omega)]
      exact hr5 k (by omega) (by omega)
    have hvhi : ∀ k, i < k →
        (q.1.arr.set M (s.arr.getD i 0)).getD k 0 = s.arr.getD k 0 := by
      intro k hk
      rw [getD_set_ne _ _ _ _ _ (by omega)]
      exact hr4 k (Or.inr (by omega))
    have hstop : 1 ≤ M → s.arr.getD (M - 1) 0 ≤ s.arr.getD i 0 := by
      intro hM1
      rcases hr6 with h6 | h6
      · omega
      · have he : q.2.toNat = M - 1 := by omega
        rw [he] at h6
        exact h6
    have hent : ∀ k : Nat, M ≤ k → k < i → s.arr.getD k 0 > s.arr.getD i 0 := by
      intro k hk1 hk2
      exact hr7 k (by omega) (by omega)
    have hn2 : n = (((if h : (0 : Int) ≤ q.2 then q.1.addC 1 else q.1).addW 1).setA M
        (s.getA i)).arr.length := by
      rw [hS3]
      simp [hlen2]
      omega
    have hinv2 : ∀ a b, a < b → b < i + 1 →
        (((if h : (0 : Int) ≤ q.2 then q.1.addC 1 else q.1).addW 1).setA M
          (s.getA i)).arr.getD a 0 ≤
        (((if h : (0 : Int) ≤ q.2 then q.1.addC 1 else q.1).addW 1).setA M
          (s.getA i)).arr.getD b 0 := by
      intro a b hab hbi
      rw [hS3]
      rcases Nat.lt_trichotomy b M with hbM | hbM | hbM
      · rw [hvlt a (by omega), hvlt b hbM]
        exact hinv a b hab (by omega)
      · rw [hbM, hvm, hvlt a (by omega)]
        have h1M : 1 ≤ M := by omega
        exact le_trans (hle a (M - 1) (by omega) (by omega)) (hstop h1M)
      · rw [hvmid b hbM (by omega)]
        rcases Nat.lt_trichotomy a M with haM | haM | haM
        · rw [hvlt a haM]
          exact hle a (b - 1) (by omega) (by omega)
        · rw [haM, hvm]
          exact le_of_lt (hent (b - 1) (by omega) (by omega))
        · rw [hvmid a haM (by omega)]
          exact hle (a - 1) (b - 1) (by omega) (by omega)
    obtain ⟨hA, hP⟩ := ih hn2 hinv2
    have hperm : (((if h : (0 : Int) ≤ q.2 then q.1.addC 1 else q.1).addW 1).setA M
        (s.getA i)).arr.Perm s.arr := by
      rw [hS3]
      apply perm_of_insert_shift (i - M) s.arr _ M i rfl hMle (by omega)
        (by simp [hlen2])
      · exact hvlt
      · exact hvm
      · exact hvmid
      · intro k hk1 hk2
        exact hvhi k hk1
    exact ⟨hA, hP.trans hperm⟩
  | case2 s i n h =>
    intro hn hinv
    rw [insOuter, dif_neg h]
    refine ⟨?_, List.Perm.refl _⟩
    intro k hk
    exact hinv k (k + 1) (by omega) (by omega)

/-- Insertion sort leaves the working array a sorted permutation of its
input, for every starting state. -/
theorem insertionSortFunc_sorts (s : St) :
    (insertionSortFunc s).arr.Perm s.arr ∧
      (insertionSortFunc s).arr.Sorted (· ≤ ·) := by
  have h := insOuter_sorted s 1 s.arr.length rfl (fun a b hab hb => by omega)
  exact ⟨h.2, sorted_of_adjSorted _ h.1⟩

/-! ### Quick sort correctness -/

theorem getD_drop (l : List Int) (a m : Nat) :
    (l.drop a).getD m 0 = l.getD (a + m) 0 := by
  simp [List.getD_eq_getElem?_getD, List.getElem?_drop]

theorem take_eq_of_getD_eq (l l' : List Int) (a : Nat) (hlen : l.length = l'.length)
    (h : ∀ k, k < a → l.getD k 0 = l'.getD k 0) : l.take a = l'.take a := by
  apply eq_of_getD_eq
  · simp [hlen]
  · intro k hk
    simp only [List.length_take] at hk
    rw [getD_take _ _ _ (by omega), getD_take _ _ _ (by omega)]
    exact h k (by omega)

/-- Two permuted lists that agree below `a` and from `c` on have permuted
middle slices `[a, c)`. -/
theorem middle_perm (l l' : List Int) (a c : Nat) (hperm : l'.Perm l)
    (hlen : l'.length = l.length)
    (hlow : ∀ k, k < a → l'.getD k 0 = l.getD k 0)
    (hhigh : ∀ k, c ≤ k → k < l.length → l'.getD k 0 = l.getD k 0)
    (hac : a ≤ c) :
    ((l'.take c).drop a).Perm ((l.take c).drop a) := by
  have htake : l'.take a = l.take a :=
    take_eq_of_getD_eq l' l a hlen hlow
  have hdrop : l'.drop c = l.drop c :=
    drop_eq_of_getD_eq l' l c hlen (fun k hk hkl => hhigh k hk (by omega))
  have hsplit : ∀ x : List Int, x = x.take a ++ ((x.take c).drop a) ++ x.drop c := by
    intro x
    have hca : a + (c - a) = c := by omega
    have h1 : (x.take c).drop a = (x.drop a).take (c - a) := by
      have hx := List.take_drop a (c - a) x
      rw [hca] at hx
      exact hx.symm
    have h2 : x.drop c = (x.drop a).drop (c - a) := by
      rw [List.drop_drop, hca]
    rw [h1, h2, List.append_assoc, List.take_append_drop, List.take_append_drop]
  have hp : (l'.take a ++ ((l'.take c).drop a) ++ l'.drop c).Perm
      (l.take a ++ ((l.take c).drop a) ++ l.drop c) := by
    rw [← hsplit l', ← hsplit l]
    exact hperm
  rw [htake, hdrop] at hp
  have hp2 := (List.perm_append_right_iff (l.drop c)).mp hp
  exact (List.perm_append_left_iff (l.take a)).mp hp2

/-- Values in the middle slice of the new list come from the middle slice
of the old one. -/
theorem middle_getD_mem (l l' : List Int) (a c : Nat) (hperm : l'.Perm l)
    (hlen : l'.length = l.length)
    (hlow : ∀ k, k < a → l'.getD k 0 = l.getD k 0)
    (hhigh : ∀ k, c ≤ k → k < l.length → l'.getD k 0 = l.getD k 0)
    (hac : a ≤ c) :
    ∀ k, a ≤ k → k < c → k < l.length →
      ∃ k2, a ≤ k2 ∧ k2 < c ∧ k2 < l.length ∧ l.getD k2 0 = l'.getD k 0 := by
  intro k hk1 hk2 hk3
  have hmid := middle_perm l l' a c hperm hlen hlow hhigh hac
  have hkmem : l'.getD k 0 ∈ (l'.take c).drop a := by
    rw [(mem_iff_getD _ _)]
    refine ⟨k - a, ?_, ?_⟩
    · simp only [List.length_drop, List.length_take]
      omega
    · rw [getD_drop, getD_take _ _ _ (by omega)]
      congr 1
      omega
  have hkmem2 : l'.getD k 0 ∈ (l.take c).drop a := hmid.subset hkmem
  obtain ⟨m, hm1, hm2⟩ := (mem_iff_getD _ _).mp hkmem2
  simp only [List.length_drop, List.length_take] at hm1
  rw [getD_drop, getD_take _ _ _ (by omega)] at hm2
  exact ⟨a + m, by omega, by omega, by omega, hm2⟩

theorem qpartInner_spec (s : St) (pivot : Int) (i j high : Int) :
    -1 ≤ i → i < j → j ≤ high → high ≤ (s.arr.length : Int) →
    (∀ k : Nat, i < (k : Int) → (k : Int) < j → s.arr.getD k 0 ≥ pivot) →
    (qpartInner s pivot i j high).1.arr.length = s.arr.length ∧
    (∀ k : Nat, ((k : Int) ≤ i ∨ (k : Int) ≥ high) →
      (qpartInner s pivot i j high).1.arr.getD k 0 = s.arr.getD k 0) ∧
    (qpartInner s pivot i j high).1.arr.Perm s.arr ∧
    (∀ k : Nat, i < (k : Int) → (k : Int) ≤ (qpartInner s pivot i j high).2 →
      (qpartInner s pivot i j high).1.arr.getD k 0 < pivot) ∧
    (∀ k : Nat, (qpartInner s pivot i j high).2 < (k : Int) → (k : Int) < high →
      (qpartInner s pivot i j high).1.arr.getD k 0 ≥ pivot) := by
  induction s, pivot, i, j, high using qpartInner.induct with
  | case1 s pivot i j high h s1 hlt s2 ih =>
    intro h0i hij hjh hhl hpre
    have hrange := qpartInner_snd_range s pivot i j high hij hjh
    have hlt2 : s.arr.getD j.toNat 0 < pivot := by
      have hc := hlt
      unfold_let s1 at hc
      simpa [St.getA] using hc
    rw [qpartInner, dif_pos h, if_pos hlt]
    try simp only []
    unfold_let s2 s1 at ih
    have harr2 : ((((((s.addC 1).emitE { comparing := some [j.toNat, high.toNat] }).addS
        1).addW 2).swapA (i + 1).toNat j.toNat).emitE
        { swapping := some [(i + 1).toNat, j.toNat] }).arr =
        swapL s.arr (i + 1).toNat j.toNat := by
      simp
    have hrange2 := qpartInner_snd_range
      ((((((s.addC 1).emitE { comparing := some [j.toNat, high.toNat] }).addS
        1).addW 2).swapA (i + 1).toNat j.toNat).emitE
        { swapping := some [(i + 1).toNat, j.toNat] }) pivot (i + 1) (j + 1) high
      (by omega) (by omega)
    obtain ⟨ih1, ih2, ih3, ih4, ih5⟩ := ih (by omega) (by omega) (by omega)
      (by rw [harr2]; simp; omega)
      (by
        intro k hk1 hk2
        rw [harr2]
        by_cases hkj : (k : Int) = j
        · rcases Int.lt_or_le (i + 1) j with hij2 | hij2
          · have hkn : k = j.toNat := by omega
            rw [hkn, getD_swapL_snd _ _ _ (by omega)]
            have := hpre ((i + 1).toNat) (by omega) (by omega)
            simpa using this
          · omega
        · rw [getD_swapL_other _ _ _ _ (by omega) (by omega)]
          exact hpre k (by omega) (by omega))
    rw [harr2] at ih1 ih2 ih3
    refine ⟨?_, ?_, ?_, ?_, ?_⟩
    · rw [ih1]
      simp [swapL]
    · intro k hk
      rw [ih2 k (by omega)]
      rw [getD_swapL_other _ _ _ _ (by omega) (by omega)]
    · exact ih3.trans (perm_swapL _ _ _ (by omega) (by omega))
    · intro k hk1 hk2
      by_cases hki : (k : Int) = i + 1
      · have hkn : k = (i + 1).toNat := by omega
        have hfr := ih2 k (Or.inl (by omega))
        rw [hfr, hkn, getD_swapL_fst _ _ _ (by omega)]
        exact hlt2
      · exact ih4 k (by omega) hk2
    · exact ih5
  | case2 s pivot i j high h s1 hlt ih =>
    intro h0i hij hjh hhl hpre
    have hlt2 : s.arr.getD j.toNat 0 ≥ pivot := by
      have hc := hlt
      unfold_let s1 at hc
      simp only [St.getA, St.arr_emitE, St.arr_addC] at hc
      omega
    rw [qpartInner, dif_pos h, if_neg hlt]
    try simp only []
    unfold_let s1 at ih
    obtain ⟨ih1, ih2, ih3, ih4, ih5⟩ := ih (by omega) (by omega) (by omega)
      (by simp; omega)
      (by
        intro k hk1 hk2
        simp only [St.arr_emitE, St.arr_addC]
        by_cases hkj : (k : Int) = j
        · have hkn : k = j.toNat := by omega
          rw [hkn]
          exact hlt2
        · exact hpre k (by omega) (by omega))
    simp only [St.arr_emitE, St.arr_addC] at ih1 ih2 ih3
    exact ⟨ih1, fun k hk => ih2 k (by omega), ih3, ih4, ih5⟩
  | case3 s pivot i j high h =>
    intro h0i hij hjh hhl hpre
    rw [qpartInner, dif_neg h]
    refine ⟨rfl, fun k hk => rfl, List.Perm.refl _, ?_, ?_⟩
    · intro k hk1 hk2
      omega
    · intro k hk1 hk2
      exact hpre k hk1 (by omega)

theorem qpartition_spec (s : St) (low high : Int)
    (h0 : 0 ≤ low) (hlh : low < high) (hhl : high < (s.arr.length : Int)) :
    (qpartition s low high).1.arr.length = s.arr.length ∧
    (∀ k : Nat, ((k : Int) < low ∨ (k : Int) > high) →
      (qpartition s low high).1.arr.getD k 0 = s.arr.getD k 0) ∧
    (qpartition s low high).1.arr.Perm s.arr ∧
    (qpartition s low high).1.arr.getD (qpartition s low high).2.toNat 0 =
      s.arr.getD high.toNat 0 ∧
    (∀ k : Nat, low ≤ (k : Int) → (k : Int) < (qpartition s low high).2 →
      (qpartition s low high).1.arr.getD k 0 < s.arr.getD high.toNat 0) ∧
    (∀ k : Nat, (qpartition s low high).2 < (k : Int) → (k : Int) ≤ high →
      (qpartition s low high).1.arr.getD k 0 ≥ s.arr.getD high.toNat 0) := by
  have hpiv : s.getA high.toNat = s.arr.getD high.toNat 0 := rfl
  have hr := qpartInner_snd_range s (s.getA high.toNat) (low - 1) low high
    (by omega) (by omega)
  obtain ⟨e1, e2, e3, e4, e5⟩ := qpartInner_spec s (s.getA high.toNat) (low - 1) low high
    (by omega) (by omega) (by omega) (by omega)
    (fun k hk1 hk2 => absurd hk2 (by omega))
  have harr : (qpartition s low high).1.arr =
      swapL (qpartInner s (s.getA high.toNat) (low - 1) low high).1.arr
        ((qpartInner s (s.getA high.toNat) (low - 1) low high).2 + 1).toNat high.toNat := by
    simp [qpartition]
  have hsnd : (qpartition s low high).2 =
      (qpartInner s (s.getA high.toNat) (low - 1) low high).2 + 1 := by
    simp [qpartition]
  set r := (qpartInner s (s.getA high.toNat) (low - 1) low high).2 with hrdef
  set t := (qpartInner s (s.getA high.toNat) (low - 1) low high).1.arr with htdef
  refine ⟨?_, ?_, ?_, ?_, ?_, ?_⟩
  · rw [harr]
    simpa [swapL] using e1
  · intro k hk
    rw [harr, getD_swapL_other _ _ _ _ (by omega) (by omega)]
    exact e2 k (by omega)
  · rw [harr]
    exact (perm_swapL t _ _ (by rw [e1]; omega) (by rw [e1]; omega)).trans e3
  · rw [harr, hsnd, getD_swapL_fst _ _ _ (by rw [e1]; omega)]
    exact e2 high.toNat (Or.inr (by omega))
  · intro k hk1 hk2
    rw [hsnd] at hk2
    rw [harr, getD_swapL_other _ _ _ _ (by omega) (by omega)]
    have h4 := e4 k (by omega) (by omega)
    rw [hpiv] at h4
    exact h4
  · intro k hk1 hk2
    rw [hsnd] at hk1
    rw [harr]
    by_cases hkh : k = high.toNat
    · rw [hkh, getD_swapL_snd _ _ _ (by rw [e1]; omega)]
      have h5 := e5 ((r + 1).toNat) (by omega) (by omega)
      rw [hpiv] at h5
      exact h5
    · rw [getD_swapL_other _ _ _ _ (by omega) (by omega)]
      have h5 := e5 k (by omega) (by omega)
      rw [hpiv] at h5
      exact h5

theorem qsort_spec (s : St) (low high : Int) :
    0 ≤ low → high < (s.arr.length : Int) →
    (qsort s low high).arr.length = s.arr.length ∧
    (qsort s low high).arr.Perm s.arr ∧
    (∀ k : Nat, ((k : Int) < low ∨ (k : Int) > high) →
      (qsort s low high).arr.getD k 0 = s.arr.getD k 0) ∧
    (∀ a b : Nat, low ≤ (a : Int) → a ≤ b → (b : Int) ≤ high →
      (qsort s low high).arr.getD a 0 ≤ (qsort s low high).arr.getD b 0) := by
  induction s, low, high using qsort.induct with
  | case1 s low high h p s2 ih1 ihdup ih2 =>
    intro h0 hhl
    clear ihdup
    rw [qsort, dif_pos h]
    try simp only []
    unfold_let p at ih1
    unfold_let s2 p at ih2
    have hP := qpartition_snd_range s low high h
    obtain ⟨d1, d2, d3, d4, d5, d6⟩ := qpartition_spec s low high h0 h hhl
    set Q := qpartition s low high with hQdef
    set A := qsort Q.1 low (Q.2 - 1) with hAdef
    obtain ⟨a1, a2, a3, a4⟩ := ih1 h0 (by rw [d1]; omega)
    obtain ⟨b1, b2, b3, b4⟩ := ih2 (by omega) (by rw [a1, d1]; omega)
    set B := qsort A (Q.2 + 1) high with hBdef
    have hBP : B.arr.getD Q.2.toNat 0 = s.arr.getD high.toNat 0 := by
      rw [b3 Q.2.toNat (by omega), a3 Q.2.toNat (by omega)]
      exact d4
    have hlowv : ∀ k : Nat, low ≤ (k : Int) → (k : Int) < Q.2 →
        B.arr.getD k 0 < s.arr.getD high.toNat 0 := by
      intro k hk1 hk2
      rw [b3 k (by omega)]
      have hmem := middle_getD_mem Q.1.arr A.arr low.toNat Q.2.toNat a2 a1
        (fun k2 hk2x => a3 k2 (Or.inl (by omega)))
        (fun k2 hk2x hk3x => a3 k2 (Or.inr (by omega)))
        (by omega)
      obtain ⟨k2, hm1, hm2, hm3, hm4⟩ := hmem k (by omega) (by omega) (by omega)
      rw [← hm4]
      exact d5 k2 (by omega) (by omega)
    have hhighv : ∀ k : Nat, Q.2 < (k : Int) → (k : Int) ≤ high →
        B.arr.getD k 0 ≥ s.arr.getD high.toNat 0 := by
      intro k hk1 hk2
      have hmem := middle_getD_mem A.arr B.arr (Q.2 + 1).toNat (high.toNat + 1) b2 b1
        (fun k2 hk2x => b3 k2 (Or.inl (by omega)))
        (fun k2 hk2x hk3x => b3 k2 (Or.inr (by omega)))
        (by omega)
      obtain ⟨k2, hm1, hm2, hm3, hm4⟩ := hmem k (by omega) (by omega) (by omega)
      rw [← hm4, a3 k2 (Or.inr (by omega))]
      exact d6 k2 (by omega) (by omega)
    refine ⟨?_, ?_, ?_, ?_⟩
    · rw [b1, a1, d1]
    · exact b2.trans (a2.trans d3)
    · intro k hk
      rw [b3 k (by omega), a3 k (by omega)]
      exact d2 k hk
    · intro a b ha hab hb
      by_cases hbP : (b : Int) < Q.2
      · rw [b3 a (by omega), b3 b (by omega)]
        exact a4 a b ha hab (by omega)
      · by_cases haP : (a : Int) < Q.2
        · have hBa := hlowv a (by omega) (by omega)
          by_cases hbeq : (b : Int) = Q.2
          · rw [show b = Q.2.toNat by omega, hBP]
            exact le_of_lt hBa
          · have hBb := hhighv b (by omega) (by omega)
            omega
        · by_cases haeq : (a : Int) = Q.2
          · by_cases hbeq : (b : Int) = Q.2
            · rw [show a = b by omega]
            · have hBb := hhighv b (by omega) (by omega)
              rw [show a = Q.2.toNat by omega, hBP]
              omega
          · exact b4 a b (by omega) hab hb
  | case2 s low high h =>
    intro h0 hhl
    rw [qsort, dif_neg h]
    refine ⟨rfl, List.Perm.refl _, fun k hk => rfl, ?_⟩
    intro a b ha hab hb
    rw [show a = b by omega]

/-- Quick sort (quickSortFunc) leaves the working array a sorted
permutation of its input, for every starting state. -/
theorem quickSortFunc_sorts (s : St) :
    (quickSortFunc s).arr.Perm s.arr ∧
      (quickSortFunc s).arr.Sorted (· ≤ ·) := by
  obtain ⟨c1, c2, c3, c4⟩ := qsort_spec s 0 ((s.arr.length : Int) - 1)
    (le_refl 0) (by omega)
  refine ⟨c2, sorted_of_adjSorted _ ?_⟩
  intro i hi
  rw [quickSortFunc] at hi ⊢
  rw [c1] at hi
  exact c4 i (i + 1) (by omega) (by omega) (by omega)

/-! ### Merge sort correctness -/

/-- The value merge order realised by the three loops of `merge(l, m, r)`,
as a pure function on the temporary slices. -/
def mergePure : List Int → List Int → List Int
  | [], ys => ys
  | x :: xs, [] => x :: xs
  | x :: xs, y :: ys =>
    if x ≤ y then x :: mergePure xs (y :: ys) else y :: mergePure (x :: xs) ys
termination_by xs ys => xs.length + ys.length

theorem mergePure_nil_left (ys : List Int) : mergePure [] ys = ys := by
  rw [mergePure.eq_def]

theorem mergePure_nil_right (xs : List Int) : mergePure xs [] = xs := by
  rw [mergePure.eq_def]
  match xs with
  | [] => rfl
  | x :: xs => rfl

theorem mergePure_perm (xs ys : List Int) : (mergePure xs ys).Perm (xs ++ ys) := by
  induction xs, ys using mergePure.induct with
  | case1 ys =>
    rw [mergePure_nil_left]
    simp
  | case2 x xs =>
    rw [mergePure_nil_right]
    simp
  | case3 x xs y ys hle ih =>
    rw [mergePure, if_pos hle]
    simpa using ih.cons x
  | case4 x xs y ys hle ih =>
    rw [mergePure, if_neg hle]
    refine (ih.cons y).trans ?_
    exact List.perm_middle.symm

theorem mergePure_length (xs ys : List Int) :
    (mergePure xs ys).length = xs.length + ys.length := by
  have h := (mergePure_perm xs ys).length_eq
  simpa using h

theorem mergePure_sorted (xs ys : List Int) (hx : xs.Sorted (· ≤ ·))
    (hy : ys.Sorted (· ≤ ·)) : (mergePure xs ys).Sorted (· ≤ ·) := by
  induction xs, ys using mergePure.induct with
  | case1 ys =>
    rw [mergePure_nil_left]
    exact hy
  | case2 x xs =>
    rw [mergePure_nil_right]
    exact hx
  | case3 x xs y ys hle ih =>
    rw [mergePure, if_pos hle]
    rw [List.sorted_cons] at hx ⊢
    refine ⟨?_, ih hx.2 hy⟩
    intro b hb
    have hb2 := (mergePure_perm xs (y :: ys)).subset hb
    rw [List.mem_append] at hb2
    rcases hb2 with hb2 | hb2
    · exact hx.1 b hb2
    · rw [List.mem_cons] at hb2
      rcases hb2 with hb2 | hb2
      · rw [hb2]
        exact hle
      · rw [List.sorted_cons] at hy
        exact le_trans hle (hy.1 b hb2)
  | case4 x xs y ys hle ih =>
    rw [mergePure, if_neg hle]
    rw [List.sorted_cons] at hy ⊢
    refine ⟨?_, ih hx hy.2⟩
    intro b hb
    have hb2 := (mergePure_perm (x :: xs) ys).subset hb
    rw [List.mem_append] at hb2
    have hyx : y ≤ x := by omega
    rcases hb2 with hb2 | hb2
    · rw [List.mem_cons] at hb2
      rcases hb2 with hb2 | hb2
      · rw [hb2]
        exact hyx
      · rw [List.sorted_cons] at hx
        exact le_trans hyx (hx.1 b hb2)
    · exact hy.1 b hb2

theorem buildSlice_length (arr : List Int) (n : Nat) :
    ∀ start, (buildSlice arr start n).length = n := by
  induction n with
  | zero => intro start; rfl
  | succ n ih =>
    intro start
    simp [buildSlice, ih (start + 1)]

theorem buildSlice_getD (arr : List Int) (n : Nat) :
    ∀ start t, t < n →
      (buildSlice arr start n).getD t 0 = arr.getD (start + t) 0 := by
  induction n with
  | zero => intro start t ht; omega
  | succ n ih =>
    intro start t ht
    match t with
    | 0 => simp [buildSlice]
    | t + 1 =>
      rw [buildSlice]
      rw [List.getD_cons_succ]
      rw [ih (start + 1) t (by omega)]
      congr 1
      omega

theorem drop_eq_getD_cons (l : List Int) (i : Nat) (h : i < l.length) :
    l.drop i = l.getD i 0 :: l.drop (i + 1) := by
  rw [List.drop_eq_getElem_cons h, getD_eq_get l i h]
  rfl

theorem getD_append_right {α : Type} (l l' : List α) (t : Nat) (d : α) :
    (l ++ l').getD (l.length + t) d = l'.getD t d := by
  simp [List.getD_eq_getElem?_getD, List.getElem?_append_right (by omega : l.length ≤ l.length + t)]

theorem adjSorted_getD_mono (l : List Int) (h : adjSorted l) :
    ∀ d a b : Nat, b ≤ a + d → a ≤ b → b < l.length → l.getD a 0 ≤ l.getD b 0 := by
  intro d
  induction d with
  | zero =>
    intro a b h1 h2 h3
    rw [show a = b by omega]
  | succ d ih =>
    intro a b h1 h2 h3
    by_cases hb : b ≤ a + d
    · exact ih a b hb h2 h3
    · have hab : a < b := by omega
      have hstep := h (b - 1) (by omega)
      have hprev := ih a (b - 1) (by omega) (by omega) (by omega)
      rw [show b - 1 + 1 = b by omega] at hstep
      omega

theorem list_split_three (x : List Int) (a c : Nat) (hac : a ≤ c) :
    x = x.take a ++ ((x.take c).drop a) ++ x.drop c := by
  have hca : a + (c - a) = c := by omega
  have h1 : (x.take c).drop a = (x.drop a).take (c - a) := by
    have hx := List.take_drop a (c - a) x
    rw [hca] at hx
    exact hx.symm
  have h2 : x.drop c = (x.drop a).drop (c - a) := by
    rw [List.drop_drop, hca]
  rw [h1, h2, List.append_assoc, List.take_append_drop, List.take_append_drop]

theorem perm_of_middle_perm (l l' : List Int) (a c : Nat) (hac : a ≤ c)
    (htake : l'.take a = l.take a) (hdrop : l'.drop c = l.drop c)
    (hmid : ((l'.take c).drop a).Perm ((l.take c).drop a)) : l'.Perm l := by
  have h1 := list_split_three l' a c hac
  have h2 := list_split_three l a c hac
  rw [h1, h2, htake, hdrop]
  exact ((List.Perm.refl (l.take a)).append hmid).append (List.Perm.refl (l.drop c))

theorem drop_cons_of_pos (x : Int) (l : List Int) (n : Nat) (hn : 0 < n) :
    (x :: l).drop n = l.drop (n - 1) := by
  match n with
  | n + 1 => simp

theorem mergeDrainL_spec (s : St) (L : List Int) (i k : Nat) :
    i ≤ L.length → k + (L.length - i) ≤ s.arr.length →
    (mergeDrainL s L i k).1.arr.length = s.arr.length ∧
    (mergeDrainL s L i k).2 = k + (L.length - i) ∧
    (∀ q : Nat, (q < k ∨ k + (L.length - i) ≤ q) →
      (mergeDrainL s L i k).1.arr.getD q 0 = s.arr.getD q 0) ∧
    (∀ t : Nat, t < L.length - i →
      (mergeDrainL s L i k).1.arr.getD (k + t) 0 = L.getD (i + t) 0) := by
  induction s, L, i, k using mergeDrainL.induct with
  | case1 s L i k h ih =>
    intro hi hroom
    rw [mergeDrainL, dif_pos h]
    obtain ⟨e1, e2, e3, e4⟩ := ih (by omega)
      (by
        simp only [St.arr_emitE, St.arr_addW, St.arr_addS, St.arr_setA, List.length_set]
        omega)
    simp only [St.arr_emitE, St.arr_addW, St.arr_addS, St.arr_setA] at e1 e3
    refine ⟨?_, ?_, ?_, ?_⟩
    · rw [e1]
      simp
    · rw [e2]
      omega
    · intro q hq
      rw [e3 q (by omega), getD_set_ne _ _ _ _ _ (by omega)]
    · intro t ht
      match t with
      | 0 =>
        simp only [Nat.add_zero]
        rw [e3 k (by omega), getD_set_self _ _ _ _ (by omega)]
      | t + 1 =>
        have he := e4 t (by omega)
        rw [show k + (t + 1) = k + 1 + t by omega, show i + (t + 1) = i + 1 + t by omega]
        exact he
  | case2 s L i k h =>
    intro hi hroom
    rw [mergeDrainL, dif_neg h]
    refine ⟨rfl, by show k = k + (L.length - i); omega, fun q hq => rfl,
      fun t ht => absurd ht (by omega)⟩

theorem mergeDrainR_spec (s : St) (R : List Int) (j k : Nat) :
    j ≤ R.length → k + (R.length - j) ≤ s.arr.length →
    (mergeDrainR s R j k).1.arr.length = s.arr.length ∧
    (mergeDrainR s R j k).2 = k + (R.length - j) ∧
    (∀ q : Nat, (q < k ∨ k + (R.length - j) ≤ q) →
      (mergeDrainR s R j k).1.arr.getD q 0 = s.arr.getD q 0) ∧
    (∀ t : Nat, t < R.length - j →
      (mergeDrainR s R j k).1.arr.getD (k + t) 0 = R.getD (j + t) 0) := by
  induction s, R, j, k using mergeDrainR.induct with
  | case1 s R j k h ih =>
    intro hj hroom
    rw [mergeDrainR, dif_pos h]
    obtain ⟨e1, e2, e3, e4⟩ := ih (by omega)
      (by
        simp only [St.arr_emitE, St.arr_addW, St.arr_addS, St.arr_setA, List.length_set]
        omega)
    simp only [St.arr_emitE, St.arr_addW, St.arr_addS, St.arr_setA] at e1 e3
    refine ⟨?_, ?_, ?_, ?_⟩
    · rw [e1]
      simp
    · rw [e2]
      omega
    · intro q hq
      rw [e3 q (by omega), getD_set_ne _ _ _ _ _ (by omega)]
    · intro t ht
      match t with
      | 0 =>
        simp only [Nat.add_zero]
        rw [e3 k (by omega), getD_set_self _ _ _ _ (by omega)]
      | t + 1 =>
        have he := e4 t (by omega)
        rw [show k + (t + 1) = k + 1 + t by omega, show j + (t + 1) = j + 1 + t by omega]
        exact he
  | case2 s R j k h =>
    intro hj hroom
    rw [mergeDrainR, dif_neg h]
    refine ⟨rfl, by show k = k + (R.length - j); omega, fun q hq => rfl,
      fun t ht => absurd ht (by omega)⟩

theorem mergeMain_spec (s : St) (L R : List Int) (i j k : Nat) :
    i ≤ L.length → j ≤ R.length → k + (L.length - i) + (R.length - j) ≤ s.arr.length →
    (mergeMain s L R i j k).1.arr.length = s.arr.length ∧
    (i ≤ (mergeMain s L R i j k).2.1 ∧ (mergeMain s L R i j k).2.1 ≤ L.length ∧
     j ≤ (mergeMain s L R i j k).2.2.1 ∧ (mergeMain s L R i j k).2.2.1 ≤ R.length ∧
     (mergeMain s L R i j k).2.2.2 =
       k + ((mergeMain s L R i j k).2.1 - i) + ((mergeMain s L R i j k).2.2.1 - j) ∧
     ((mergeMain s L R i j k).2.1 = L.length ∨
       (mergeMain s L R i j k).2.2.1 = R.length)) ∧
    (∀ q : Nat, (q < k ∨ (mergeMain s L R i j k).2.2.2 ≤ q) →
      (mergeMain s L R i j k).1.arr.getD q 0 = s.arr.getD q 0) ∧
    (∀ t : Nat, t < (mergeMain s L R i j k).2.2.2 - k →
      (mergeMain s L R i j k).1.arr.getD (k + t) 0 =
        (mergePure (L.drop i) (R.drop j)).getD t 0) ∧
    mergePure (L.drop (mergeMain s L R i j k).2.1)
        (R.drop (mergeMain s L R i j k).2.2.1) =
      (mergePure (L.drop i) (R.drop j)).drop ((mergeMain s L R i j k).2.2.2 - k) := by
  induction s, L, R, i, j, k using mergeMain.induct with
  | case1 s L R i j k h hle ih =>
    intro hi hj hroom
    rw [mergeMain, dif_pos h, if_pos hle]
    obtain ⟨p1, p2, p3, p4, p5⟩ := ih (by omega) (by omega)
      (by
        simp only [St.arr_emitE, St.arr_addW, St.arr_addS, St.arr_setA, St.arr_addC,
          List.length_set]
        omega)
    obtain ⟨q1, q2, q3, q4, q5, q6⟩ := p2
    simp only [St.arr_emitE, St.arr_addW, St.arr_addS, St.arr_setA, St.arr_addC] at p1 p3
    have hdropL := drop_eq_getD_cons L i h.1
    have hdropR := drop_eq_getD_cons R j h.2
    have hM : mergePure (L.drop i) (R.drop j) =
        L.getD i 0 :: mergePure (L.drop (i + 1)) (R.drop j) := by
      rw [hdropL, hdropR]
      simp only [mergePure]
      rw [if_pos hle]
    refine ⟨?_, ⟨by omega, q2, by omega, q4, by omega, q6⟩, ?_, ?_, ?_⟩
    · rw [p1]
      simp
    · intro q hq
      rw [p3 q (by omega), getD_set_ne _ _ _ _ _ (by omega)]
    · intro t ht
      rw [hM]
      match t with
      | 0 =>
        simp only [Nat.add_zero, List.getD_cons_zero]
        rw [p3 k (by omega), getD_set_self _ _ _ _ (by omega)]
      | t + 1 =>
        rw [List.getD_cons_succ]
        have hp := p4 t (by omega)
        rw [show k + (t + 1) = k + 1 + t by omega]
        exact hp
    · rw [hM, drop_cons_of_pos _ _ _ (by omega), Nat.sub_sub]
      exact p5
  | case2 s L R i j k h hle ih =>
    intro hi hj hroom
    rw [mergeMain, dif_pos h, if_neg hle]
    obtain ⟨p1, p2, p3, p4, p5⟩ := ih (by omega) (by omega)
      (by
        simp only [St.arr_emitE, St.arr_addW, St.arr_addS, St.arr_setA, St.arr_addC,
          List.length_set]
        omega)
    obtain ⟨q1, q2, q3, q4, q5, q6⟩ := p2
    simp only [St.arr_emitE, St.arr_addW, St.arr_addS, St.arr_setA, St.arr_addC] at p1 p3
    have hdropL := drop_eq_getD_cons L i h.1
    have hdropR := drop_eq_getD_cons R j h.2
    have hM : mergePure (L.drop i) (R.drop j) =
        R.getD j 0 :: mergePure (L.drop i) (R.drop (j + 1)) := by
      rw [hdropL, hdropR]
      simp only [mergePure]
      rw [if_neg hle, ← hdropL]
    refine ⟨?_, ⟨by omega, q2, by omega, q4, by omega, q6⟩, ?_, ?_, ?_⟩
    · rw [p1]
      simp
    · intro q hq
      rw [p3 q (by omega), getD_set_ne _ _ _ _ _ (by omega)]
    · intro t ht
      rw [hM]
      match t with
      | 0 =>
        simp only [Nat.add_zero, List.getD_cons_zero]
        rw [p3 k (by omega), getD_set_self _ _ _ _ (by omega)]
      | t + 1 =>
        rw [List.getD_cons_succ]
        have hp := p4 t (by omega)
        rw [show k + (t + 1) = k + 1 + t by omega]
        exact hp
    · rw [hM, drop_cons_of_pos _ _ _ (by omega), Nat.sub_sub]
      exact p5
  | case3 s L R i j k h =>
    intro hi hj hroom
    rw [mergeMain, dif_neg h]
    refine ⟨rfl, ⟨le_refl _, hi, le_refl _, hj, ?_, ?_⟩,
      fun q hq => rfl, fun t ht => absurd ht ?_, by simp⟩
    · show k = k + (i - i) + (j - j)
      omega
    · show i = L.length ∨ j = R.length
      omega
    · show ¬ t < k - k
      omega

theorem mergeRanges_spec (s : St) (l m r : Int)
    (h0 : 0 ≤ l) (hlm : l ≤ m) (hmr : m < r) (hr : r < (s.arr.length : Int)) :
    (mergeRanges s l m r).arr.length = s.arr.length ∧
    (∀ q : Nat, ((q : Int) < l ∨ (q : Int) > r) →
      (mergeRanges s l m r).arr.getD q 0 = s.arr.getD q 0) ∧
    (∀ t : Nat, t < (r + 1 - l).toNat →
      (mergeRanges s l m r).arr.getD (l.toNat + t) 0 =
        (mergePure (buildSlice s.arr l.toNat (m - l + 1).toNat)
          (buildSlice s.arr (m + 1).toNat (r - m).toNat)).getD t 0) ∧
    (mergeRanges s l m r).arr.Perm s.arr := by
  set L := buildSlice s.arr l.toNat (m - l + 1).toNat with hLdef
  set R := buildSlice s.arr (m + 1).toNat (r - m).toNat with hRdef
  have hLlen : L.length = (m - l + 1).toNat := by
    rw [hLdef]
    exact buildSlice_length s.arr (m - l + 1).toNat l.toNat
  have hRlen : R.length = (r - m).toNat := by
    rw [hRdef]
    exact buildSlice_length s.arr (r - m).toNat (m + 1).toNat
  rcases hMM : mergeMain s L R 0 0 l.toNat with ⟨s1, i1, j1, k1⟩
  rcases hDL : mergeDrainL s1 L i1 k1 with ⟨s2, k2⟩
  have hunf : mergeRanges s l m r = (mergeDrainR s2 R j1 k2).1 := by
    rw [mergeRanges.eq_def, ← hLdef, ← hRdef, hMM]
    simp only []
    rw [hDL]
  have msp := mergeMain_spec s L R 0 0 l.toNat (by omega) (by omega)
    (by rw [hLlen, hRlen]; omega)
  rw [hMM] at msp
  simp only [List.drop_zero] at msp
  obtain ⟨m1, ⟨mi1, mi2, mj1, mj2, mk, mdisj⟩, m3, m4, m5⟩ := msp
  have dlsp := mergeDrainL_spec s1 L i1 k1 mi2 (by rw [m1]; omega)
  rw [hDL] at dlsp
  obtain ⟨d1, d2, d3, d4⟩ := dlsp
  have drsp := mergeDrainR_spec s2 R j1 k2 mj2 (by rw [d1, m1]; omega)
  obtain ⟨f1, f2, f3, f4⟩ := drsp
  have hg1 : (mergeRanges s l m r).arr.length = s.arr.length := by
    rw [hunf, f1, d1, m1]
  have hg2 : ∀ q : Nat, ((q : Int) < l ∨ (q : Int) > r) →
      (mergeRanges s l m r).arr.getD q 0 = s.arr.getD q 0 := by
    intro q hq
    rw [hunf, f3 q (by omega), d3 q (by omega), m3 q (by omega)]
  have hg3 : ∀ t : Nat, t < (r + 1 - l).toNat →
      (mergeRanges s l m r).arr.getD (l.toNat + t) 0 = (mergePure L R).getD t 0 := by
    intro t ht
    rw [hunf]
    by_cases hlo : l.toNat + t < k1
    · rw [f3 (l.toNat + t) (by omega), d3 (l.toNat + t) (by omega)]
      exact m4 t (by omega)
    · rcases mdisj with hi1 | hj1
      · have hLd : L.drop i1 = [] := by
          rw [hi1, List.drop_length]
        rw [hLd, mergePure_nil_left] at m5
        have hk2 : k2 = k1 := by omega
        rw [show l.toNat + t = k2 + (l.toNat + t - k2) by omega]
        rw [f4 (l.toNat + t - k2) (by omega)]
        rw [← getD_drop, m5, getD_drop]
        congr 1
        omega
      · have hRd : R.drop j1 = [] := by
          rw [hj1, List.drop_length]
        rw [hRd, mergePure_nil_right] at m5
        rw [f3 (l.toNat + t) (by omega)]
        rw [show l.toNat + t = k1 + (l.toNat + t - k1) by omega]
        rw [d4 (l.toNat + t - k1) (by omega)]
        rw [← getD_drop, m5, getD_drop]
        congr 1
        omega
  refine ⟨hg1, hg2, hg3, ?_⟩
  have hMlen : (mergePure L R).length = L.length + R.length := mergePure_length L R
  have hnew : (((mergeRanges s l m r).arr.take (r.toNat + 1)).drop l.toNat) =
      mergePure L R := by
    apply eq_of_getD_eq
    · simp only [List.length_drop, List.length_take, hg1, hMlen]
      omega
    · intro k hk
      simp only [List.length_drop, List.length_take, hg1] at hk
      rw [getD_drop, getD_take _ _ _ (by omega)]
      exact hg3 k (by omega)
  have hold : ((s.arr.take (r.toNat + 1)).drop l.toNat) = L ++ R := by
    apply eq_of_getD_eq
    · simp only [List.length_drop, List.length_take, List.length_append, hLlen, hRlen]
      omega
    · intro k hk
      simp only [List.length_drop, List.length_take] at hk
      rw [getD_drop, getD_take _ _ _ (by omega)]
      by_cases hkL : k < L.length
      · rw [getD_append_lt _ _ _ _ hkL, hLdef,
          buildSlice_getD s.arr (m - l + 1).toNat l.toNat k (by omega)]
      · rw [show k = L.length + (k - L.length) by omega, getD_append_right, hRdef,
          buildSlice_getD s.arr (r - m).toNat (m + 1).toNat (k - L.length) (by omega)]
        congr 1
        omega
  have hmid : ((((mergeRanges s l m r).arr.take (r.toNat + 1)).drop l.toNat)).Perm
      (((s.arr.take (r.toNat + 1)).drop l.toNat)) := by
    rw [hnew, hold]
    exact mergePure_perm L R
  exact perm_of_middle_perm s.arr (mergeRanges s l m r).arr l.toNat (r.toNat + 1)
    (by omega)
    (take_eq_of_getD_eq _ _ _ (by rw [hg1]) (fun k hk => hg2 k (Or.inl (by omega))))
    (drop_eq_of_getD_eq _ _ _ (by rw [hg1]) (fun k hk hkl => hg2 k (Or.inr (by omega))))
    hmid

theorem msort_spec (s : St) (l r : Int) :
    0 ≤ l → r < (s.arr.length : Int) →
    (msort s l r).arr.length = s.arr.length ∧
    (msort s l r).arr.Perm s.arr ∧
    (∀ k : Nat, ((k : Int) < l ∨ (k : Int) > r) →
      (msort s l r).arr.getD k 0 = s.arr.getD k 0) ∧
    (∀ a b : Nat, l ≤ (a : Int) → a ≤ b → (b : Int) ≤ r →
      (msort s l r).arr.getD a 0 ≤ (msort s l r).arr.getD b 0) := by
  induction s, l, r using msort.induct with
  | case1 s l r h =>
    intro h0 hrl
    rw [msort, dif_pos h]
    refine ⟨rfl, List.Perm.refl _, fun k hk => rfl, ?_⟩
    intro a b ha hab hb
    rw [show a = b by omega]
  | case2 s l r h ih1 ih2 =>
    intro h0 hrl
    rw [msort, dif_neg h]
    set m := l + (r - l) / 2 with hmdef
    have hml : l ≤ m := by omega
    have hmr : m < r := by omega
    obtain ⟨a1, a2, a3, a4⟩ := ih1 h0 (by omega)
    set S1 := msort s l m with hS1def
    obtain ⟨b1, b2, b3, b4⟩ := ih2 (by omega) (by rw [a1]; omega)
    set S2 := msort S1 (m + 1) r with hS2def
    obtain ⟨g1, g2, g3, g4⟩ := mergeRanges_spec S2 l m r h0 hml hmr
      (by rw [b1, a1]; omega)
    refine ⟨?_, ?_, ?_, ?_⟩
    · rw [g1, b1, a1]
    · exact g4.trans (b2.trans a2)
    · intro k hk
      rw [g2 k hk, b3 k (by omega), a3 k (by omega)]
    · intro a b ha hab hb
      have hLs : (buildSlice S2.arr l.toNat (m - l + 1).toNat).Sorted (· ≤ ·) := by
        apply sorted_of_adjSorted
        intro t ht
        rw [buildSlice_length] at ht
        rw [buildSlice_getD S2.arr (m - l + 1).toNat l.toNat t (by omega),
          buildSlice_getD S2.arr (m - l + 1).toNat l.toNat (t + 1) (by omega)]
        rw [b3 (l.toNat + t) (by omega), b3 (l.toNat + (t + 1)) (by omega)]
        exact a4 (l.toNat + t) (l.toNat + (t + 1)) (by omega) (by omega) (by omega)
      have hRs : (buildSlice S2.arr (m + 1).toNat (r - m).toNat).Sorted (· ≤ ·) := by
        apply sorted_of_adjSorted
        intro t ht
        rw [buildSlice_length] at ht
        rw [buildSlice_getD S2.arr (r - m).toNat (m + 1).toNat t (by omega),
          buildSlice_getD S2.arr (r - m).toNat (m + 1).toNat (t + 1) (by omega)]
        exact b4 ((m + 1).toNat + t) ((m + 1).toNat + (t + 1)) (by omega) (by omega)
          (by omega)
      have hMs := mergePure_sorted _ _ hLs hRs
      have hadj := adjSorted_of_sorted _ hMs
      have hMlen : (mergePure (buildSlice S2.arr l.toNat (m - l + 1).toNat)
          (buildSlice S2.arr (m + 1).toNat (r - m).toNat)).length =
          (m - l + 1).toNat + (r - m).toNat := by
        rw [mergePure_length, buildSlice_length, buildSlice_length]
      rw [show a = l.toNat + (a - l.toNat) by omega, show b = l.toNat + (b - l.toNat) by omega,
        g3 (a - l.toNat) (by omega), g3 (b - l.toNat) (by omega)]
      exact adjSorted_getD_mono _ hadj (b - l.toNat) (a - l.toNat) (b - l.toNat)
        (by omega) (by omega) (by rw [hMlen]; omega)

/-- Merge sort (mergeSortFunc) leaves the working array a sorted
permutation of its input, for every starting state. -/
theorem mergeSortFunc_sorts (s : St) :
    (mergeSortFunc s).arr.Perm s.arr ∧
      (mergeSortFunc s).arr.Sorted (· ≤ ·) := by
  obtain ⟨c1, c2, c3, c4⟩ := msort_spec s 0 ((s.arr.length : Int) - 1)
    (le_refl 0) (by omega)
  refine ⟨c2, sorted_of_adjSorted _ ?_⟩
  intro i hi
  rw [mergeSortFunc] at hi ⊢
  rw [c1] at hi
  exact c4 i (i + 1) (by omega) (by omega) (by omega)

/-! ### Heap sort correctness -/

/-- `q` lies in the binary-heap subtree rooted at `i` (climb parents). -/
def isDesc (i q : Nat) : Bool :=
  if q = i then true
  else if q ≤ i then false
  else isDesc i ((q - 1) / 2)
termination_by q
decreasing_by
  omega

theorem isDesc_self (i : Nat) : isDesc i i = true := by
  rw [isDesc]
  simp

theorem isDesc_ge (i q : Nat) : isDesc i q = true → i ≤ q := by
  intro h
  rw [isDesc] at h
  by_cases h1 : q = i
  · omega
  · rw [if_neg h1] at h
    by_cases h2 : q ≤ i
    · rw [if_pos h2] at h
      exact absurd h (by simp)
    · omega

theorem isDesc_parent (i q : Nat) (h : isDesc i q = true) (hne : q ≠ i) :
    isDesc i ((q - 1) / 2) = true ∧ i < q := by
  rw [isDesc, if_neg hne] at h
  by_cases h2 : q ≤ i
  · rw [if_pos h2] at h
    exact absurd h (by simp)
  · rw [if_neg h2] at h
    exact ⟨h, by omega⟩

theorem parent_child1 (p : Nat) : (2 * p + 1 - 1) / 2 = p := by omega

theorem parent_child2 (p : Nat) : (2 * p + 2 - 1) / 2 = p := by omega

theorem isDesc_child (i p j : Nat) (hp : isDesc i p = true)
    (hj : j = 2 * p + 1 ∨ j = 2 * p + 2) : isDesc i j = true := by
  have hip := isDesc_ge i p hp
  have hji : i < j := by omega
  rw [isDesc, if_neg (by omega), if_neg (by omega)]
  have hpar : (j - 1) / 2 = p := by
    rcases hj with hj | hj <;> omega
  rw [hpar]
  exact hp

theorem isDesc_trans (i c q : Nat) (hc : isDesc i c = true) :
    ∀ hq : isDesc c q = true, isDesc i q = true := by
  induction q using Nat.strong_induction_on with
  | _ q ih =>
    intro hq
    by_cases hqc : q = c
    · rw [hqc]
      exact hc
    · obtain ⟨hq2, hlt⟩ := isDesc_parent c q hq hqc
      have hih := ih ((q - 1) / 2) (by omega) hq2
      have hci := isDesc_ge c q hq
      have hii := isDesc_ge i c hc
      rw [isDesc, if_neg (by omega), if_neg (by omega)]
      exact hih

theorem isDesc_child_rev (c p j : Nat) (hj : j = 2 * p + 1 ∨ j = 2 * p + 2)
    (hjc : j ≠ c) (hdj : isDesc c j = true) (hnp : isDesc c p = false) : False := by
  obtain ⟨h1, h2⟩ := isDesc_parent c j hdj hjc
  have hpar : (j - 1) / 2 = p := by
    rcases hj with hj | hj <;> omega
  rw [hpar] at h1
  rw [h1] at hnp
  exact absurd hnp (by simp)

theorem isDesc_zero (q : Nat) : isDesc 0 q = true := by
  induction q using Nat.strong_induction_on with
  | _ q ih =>
    by_cases hq : q = 0
    · rw [hq]
      exact isDesc_self 0
    · rw [isDesc, if_neg hq, if_neg (by omega)]
      exact ih ((q - 1) / 2) (by omega)

/-- In a list whose parent/child pairs below `c` all dominate, every node of
the subtree of `c` is bounded by the value at `c`. -/
theorem subtree_le_root (l : List Int) (size c : Nat)
    (hheap : ∀ p j, isDesc c p = true → j < size → (j = 2 * p + 1 ∨ j = 2 * p + 2) →
      l.getD p 0 ≥ l.getD j 0) :
    ∀ q, isDesc c q = true → q < size → l.getD q 0 ≤ l.getD c 0 := by
  intro q
  induction q using Nat.strong_induction_on with
  | _ q ih =>
    intro hq hqs
    by_cases hqc : q = c
    · rw [hqc]
    · obtain ⟨hpar, hlt⟩ := isDesc_parent c q hq hqc
      have hcq := isDesc_ge c q hq
      have hchild : q = 2 * ((q - 1) / 2) + 1 ∨ q = 2 * ((q - 1) / 2) + 2 := by omega
      have hdom := hheap ((q - 1) / 2) q hpar hqs hchild
      have hup := ih ((q - 1) / 2) (by omega) hpar (by omega)
      omega

@[simp] theorem heapCmpEmits_arr (s : St) (size i : Nat) :
    (heapCmpEmits s size i).arr = s.arr := by
  simp only [heapCmpEmits]
  split_ifs <;> simp

theorem St.getA_eq (s : St) (i : Nat) : s.getA i = s.arr.getD i 0 := rfl

theorem heapLargest_cases (s : St) (size i : Nat) :
    heapLargest s size i = i ∨ heapLargest s size i = 2 * i + 1 ∨
      heapLargest s size i = 2 * i + 2 := by
  unfold heapLargest heapChild1
  split_ifs <;> simp

theorem heapLargest_max (s : St) (size i : Nat) :
    s.getA (heapLargest s size i) ≥ s.getA i ∧
    (2 * i + 1 < size → s.getA (heapLargest s size i) ≥ s.getA (2 * i + 1)) ∧
    (2 * i + 2 < size → s.getA (heapLargest s size i) ≥ s.getA (2 * i + 2)) := by
  unfold heapLargest heapChild1
  split_ifs <;> exact ⟨by omega, fun hh => by omega, fun hh => by omega⟩

theorem heapLargest_eq_self (s : St) (size i : Nat) (h : heapLargest s size i = i) :
    (2 * i + 1 < size → s.getA (2 * i + 1) ≤ s.getA i) ∧
    (2 * i + 2 < size → s.getA (2 * i + 2) ≤ s.getA i) := by
  unfold heapLargest heapChild1 at h
  split_ifs at h <;> exact ⟨fun hh => by omega, fun hh => by omega⟩

theorem heapLargest_ne_imp_lt (s : St) (size i : Nat)
    (h : heapLargest s size i ≠ i) : i < size := by
  by_contra hns
  apply h
  unfold heapLargest heapChild1
  split_ifs <;> omega

theorem heapify_spec (s : St) (size i : Nat) :
    size ≤ s.arr.length →
    (∀ p j, isDesc i p = true → p ≠ i → j < size → (j = 2 * p + 1 ∨ j = 2 * p + 2) →
      s.arr.getD p 0 ≥ s.arr.getD j 0) →
    (heapify s size i).arr.length = s.arr.length ∧
    (heapify s size i).arr.Perm s.arr ∧
    (∀ q, ¬(isDesc i q = true ∧ q < size) →
      (heapify s size i).arr.getD q 0 = s.arr.getD q 0) ∧
    (∀ p j, isDesc i p = true → j < size → (j = 2 * p + 1 ∨ j = 2 * p + 2) →
      (heapify s size i).arr.getD p 0 ≥ (heapify s size i).arr.getD j 0) ∧
    (∀ q, isDesc i q = true → q < size →
      ∃ q2, isDesc i q2 = true ∧ q2 < size ∧
        (heapify s size i).arr.getD q 0 = s.arr.getD q2 0) := by
  induction s, size, i using heapify.induct with
  | case1 s size i hL ih =>
    intro hsz hpre
    rw [heapify, dif_pos hL]
    set c := heapLargest s size i with hcdef
    have hil : i < size := heapLargest_ne_imp_lt s size i hL
    have hcge : i ≤ c := heapLargest_ge s size i
    have hic : i < c := by omega
    have hcs : c < size := heapLargest_lt_size s size i hil
    have hcij : c = 2 * i + 1 ∨ c = 2 * i + 2 := by
      rcases heapLargest_cases s size i with h | h | h
      · exact absurd h hL
      · exact Or.inl h
      · exact Or.inr h
    have hmax := heapLargest_max s size i
    rw [St.getA_eq, St.getA_eq, St.getA_eq, St.getA_eq] at hmax
    have hdic : isDesc i c = true := isDesc_child i i c (isDesc_self i) hcij
    have hdci : isDesc c i = false := by
      rw [isDesc, if_neg (by omega), if_pos (by omega)]
    have harrS : ((((((heapCmpEmits s size i).addS 1).addW 2).swapA i c).emitE
        { swapping := some [i, c] }).arr) = swapL s.arr i c := by
      simp
    obtain ⟨r1, r2, r3, r4, r5⟩ := ih
      (by rw [harrS]; simp only [swapL, List.length_set]; omega)
      (by
        intro p j hdp hpc hjs hch
        rw [harrS]
        have hcp : c < p := (isDesc_parent c p hdp hpc).2
        have hpi2 : isDesc i p = true := isDesc_trans i c p hdic hdp
        rw [getD_swapL_other _ _ _ _ (by omega) (by omega),
          getD_swapL_other _ _ _ _ (by omega) (by omega)]
        exact hpre p j hpi2 (by omega) hjs hch)
    rw [harrS] at r1 r2 r3 r5
    have hsub : ∀ q, isDesc c q = true → q < size → s.arr.getD q 0 ≤ s.arr.getD c 0 := by
      apply subtree_le_root
      intro p j hdp hjs hch
      by_cases hpc : p = c
      · rw [hpc] at hch
        rw [hpc]
        exact hpre c j hdic (by omega) hjs hch
      · have hcp := (isDesc_parent c p hdp hpc).2
        exact hpre p j (isDesc_trans i c p hdic hdp) (by omega) hjs hch
    refine ⟨?_, ?_, ?_, ?_, ?_⟩
    · rw [r1]
      simp only [swapL, List.length_set]
    · exact r2.trans (perm_swapL s.arr i c (by omega) (by omega))
    · intro q hq
      have hncq : ¬(isDesc c q = true ∧ q < size) := by
        intro hx
        exact hq ⟨isDesc_trans i c q hdic hx.1, hx.2⟩
      rw [r3 q hncq]
      have hqi : q ≠ i := by
        intro he
        exact hq ⟨by rw [he]; exact isDesc_self i, by omega⟩
      have hqc : q ≠ c := by
        intro he
        exact hq ⟨by rw [he]; exact hdic, by omega⟩
      exact getD_swapL_other _ _ _ _ hqi hqc
    · intro p j hdp hjs hch
      by_cases hdcp : isDesc c p = true
      · exact r4 p j hdcp hjs hch
      · by_cases hpi : p = i
        · have htiv := r3 i (by rw [hdci]; simp)
          rw [getD_swapL_fst _ _ _ (by omega)] at htiv
          rw [hpi] at hch
          rw [hpi, htiv]
          by_cases hjc : j = c
          · obtain ⟨q2, hq2d, hq2s, hq2e⟩ := r5 c (isDesc_self c) hcs
            rw [hjc, hq2e]
            by_cases hq2c : q2 = c
            · rw [hq2c, getD_swapL_snd _ _ _ (by omega)]
              exact hmax.1
            · have hq2gt : c < q2 := (isDesc_parent c q2 hq2d hq2c).2
              rw [getD_swapL_other _ _ _ _ (by omega) (by omega)]
              exact hsub q2 hq2d hq2s
          · have hdcj : isDesc c j = false := by
              cases h2 : isDesc c j
              · rfl
              · exact absurd (isDesc_child_rev c i j hch hjc h2 hdci) (fun x => x)
            rw [r3 j (by rw [hdcj]; simp),
              getD_swapL_other _ _ _ _ (by omega) (by omega)]
            rcases hch with hch | hch <;> rw [hch]
            · exact hmax.2.1 (by omega)
            · exact hmax.2.2 (by omega)
        · have hpge : i ≤ p := isDesc_ge i p hdp
          have hpc : p ≠ c := by
            intro he
            rw [he, isDesc_self] at hdcp
            exact hdcp rfl
          have hjc : j ≠ c := by
            intro he
            have hpar : (j - 1) / 2 = p := by
              rcases hch with hch | hch <;> omega
            have hpar2 : (c - 1) / 2 = i := by
              rcases hcij with hc2 | hc2 <;> omega
            rw [he] at hpar
            exact hpi (by omega)
          have hdcp2 : isDesc c p = false := by
            cases h3 : isDesc c p
            · rfl
            · exact absurd h3 hdcp
          have hdcj : isDesc c j = false := by
            cases h2 : isDesc c j
            · rfl
            · exact absurd (isDesc_child_rev c p j hch hjc h2 hdcp2) (fun x => x)
          rw [r3 p (by rw [hdcp2]; simp),
            r3 j (by rw [hdcj]; simp),
            getD_swapL_other _ _ _ _ (by omega) (by omega),
            getD_swapL_other _ _ _ _ (by omega) (by omega)]
          exact hpre p j hdp hpi hjs hch
    · intro q hdq hqs
      by_cases hdcq : isDesc c q = true
      · obtain ⟨q2, hq2d, hq2s, hq2e⟩ := r5 q hdcq hqs
        by_cases hq2c : q2 = c
        · refine ⟨i, isDesc_self i, by omega, ?_⟩
          rw [hq2e, hq2c, getD_swapL_snd _ _ _ (by omega)]
        · have hq2gt : c < q2 := (isDesc_parent c q2 hq2d hq2c).2
          refine ⟨q2, isDesc_trans i c q2 hdic hq2d, hq2s, ?_⟩
          rw [hq2e, getD_swapL_other _ _ _ _ (by omega) (by omega)]
      · have hnq : ¬(isDesc c q = true ∧ q < size) := by
          intro hx
          exact hdcq hx.1
        by_cases hqi : q = i
        · refine ⟨c, hdic, by omega, ?_⟩
          rw [r3 q hnq, hqi, getD_swapL_fst _ _ _ (by omega)]
        · have hqc : q ≠ c := by
            intro he
            rw [he] at hdcq
            exact hdcq (isDesc_self c)
          refine ⟨q, hdq, hqs, ?_⟩
          rw [r3 q hnq, getD_swapL_other _ _ _ _ hqi hqc]
  | case2 s size i hL =>
    intro hsz hpre
    rw [heapify, dif_neg hL]
    have heq : heapLargest s size i = i := by
      by_contra hc
      exact hL hc
    have hself := heapLargest_eq_self s size i heq
    rw [St.getA_eq, St.getA_eq, St.getA_eq] at hself
    refine ⟨by simp, by rw [heapCmpEmits_arr], ?_, ?_, ?_⟩
    · intro q hq
      rw [heapCmpEmits_arr]
    · intro p j hdp hjs hch
      rw [heapCmpEmits_arr]
      by_cases hpi : p = i
      · rw [hpi] at hch ⊢
        rcases hch with hch | hch <;> rw [hch]
        · exact hself.1 (by omega)
        · exact hself.2 (by omega)
      · exact hpre p j hdp hpi hjs hch
    · intro q hdq hqs
      exact ⟨q, hdq, hqs, by rw [heapCmpEmits_arr]⟩

theorem heapBuildLoop_spec (n : Nat) :
    ∀ (k : Nat) (s : St), n ≤ s.arr.length →
    (∀ p j, k ≤ p → j < n → (j = 2 * p + 1 ∨ j = 2 * p + 2) →
      s.arr.getD p 0 ≥ s.arr.getD j 0) →
    (heapBuildLoop s n k).arr.length = s.arr.length ∧
    (heapBuildLoop s n k).arr.Perm s.arr ∧
    (∀ p j, j < n → (j = 2 * p + 1 ∨ j = 2 * p + 2) →
      (heapBuildLoop s n k).arr.getD p 0 ≥ (heapBuildLoop s n k).arr.getD j 0) := by
  intro k
  induction k with
  | zero =>
    intro s hsz hinv
    exact ⟨rfl, List.Perm.refl _, fun p j hj hch => hinv p j (by omega) hj hch⟩
  | succ k ih =>
    intro s hsz hinv
    obtain ⟨g1, g2, g3, g4, g5⟩ := heapify_spec s n k hsz
      (by
        intro p j hdp hpk hjs hch
        have hkp : k < p := (isDesc_parent k p hdp hpk).2
        exact hinv p j (by omega) hjs hch)
    have hinv2 : ∀ p j, k ≤ p → j < n → (j = 2 * p + 1 ∨ j = 2 * p + 2) →
        (heapify s n k).arr.getD p 0 ≥ (heapify s n k).arr.getD j 0 := by
      intro p j hkp hjs hch
      by_cases hdp : isDesc k p = true
      · exact g4 p j hdp hjs hch
      · have hdp2 : isDesc k p = false := by
          cases h3 : isDesc k p
          · rfl
          · exact absurd h3 hdp
        have hpk : p ≠ k := by
          intro he
          rw [he, isDesc_self] at hdp2
          exact absurd hdp2 (by simp)
        have hjk : j ≠ k := by omega
        have hdj : isDesc k j = false := by
          cases h2 : isDesc k j
          · rfl
          · exact absurd (isDesc_child_rev k p j hch hjk h2 hdp2) (fun x => x)
        rw [g3 p (by rw [hdp2]; simp), g3 j (by rw [hdj]; simp)]
        exact hinv p j (by omega) hjs hch
    obtain ⟨b1, b2, b3⟩ := ih (heapify s n k) (by rw [g1]; exact hsz) hinv2
    rw [heapBuildLoop]
    exact ⟨b1.trans g1, b2.trans g2, b3⟩

theorem heapExtractLoop_spec :
    ∀ (f : Nat) (s : St), (f < s.arr.length ∨ f = 0) →
    (∀ p j, j < f + 1 → (j = 2 * p + 1 ∨ j = 2 * p + 2) →
      s.arr.getD p 0 ≥ s.arr.getD j 0) →
    (∀ a b, f < a → a ≤ b → b < s.arr.length → s.arr.getD a 0 ≤ s.arr.getD b 0) →
    (∀ a b, a ≤ f → f < b → b < s.arr.length → s.arr.getD a 0 ≤ s.arr.getD b 0) →
    (heapExtractLoop s f).arr.length = s.arr.length ∧
    (heapExtractLoop s f).arr.Perm s.arr ∧
    (∀ a b, a ≤ b → b < s.arr.length →
      (heapExtractLoop s f).arr.getD a 0 ≤ (heapExtractLoop s f).arr.getD b 0) := by
  intro f
  induction f with
  | zero =>
    intro s hf hheap hsuf hcross
    refine ⟨rfl, List.Perm.refl _, ?_⟩
    intro a b hab hb
    by_cases hab2 : a = b
    · rw [hab2]
    · by_cases ha0 : a = 0
      · rw [ha0]
        exact hcross 0 b (le_refl 0) (by omega) hb
      · exact hsuf a b (by omega) hab hb
  | succ f ih =>
    intro s hf hheap hsuf hcross
    have hfl : f + 1 < s.arr.length := by
      rcases hf with hf | hf
      · exact hf
      · exact absurd hf (by omega)
    have harrU : (((((s.addS 1).addW 2).swapA 0 (f + 1)).emitE
        { swapping := some [0, f + 1] }).arr) = swapL s.arr 0 (f + 1) := by
      simp
    have smax : ∀ q, q < f + 2 → s.arr.getD q 0 ≤ s.arr.getD 0 0 := by
      intro q hq
      exact subtree_le_root s.arr (f + 2) 0
        (fun p j hdp hjs hch => hheap p j (by omega) hch) q (isDesc_zero q) hq
    obtain ⟨g1, g2, g3, g4, g5⟩ := heapify_spec
      ((((s.addS 1).addW 2).swapA 0 (f + 1)).emitE { swapping := some [0, f + 1] })
      (f + 1) 0
      (by rw [harrU]; simp only [swapL, List.length_set]; omega)
      (by
        intro p j hdp hp0 hjs hch
        rw [harrU]
        have hp1 : 0 < p := by
          have := isDesc_ge 0 p hdp
          omega
        rw [getD_swapL_other _ _ _ _ (by omega) (by omega),
          getD_swapL_other _ _ _ _ (by omega) (by omega)]
        exact hheap p j (by omega) hch)
    rw [harrU] at g1 g2 g3 g5
    have hulen : (swapL s.arr 0 (f + 1)).length = s.arr.length := by
      simp only [swapL, List.length_set]
    have hvlen : (heapify ((((s.addS 1).addW 2).swapA 0 (f + 1)).emitE
        { swapping := some [0, f + 1] }) (f + 1) 0).arr.length = s.arr.length := by
      rw [g1, hulen]
    have hvup : ∀ q, f + 1 ≤ q →
        (heapify ((((s.addS 1).addW 2).swapA 0 (f + 1)).emitE
          { swapping := some [0, f + 1] }) (f + 1) 0).arr.getD q 0 =
        (swapL s.arr 0 (f + 1)).getD q 0 := by
      intro q hq
      exact g3 q (by intro hx; omega)
    have hvtop : (heapify ((((s.addS 1).addW 2).swapA 0 (f + 1)).emitE
        { swapping := some [0, f + 1] }) (f + 1) 0).arr.getD (f + 1) 0 =
        s.arr.getD 0 0 := by
      rw [hvup (f + 1) (le_refl _), getD_swapL_snd _ _ _ (by omega)]
    have hvhigh : ∀ q, f + 1 < q →
        (heapify ((((s.addS 1).addW 2).swapA 0 (f + 1)).emitE
          { swapping := some [0, f + 1] }) (f + 1) 0).arr.getD q 0 =
        s.arr.getD q 0 := by
      intro q hq
      rw [hvup q (by omega), getD_swapL_other _ _ _ _ (by omega) (by omega)]
    have hvbound : ∀ q, q ≤ f →
        (heapify ((((s.addS 1).addW 2).swapA 0 (f + 1)).emitE
          { swapping := some [0, f + 1] }) (f + 1) 0).arr.getD q 0 ≤
        s.arr.getD 0 0 := by
      intro q hq
      obtain ⟨q2, hq2d, hq2s, hq2e⟩ := g5 q (isDesc_zero q) (by omega)
      rw [hq2e]
      by_cases hq20 : q2 = 0
      · rw [hq20, getD_swapL_fst _ _ _ (by omega)]
        exact smax (f + 1) (by omega)
      · rw [getD_swapL_other _ _ _ _ (by omega) (by omega)]
        exact smax q2 (by omega)
    obtain ⟨e1, e2, e3⟩ := ih
      (heapify ((((s.addS 1).addW 2).swapA 0 (f + 1)).emitE
        { swapping := some [0, f + 1] }) (f + 1) 0)
      (by rw [hvlen]; omega)
      (fun p j hj hch => g4 p j (isDesc_zero p) hj hch)
      (by
        intro a b ha hab hb
        rw [hvlen] at hb
        by_cases hab2 : a = b
        · rw [hab2]
        · by_cases haf : a = f + 1
          · rw [haf, hvtop, hvhigh b (by omega)]
            exact hcross 0 b (by omega) (by omega) hb
          · rw [hvhigh a (by omega), hvhigh b (by omega)]
            exact hsuf a b (by omega) hab hb
      )
      (by
        intro a b ha hb hbl
        rw [hvlen] at hbl
        have hva := hvbound a ha
        by_cases hbf : b = f + 1
        · rw [hbf, hvtop]
          exact hva
        · rw [hvhigh b (by omega)]
          exact hva.trans (hcross 0 b (by omega) (by omega) hbl)
      )
    rw [heapExtractLoop]
    rw [hvlen] at e1 e3
    refine ⟨e1, ?_, ?_⟩
    · exact e2.trans ((g2.trans (perm_swapL s.arr 0 (f + 1) (by omega) (by omega))))
    · intro a b hab hb
      exact e3 a b hab hb

/-- Heap sort (heapSortFunc) leaves the working array a sorted permutation
of its input, for every starting state. -/
theorem heapSortFunc_sorts (s : St) :
    (heapSortFunc s).arr.Perm s.arr ∧
      (heapSortFunc s).arr.Sorted (· ≤ ·) := by
  obtain ⟨b1, b2, b3⟩ := heapBuildLoop_spec s.arr.length (s.arr.length / 2) s
    (le_refl _) (by intro p j hp hj hch; omega)
  obtain ⟨e1, e2, e3⟩ := heapExtractLoop_spec (s.arr.length - 1)
    (heapBuildLoop s s.arr.length (s.arr.length / 2))
    (by rw [b1]; omega)
    (fun p j hj hch => b3 p j (by omega) hch)
    (by
      intro a b ha hab hb
      rw [b1] at hb
      exact absurd hb (by omega))
    (by
      intro a b ha hb hbl
      rw [b1] at hbl
      exact absurd hbl (by omega))
  rw [heapSortFunc]
  refine ⟨e2.trans b2, sorted_of_adjSorted _ ?_⟩
  intro t ht
  rw [e1, b1] at ht
  exact e3 t (t + 1) (by omega) (by rw [b1]; omega)

/-! ### Radix sort correctness (for all-nonnegative inputs) -/

/-- Number of positions `j < n` whose value satisfies `P`. -/
def cntP (arr : List Int) (P : Int → Prop) [DecidablePred P] : Nat → Nat
  | 0 => 0
  | n + 1 => cntP arr P n + (if P (arr.getD n 0) then 1 else 0)

theorem cntP_mono (arr : List Int) (P : Int → Prop) [DecidablePred P] :
    ∀ n m : Nat, n ≤ m → cntP arr P n ≤ cntP arr P m := by
  intro n m h
  induction m with
  | zero =>
    rw [show n = 0 by omega]
  | succ m ih =>
    by_cases hm : n = m + 1
    · rw [hm]
    · have := ih (by omega)
      rw [cntP]
      split_ifs <;> omega

theorem cntP_le (arr : List Int) (P : Int → Prop) [DecidablePred P] :
    ∀ n : Nat, cntP arr P n ≤ n := by
  intro n
  induction n with
  | zero => rw [cntP]
  | succ n ih =>
    rw [cntP]
    split_ifs <;> omega

theorem cntP_imp (arr : List Int) (P Q : Int → Prop) [DecidablePred P] [DecidablePred Q]
    (h : ∀ v, P v → Q v) : ∀ n : Nat, cntP arr P n ≤ cntP arr Q n := by
  intro n
  induction n with
  | zero => rw [cntP, cntP]
  | succ n ih =>
    rw [cntP, cntP]
    by_cases hp : P (arr.getD n 0)
    · rw [if_pos hp, if_pos (h _ hp)]
      omega
    · rw [if_neg hp]
      split_ifs <;> omega

theorem cntP_countP (arr : List Int) (P : Int → Prop) [DecidablePred P] :
    ∀ n : Nat, n ≤ arr.length → cntP arr P n = (arr.take n).countP (fun v => decide (P v)) := by
  intro n
  induction n with
  | zero =>
    intro hn
    rw [cntP]
    simp
  | succ n ih =>
    intro hn
    rw [cntP, ih (by omega), List.take_succ]
    rw [List.countP_append]
    have hlt : n < arr.length := by omega
    rw [List.getElem?_eq_getElem hlt]
    simp only [Option.toList_some, List.countP_cons, List.countP_nil]
    have hgd : arr.getD n 0 = arr[n] := by
      simp [List.getD_eq_getElem?_getD, List.getElem?_eq_getElem hlt]
    rw [hgd]
    by_cases hx : P arr[n]
    · simp [hx]
    · simp [hx]

theorem cntP_congr (arr : List Int) (P Q : Int → Prop) [DecidablePred P] [DecidablePred Q]
    (h : ∀ v, P v ↔ Q v) : ∀ n : Nat, cntP arr P n = cntP arr Q n := by
  intro n
  induction n with
  | zero => rw [cntP, cntP]
  | succ n ih =>
    rw [cntP, cntP, ih]
    by_cases hp : P (arr.getD n 0)
    · rw [if_pos hp, if_pos ((h _).mp hp)]
    · rw [if_neg hp, if_neg (fun hq => hp ((h _).mpr hq))]

/-- The digit used as a `count` index: `Math.floor(v / exp) % 10` as a `Nat`. -/
def dgN (exp : Nat) (v : Int) : Nat := (radixDigit v exp).toNat

theorem radixDigit_of_nonneg (v : Int) (exp : Nat) (hv : 0 ≤ v) (he : 0 < exp) :
    radixDigit v exp = ((v.toNat / exp % 10 : Nat) : Int) := by
  rw [radixDigit]
  rw [Int.fdiv_eq_ediv _ (by positivity)]
  conv_lhs => rw [show v = ((v.toNat : Nat) : Int) by omega]
  rw [← Int.ofNat_ediv]
  rw [Int.tmod_eq_emod (by positivity) (by norm_num)]
  norm_cast

theorem dgN_of_nonneg (v : Int) (exp : Nat) (hv : 0 ≤ v) (he : 0 < exp) :
    dgN exp v = v.toNat / exp % 10 := by
  rw [dgN, radixDigit_of_nonneg v exp hv he]
  omega

theorem radixDigit_nonneg (v : Int) (exp : Nat) (hv : 0 ≤ v) (he : 0 < exp) :
    0 ≤ radixDigit v exp := by
  rw [radixDigit_of_nonneg v exp hv he]
  positivity

theorem dgN_lt_ten (v : Int) (exp : Nat) (hv : 0 ≤ v) (he : 0 < exp) :
    dgN exp v < 10 := by
  rw [dgN_of_nonneg v exp hv he]
  omega

/-- The stable rank realised by the placement loop: elements with a smaller
digit, plus earlier elements with the same digit. -/
def csRank (arr : List Int) (exp : Nat) (j : Nat) : Nat :=
  cntP arr (fun v => dgN exp v < dgN exp (arr.getD j 0)) arr.length +
  cntP arr (fun v => dgN exp v = dgN exp (arr.getD j 0)) j

theorem cnt_le_split (arr : List Int) (exp : Nat) (d : Nat) :
    ∀ n : Nat, cntP arr (fun v => dgN exp v ≤ d) n =
      cntP arr (fun v => dgN exp v < d) n + cntP arr (fun v => dgN exp v = d) n := by
  intro n
  induction n with
  | zero => rw [cntP, cntP, cntP]
  | succ n ih =>
    rw [cntP, cntP, cntP, ih]
    rcases Nat.lt_trichotomy (dgN exp (arr.getD n 0)) d with hx | hx | hx
    · rw [if_pos (by omega), if_pos hx, if_neg (by omega)]
      omega
    · rw [if_pos (by omega), if_neg (by omega), if_pos hx]
      omega
    · rw [if_neg (by omega), if_neg (by omega), if_neg (by omega)]
      omega

theorem cnt_lt_succ (arr : List Int) (exp : Nat) (d : Nat) (n : Nat) :
    cntP arr (fun v => dgN exp v < d + 1) n = cntP arr (fun v => dgN exp v ≤ d) n :=
  cntP_congr arr _ _ (fun v => by omega) n

theorem cnt_lt_zero (arr : List Int) (exp : Nat) (n : Nat) :
    cntP arr (fun v => dgN exp v < 0) n = 0 := by
  induction n with
  | zero => rw [cntP]
  | succ n ih =>
    rw [cntP, ih, if_neg (by omega)]

theorem cntEq_succ_self (arr : List Int) (exp : Nat) (j : Nat) :
    cntP arr (fun v => dgN exp v = dgN exp (arr.getD j 0)) (j + 1) =
      cntP arr (fun v => dgN exp v = dgN exp (arr.getD j 0)) j + 1 := by
  rw [cntP, if_pos rfl]

theorem csRank_lt_of_dg_lt (arr : List Int) (exp : Nat) (j1 j2 : Nat)
    (h1 : j1 < arr.length)
    (hd : dgN exp (arr.getD j1 0) < dgN exp (arr.getD j2 0)) :
    csRank arr exp j1 < csRank arr exp j2 := by
  rw [csRank, csRank]
  have e1 := cntEq_succ_self arr exp j1
  have e2 := cntP_mono arr (fun v => dgN exp v = dgN exp (arr.getD j1 0)) (j1 + 1)
    arr.length (by omega)
  have e3 := cnt_le_split arr exp (dgN exp (arr.getD j1 0)) arr.length
  have e4 := cntP_imp arr (fun v => dgN exp v ≤ dgN exp (arr.getD j1 0))
    (fun v => dgN exp v < dgN exp (arr.getD j2 0)) (fun v hv => by omega) arr.length
  have e5 : (0 : Nat) ≤ cntP arr (fun v => dgN exp v = dgN exp (arr.getD j2 0)) j2 :=
    Nat.zero_le _
  omega

theorem csRank_lt_of_dg_eq (arr : List Int) (exp : Nat) (j1 j2 : Nat)
    (hd : dgN exp (arr.getD j1 0) = dgN exp (arr.getD j2 0)) (hj : j1 < j2) :
    csRank arr exp j1 < csRank arr exp j2 := by
  rw [csRank, csRank]
  simp only [hd]
  have e1 := cntEq_succ_self arr exp j1
  rw [hd] at e1
  have e2 := cntP_mono arr (fun v => dgN exp v = dgN exp (arr.getD j2 0)) (j1 + 1) j2
    (by omega)
  omega

theorem csRank_ne (arr : List Int) (exp : Nat) (j1 j2 : Nat)
    (h1 : j1 < arr.length) (h2 : j2 < arr.length) (hj : j1 < j2) :
    csRank arr exp j1 ≠ csRank arr exp j2 := by
  rcases Nat.lt_trichotomy (dgN exp (arr.getD j1 0)) (dgN exp (arr.getD j2 0))
    with hx | hx | hx
  · exact Nat.ne_of_lt (csRank_lt_of_dg_lt arr exp j1 j2 h1 hx)
  · exact Nat.ne_of_lt (csRank_lt_of_dg_eq arr exp j1 j2 hx hj)
  · exact (Nat.ne_of_lt (csRank_lt_of_dg_lt arr exp j2 j1 h2 hx)).symm

theorem csRank_lt_len (arr : List Int) (exp : Nat) (j : Nat) (hj : j < arr.length) :
    csRank arr exp j < arr.length := by
  rw [csRank]
  have e1 := cntEq_succ_self arr exp j
  have e2 := cntP_mono arr (fun v => dgN exp v = dgN exp (arr.getD j 0)) (j + 1)
    arr.length (by omega)
  have e3 := cnt_le_split arr exp (dgN exp (arr.getD j 0)) arr.length
  have e4 := cntP_le arr (fun v => dgN exp v ≤ dgN exp (arr.getD j 0)) arr.length
  omega

theorem csCountLoop_spec (arr : List Int) (exp : Nat) (hexp : 0 < exp)
    (hnn : ∀ k, k < arr.length → 0 ≤ arr.getD k 0) :
    ∀ i count, i ≤ arr.length → count.length = 10 →
    ∃ cf, csCountLoop arr exp i count = some cf ∧ cf.length = 10 ∧
      ∀ d : Nat, d < 10 →
        cf.getD d 0 + cntP arr (fun v => dgN exp v = d) i =
          count.getD d 0 + cntP arr (fun v => dgN exp v = d) arr.length := by
  intro i count
  induction i, count using csCountLoop.induct arr exp with
  | case1 i count h hd ih =>
    intro hi hcl
    have hD : (radixDigit (arr.getD i 0) exp).toNat = dgN exp (arr.getD i 0) := rfl
    have hD10 : dgN exp (arr.getD i 0) < 10 := dgN_lt_ten _ _ (hnn i h) hexp
    obtain ⟨cf, hcf, hcfl, hcfv⟩ := ih (by omega) (by rw [List.length_set]; exact hcl)
    refine ⟨cf, ?_, hcfl, ?_⟩
    · rw [csCountLoop, dif_pos h, dif_pos hd]
      exact hcf
    · intro d hd10
      have hstep := hcfv d hd10
      rw [hD] at hstep
      by_cases hdD : d = dgN exp (arr.getD i 0)
      · rw [hdD] at hstep ⊢
        rw [getD_set_self _ _ _ _ (by rw [hcl]; omega)] at hstep
        rw [cntP] at hstep
        rw [if_pos rfl] at hstep
        omega
      · rw [getD_set_ne _ _ _ _ _ (by omega)] at hstep
        rw [cntP] at hstep
        rw [if_neg (by omega)] at hstep
        omega
  | case2 i count h hd =>
    intro hi hcl
    exact absurd (radixDigit_nonneg _ _ (hnn i h) hexp) hd
  | case3 i count h =>
    intro hi hcl
    refine ⟨count, by rw [csCountLoop, dif_neg h], hcl, ?_⟩
    intro d hd10
    rw [show i = arr.length by omega]

theorem csPrefixLoop_spec (arr : List Int) (exp : Nat) :
    ∀ count i, 1 ≤ i → i ≤ 10 → count.length = 10 →
    (∀ d : Nat, d < i → count.getD d 0 = cntP arr (fun v => dgN exp v ≤ d) arr.length) →
    (∀ d : Nat, i ≤ d → d < 10 →
      count.getD d 0 = cntP arr (fun v => dgN exp v = d) arr.length) →
    (csPrefixLoop count i).length = 10 ∧
    ∀ d : Nat, d < 10 → (csPrefixLoop count i).getD d 0 =
      cntP arr (fun v => dgN exp v ≤ d) arr.length := by
  intro count i
  induction count, i using csPrefixLoop.induct with
  | case1 count i h ih =>
    intro h1 h10 hcl hlo hhi
    rw [csPrefixLoop, dif_pos h]
    apply ih
    · omega
    · omega
    · rw [List.length_set, hcl]
    · intro d hd
      by_cases hdi : d = i
      · rw [hdi, getD_set_self _ _ _ _ (by omega)]
        have hv1 := hhi i (le_refl i) h
        have hv2 := hlo (i - 1) (by omega)
        have hsplit := cnt_le_split arr exp i arr.length
        have hlt : cntP arr (fun v => dgN exp v < i) arr.length =
            cntP arr (fun v => dgN exp v ≤ i - 1) arr.length := by
          apply cntP_congr
          intro v
          omega
        omega
      · rw [getD_set_ne _ _ _ _ _ (by omega)]
        exact hlo d (by omega)
    · intro d hd hd10
      rw [getD_set_ne _ _ _ _ _ (by omega)]
      exact hhi d (by omega) hd10
  | case2 count i h =>
    intro h1 h10 hcl hlo hhi
    rw [csPrefixLoop, dif_neg h]
    exact ⟨hcl, fun d hd => hlo d (by omega)⟩

theorem list_decomp_at {α : Type} (l : List α) (pos : Nat) (d : α) (h : pos < l.length) :
    l = l.take pos ++ l.getD pos d :: l.drop (pos + 1) := by
  have h2 : l.drop pos = l.getD pos d :: l.drop (pos + 1) := by
    rw [List.drop_eq_getElem_cons h]
    congr 1
    simp [List.getD_eq_getElem?_getD, List.getElem?_eq_getElem h]
  conv_lhs => rw [← List.take_append_drop pos l, h2]

theorem set_decomp_at {α : Type} (l : List α) (pos : Nat) (v : α) (h : pos < l.length) :
    l.set pos v = l.take pos ++ v :: l.drop (pos + 1) := by
  have h1 := list_decomp_at l pos v h
  conv_lhs => rw [h1]
  rw [List.set_append_right _ _ (by simp [List.length_take]; try omega)]
  have hlt : (l.take pos).length = pos := by
    simp [List.length_take]
    try omega
  rw [hlt]
  simp

theorem countP_set {α : Type} (l : List α) (pos : Nat) (v d : α) (p : α → Bool)
    (h : pos < l.length) :
    (l.set pos v).countP p + (if p (l.getD pos d) then 1 else 0) =
      l.countP p + (if p v then 1 else 0) := by
  rw [set_decomp_at l pos v h]
  conv_rhs => rw [list_decomp_at l pos d h]
  rw [List.countP_append, List.countP_append, List.countP_cons, List.countP_cons]
  by_cases h1 : p v
  · by_cases h2 : p (l.getD pos d)
    · simp [h1, h2]
      omega
    · simp [h1, h2]
      omega
  · by_cases h2 : p (l.getD pos d)
    · simp [h1, h2]
      omega
    · simp [h1, h2]
      omega

theorem countP_pointwise {α β : Type} (d1 : α) (d2 : β) (p : α → Bool) (q : β → Bool) :
    ∀ (l1 : List α) (l2 : List β), l1.length = l2.length →
    (∀ k, k < l1.length → p (l1.getD k d1) = q (l2.getD k d2)) →
    l1.countP p = l2.countP q := by
  intro l1
  induction l1 with
  | nil =>
    intro l2 hlen h
    rw [List.length_nil] at hlen
    rw [(List.length_eq_zero).mp hlen.symm]
    rfl
  | cons a t ih =>
    intro l2 hlen h
    match l2 with
    | [] => simp at hlen
    | b :: t2 =>
      rw [List.countP_cons, List.countP_cons]
      have hh := h 0 (by simp)
      simp only [List.getD_cons_zero] at hh
      rw [ih t2 (by simpa using hlen) (fun k hk => by
        have := h (k + 1) (by simp; omega)
        simpa using this)]
      rw [hh]

theorem getD_replicate_lt {α : Type} (n k : Nat) (x d : α) (h : k < n) :
    (List.replicate n x).getD k d = x := by
  rw [List.getD_eq_getElem?_getD, List.getElem?_replicate]
  simp [h]

theorem countP_replicate_false {α : Type} (n : Nat) (x : α) (p : α → Bool)
    (h : p x = false) : (List.replicate n x).countP p = 0 := by
  induction n with
  | zero => rfl
  | succ n ih =>
    rw [List.replicate_succ, List.countP_cons, ih, h]
    rfl

theorem csPlaceLoop_spec (arr : List Int) (exp : Nat) (hexp : 0 < exp)
    (hnn : ∀ k, k < arr.length → 0 ≤ arr.getD k 0) :
    ∀ n count output, n ≤ arr.length → count.length = 10 → output.length = arr.length →
    (∀ d : Nat, d < 10 → count.getD d 0 + cntP arr (fun v => dgN exp v < d) n =
      cntP arr (fun v => dgN exp v ≤ d) n + cntP arr (fun v => dgN exp v < d) arr.length) →
    (∀ j, n ≤ j → j < arr.length →
      output.getD (csRank arr exp j) none = some (arr.getD j 0)) →
    (∀ pos, output.getD pos none ≠ none →
      ∃ j, n ≤ j ∧ j < arr.length ∧ pos = csRank arr exp j) →
    (∀ f : Int → Bool,
      output.countP (fun o => match o with | some v => f v | none => false) +
        cntP arr (fun v => f v = true) n = cntP arr (fun v => f v = true) arr.length) →
    ∃ outF, csPlaceLoop arr exp n count output = some outF ∧
      outF.length = arr.length ∧
      (∀ j, j < arr.length → outF.getD (csRank arr exp j) none = some (arr.getD j 0)) ∧
      (∀ pos, outF.getD pos none ≠ none → ∃ j, j < arr.length ∧ pos = csRank arr exp j) ∧
      (∀ f : Int → Bool,
        outF.countP (fun o => match o with | some v => f v | none => false) =
          cntP arr (fun v => f v = true) arr.length) := by
  intro n count output
  induction n, count, output using csPlaceLoop.induct arr exp with
  | case1 count output =>
    intro hn hcl hol hA hB hD hCF
    refine ⟨output, rfl, hol, fun j hj => hB j (Nat.zero_le j) hj, ?_, ?_⟩
    · intro pos hpos
      obtain ⟨j, h1, h2, h3⟩ := hD pos hpos
      exact ⟨j, h2, h3⟩
    · intro f
      have := hCF f
      rw [cntP] at this
      omega
  | case2 i count output hd hc ih =>
    intro hn hcl hol hA hB hD hCF
    simp only [Nat.succ_eq_add_one] at hA hB hD hCF ⊢
    have hi : i < arr.length := by omega
    have hDd : (radixDigit (arr.getD i 0) exp).toNat = dgN exp (arr.getD i 0) := rfl
    have hD10 : dgN exp (arr.getD i 0) < 10 := dgN_lt_ten _ _ (hnn i hi) hexp
    have hAD := hA (dgN exp (arr.getD i 0)) hD10
    have hsplit1 := cnt_le_split arr exp (dgN exp (arr.getD i 0)) (i + 1)
    have hsplit0 := cnt_le_split arr exp (dgN exp (arr.getD i 0)) i
    have heqsucc := cntEq_succ_self arr exp i
    have hltstep : cntP arr (fun v => dgN exp v < dgN exp (arr.getD i 0)) (i + 1) =
        cntP arr (fun v => dgN exp v < dgN exp (arr.getD i 0)) i := by
      rw [cntP, if_neg (by omega)]
      omega
    have hcount : count.getD (dgN exp (arr.getD i 0)) 0 = csRank arr exp i + 1 := by
      rw [csRank]
      omega
    have hrankl : csRank arr exp i < arr.length := csRank_lt_len arr exp i hi
    have hnone : output.getD (csRank arr exp i) none = none := by
      by_contra hcon
      obtain ⟨j, h1, h2, h3⟩ := hD _ hcon
      exact csRank_ne arr exp i j hi h2 (by omega) h3
    obtain ⟨outF, hrun, c1, c2, c3, c4⟩ := ih (by omega) (by rw [List.length_set, hcl])
      (by rw [List.length_set, hol])
      (by
        intro d hd10
        rw [hDd]
        by_cases hdD : d = dgN exp (arr.getD i 0)
        · rw [hdD, getD_set_self _ _ _ _ (by omega), hcount, csRank]
          omega
        · rw [getD_set_ne _ _ _ _ _ (by omega)]
          have hAd := hA d hd10
          have hle : cntP arr (fun v => dgN exp v ≤ d) (i + 1) =
              cntP arr (fun v => dgN exp v ≤ d) i +
                (if dgN exp (arr.getD i 0) ≤ d then 1 else 0) := by
            rw [cntP]
          have hlt : cntP arr (fun v => dgN exp v < d) (i + 1) =
              cntP arr (fun v => dgN exp v < d) i +
                (if dgN exp (arr.getD i 0) < d then 1 else 0) := by
            rw [cntP]
          by_cases hx : dgN exp (arr.getD i 0) < d
          · rw [if_pos hx] at hlt
            rw [if_pos (by omega)] at hle
            omega
          · rw [if_neg hx] at hlt
            rw [if_neg (by omega)] at hle
            omega)
      (by
        intro j hj1 hj2
        rw [hDd, hcount]
        simp only [Nat.add_sub_cancel]
        by_cases hji : j = i
        · rw [hji, getD_set_self _ _ _ _ (by omega)]
        · rw [getD_set_ne _ _ _ _ _ (csRank_ne arr exp i j hi hj2 (by omega))]
          exact hB j (by omega) hj2)
      (by
        intro pos hpos
        rw [hDd, hcount] at hpos
        simp only [Nat.add_sub_cancel] at hpos
        by_cases hpr : pos = csRank arr exp i
        · exact ⟨i, le_refl i, hi, hpr⟩
        · rw [getD_set_ne _ _ _ _ _ (fun he => hpr he.symm)] at hpos
          obtain ⟨j, h1, h2, h3⟩ := hD pos hpos
          exact ⟨j, by omega, h2, h3⟩)
      (by
        intro f
        have hCFf := hCF f
        rw [hDd, hcount]
        simp only [Nat.add_sub_cancel]
        have hset := countP_set output (csRank arr exp i) (some (arr.getD i 0)) none
          (fun o => match o with | some v => f v | none => false) (by omega)
        rw [hnone] at hset
        have hpnone : (fun o => match o with | some v => f v | none => false)
            (none : Option Int) = false := rfl
        have hpsome : (fun o => match o with | some v => f v | none => false)
            (some (arr.getD i 0)) = f (arr.getD i 0) := rfl
        rw [hpnone, hpsome, if_neg (by simp)] at hset
        have hstep : cntP arr (fun v => f v = true) (i + 1) =
            cntP arr (fun v => f v = true) i + (if f (arr.getD i 0) = true then 1 else 0) := by
          rw [cntP]
        by_cases hfv : f (arr.getD i 0) = true
        · rw [if_pos hfv] at hstep hset
          omega
        · rw [if_neg hfv] at hstep hset
          omega)
    refine ⟨outF, ?_, c1, c2, c3, c4⟩
    rw [csPlaceLoop]
    rw [dif_pos hd, dif_pos hc]
    exact hrun
  | case3 i count output hd hc =>
    intro hn hcl hol hA hB hD hCF
    simp only [Nat.succ_eq_add_one] at hA hB hD hCF
    have hi : i < arr.length := by omega
    have hDd : (radixDigit (arr.getD i 0) exp).toNat = dgN exp (arr.getD i 0) := rfl
    have hD10 : dgN exp (arr.getD i 0) < 10 := dgN_lt_ten _ _ (hnn i hi) hexp
    have hAD := hA (dgN exp (arr.getD i 0)) hD10
    have hsplit1 := cnt_le_split arr exp (dgN exp (arr.getD i 0)) (i + 1)
    have heqsucc := cntEq_succ_self arr exp i
    have hltstep : cntP arr (fun v => dgN exp v < dgN exp (arr.getD i 0)) (i + 1) =
        cntP arr (fun v => dgN exp v < dgN exp (arr.getD i 0)) i := by
      rw [cntP, if_neg (by omega)]
      omega
    exact absurd (by rw [hDd]; omega : 0 < count.getD (radixDigit (arr.getD i 0) exp).toNat 0) hc
  | case4 i count output hd =>
    intro hn hcl hol hA hB hD hCF
    have hi : i < arr.length := by omega
    exact absurd (radixDigit_nonneg _ _ (hnn i hi) hexp) hd

theorem cntP_true (arr : List Int) : ∀ n : Nat,
    cntP arr (fun v => (fun _ : Int => true) v = true) n = n := by
  intro n
  induction n with
  | zero => rw [cntP]
  | succ n ih =>
    rw [cntP, ih, if_pos rfl]

theorem getD_eq_default_of_le {α : Type} (l : List α) (n : Nat) (d : α)
    (h : l.length ≤ n) : l.getD n d = d := by
  rw [List.getD_eq_getElem?_getD, List.getElem?_eq_none h]
  rfl

theorem csCopyLoop_spec :
    ∀ (s : St) (output : List (Option Int)) (i : Nat),
    (∀ q, i ≤ q → q < s.arr.length → output.getD q none ≠ none) →
    ∃ s2, csCopyLoop s output i = some s2 ∧
      s2.arr.length = s.arr.length ∧
      (∀ q, q < i ∨ s.arr.length ≤ q → s2.arr.getD q 0 = s.arr.getD q 0) ∧
      (∀ q, i ≤ q → q < s.arr.length → some (s2.arr.getD q 0) = output.getD q none) := by
  intro s output i
  induction s, output, i using csCopyLoop.induct with
  | case1 s output i h v heq ih =>
    intro hall
    have harr : ((((s.addS 1).addW 1).setA i v).emitE { swapping := some [i] }).arr =
        s.arr.set i v := by
      simp
    obtain ⟨s2, hrun, r1, r2, r3⟩ := ih (by
      intro q hq1 hq2
      rw [harr, List.length_set] at hq2
      exact hall q (by omega) hq2)
    rw [harr] at r1 r2 r3
    rw [List.length_set] at r1
    refine ⟨s2, ?_, r1, ?_, ?_⟩
    · rw [csCopyLoop, dif_pos h, heq]
      exact hrun
    · intro q hq
      rw [r2 q (by
        rcases hq with hq | hq
        · exact Or.inl (by omega)
        · exact Or.inr (by rw [List.length_set]; omega))]
      rw [getD_set_ne _ _ _ _ _ (by omega)]
    · intro q hq1 hq2
      by_cases hqi : q = i
      · rw [hqi, r2 i (Or.inl (by omega)), getD_set_self _ _ _ _ (by omega), heq]
      · exact r3 q (by omega) (by rw [List.length_set]; omega)
  | case2 s output i h heq =>
    intro hall
    exact absurd heq (hall i (le_refl i) h)
  | case3 s output i h =>
    intro hall
    refine ⟨s, by rw [csCopyLoop, dif_neg h], rfl, fun q hq => rfl, ?_⟩
    intro q hq1 hq2
    omega

theorem countingSort_spec (s : St) (exp : Nat) (hexp : 0 < exp)
    (hnn : ∀ k, k < s.arr.length → 0 ≤ s.arr.getD k 0) :
    ∃ s1, countingSort s exp = some s1 ∧
      s1.arr.length = s.arr.length ∧
      (∀ f : Int → Bool, s1.arr.countP f = s.arr.countP f) ∧
      (∀ pos, pos < s.arr.length → ∃ j, j < s.arr.length ∧ csRank s.arr exp j = pos ∧
        s1.arr.getD pos 0 = s.arr.getD j 0) := by
  obtain ⟨cf, hcf, hcfl, hcfv⟩ := csCountLoop_spec s.arr exp hexp hnn 0
    (List.replicate 10 0) (Nat.zero_le _) (by simp)
  have hcfe : ∀ d : Nat, d < 10 →
      cf.getD d 0 = cntP s.arr (fun v => dgN exp v = d) s.arr.length := by
    intro d hd
    have := hcfv d hd
    rw [cntP] at this
    rw [getD_replicate_lt _ _ _ _ hd] at this
    omega
  obtain ⟨hpl, hpv⟩ := csPrefixLoop_spec s.arr exp cf 1 (le_refl 1) (by omega) hcfl
    (by
      intro d hd
      rw [show d = 0 by omega]
      rw [hcfe 0 (by omega)]
      have hsplit := cnt_le_split s.arr exp 0 s.arr.length
      have hzero := cnt_lt_zero s.arr exp s.arr.length
      omega)
    (fun d hd1 hd2 => hcfe d hd2)
  have hrepl : ∀ pos, (List.replicate s.arr.length (none : Option Int)).getD pos none =
      none := by
    intro pos
    by_cases hp : pos < s.arr.length
    · exact getD_replicate_lt _ _ _ _ hp
    · exact getD_eq_default_of_le _ _ _ (by simp; omega)
  obtain ⟨outF, hplace, ho1, ho2, ho3, ho4⟩ := csPlaceLoop_spec s.arr exp hexp hnn
    s.arr.length (csPrefixLoop cf 1) (List.replicate s.arr.length none)
    (le_refl _) hpl (by simp)
    (by
      intro d hd
      rw [hpv d hd])
    (fun j hj1 hj2 => absurd hj2 (by omega))
    (fun pos hpos => absurd (hrepl pos) hpos)
    (by
      intro f
      rw [countP_replicate_false _ _ _ rfl]
      omega)
  have hallsome : ∀ q, q < s.arr.length → outF.getD q none ≠ none := by
    have hcount := ho4 (fun _ => true)
    rw [cntP_true] at hcount
    have hlen2 : outF.countP
        (fun o => match o with | some v => true | none => false) = outF.length := by
      rw [hcount, ho1]
    have hall := (List.countP_eq_length).mp hlen2
    intro q hq
    have hmem : outF.getD q none ∈ outF := by
      have hql : q < outF.length := by omega
      rw [List.getD_eq_getElem?_getD, List.getElem?_eq_getElem hql]
      exact List.getElem_mem hql
    have := hall _ hmem
    intro hcon
    rw [hcon] at this
    exact absurd this (by simp)
  obtain ⟨s2, hcopy, hk1, hk2, hk3⟩ := csCopyLoop_spec s outF 0
    (fun q hq1 hq2 => hallsome q hq2)
  refine ⟨s2, ?_, hk1, ?_, ?_⟩
  · rw [countingSort, hcf]
    simp only [Option.pure_def, Option.bind_eq_bind, Option.some_bind]
    rw [hplace]
    simp only [Option.some_bind]
    exact hcopy
  · intro f
    have hstep1 : s2.arr.countP f = outF.countP
        (fun o => match o with | some v => f v | none => false) := by
      apply countP_pointwise 0 none
      · rw [hk1, ho1]
      · intro k hk
        rw [hk1] at hk
        rw [← hk3 k (Nat.zero_le _) hk]
    rw [hstep1, ho4 f, cntP_countP s.arr _ s.arr.length (le_refl _), List.take_length]
    apply List.countP_congr
    intro a ha
    cases hb : f a <;> simp [hb]
  · intro pos hpos
    obtain ⟨j, hj1, hj2⟩ := ho3 pos (hallsome pos hpos)
    refine ⟨j, hj1, hj2.symm, ?_⟩
    have hB := ho2 j hj1
    rw [← hj2] at hB
    have hcols := (hk3 pos (Nat.zero_le _) hpos).trans hB
    exact Option.some_injective _ hcols

/-- One stable pass refines sortedness from `key mod exp` to
`key mod (exp * 10)`, expressed through the placement rank. -/
theorem csRank_key_le (arr : List Int) (exp : Nat) (hexp : 0 < exp)
    (hnn : ∀ k, k < arr.length → 0 ≤ arr.getD k 0)
    (hsorted : ∀ a b, a ≤ b → b < arr.length →
      (arr.getD a 0).toNat % exp ≤ (arr.getD b 0).toNat % exp)
    (j1 j2 : Nat) (h1 : j1 < arr.length) (h2 : j2 < arr.length)
    (hr : csRank arr exp j1 < csRank arr exp j2) :
    (arr.getD j1 0).toNat % (exp * 10) ≤ (arr.getD j2 0).toNat % (exp * 10) := by
  have hd1 := dgN_of_nonneg (arr.getD j1 0) exp (hnn j1 h1) hexp
  have hd2 := dgN_of_nonneg (arr.getD j2 0) exp (hnn j2 h2) hexp
  have hm1 := @Nat.mod_mul exp 10 (arr.getD j1 0).toNat
  have hm2 := @Nat.mod_mul exp 10 (arr.getD j2 0).toNat
  have hlt1 : (arr.getD j1 0).toNat % exp < exp := Nat.mod_lt _ hexp
  have hlt2 : (arr.getD j2 0).toNat % exp < exp := Nat.mod_lt _ hexp
  rcases Nat.lt_trichotomy (dgN exp (arr.getD j1 0)) (dgN exp (arr.getD j2 0))
    with hx | hx | hx
  · have hb : dgN exp (arr.getD j1 0) + 1 ≤ dgN exp (arr.getD j2 0) := hx
    have hmul : exp * (dgN exp (arr.getD j1 0) + 1) ≤ exp * dgN exp (arr.getD j2 0) :=
      Nat.mul_le_mul_left exp hb
    rw [hd1] at hmul
    rw [hd2] at hmul
    have hsucc : exp * ((arr.getD j1 0).toNat / exp % 10 + 1) =
        exp * ((arr.getD j1 0).toNat / exp % 10) + exp := by ring
    omega
  · by_cases hj : j1 ≤ j2
    · have hkey := hsorted j1 j2 hj h2
      have hcong : (arr.getD j1 0).toNat / exp % 10 = (arr.getD j2 0).toNat / exp % 10 := by
        rw [← hd1, ← hd2]
        exact hx
      have hcong2 : exp * ((arr.getD j1 0).toNat / exp % 10) =
          exp * ((arr.getD j2 0).toNat / exp % 10) := by
        rw [hcong]
      omega
    · exact absurd (csRank_lt_of_dg_eq arr exp j2 j1 hx.symm (by omega)) (by omega)
  · exact absurd (csRank_lt_of_dg_lt arr exp j2 j1 h2 hx) (by omega)

theorem radixGetMaxLoop_spec (arr : List Int) :
    ∀ mx i, mx ≤ radixGetMaxLoop arr mx i ∧
      ∀ j, i ≤ j → j < arr.length → arr.getD j 0 ≤ radixGetMaxLoop arr mx i := by
  intro mx i
  induction mx, i using radixGetMaxLoop.induct arr with
  | case1 mx i h ih =>
    rw [radixGetMaxLoop, dif_pos h]
    obtain ⟨ih1, ih2⟩ := ih
    simp only [dite_eq_ite] at ih1 ih2
    constructor
    · by_cases hx : arr.getD i 0 > mx
      · rw [if_pos hx] at ih1 ⊢
        omega
      · rw [if_neg hx] at ih1 ⊢
        exact ih1
    · intro j hj1 hj2
      by_cases hji : j = i
      · rw [hji]
        by_cases hx : arr.getD i 0 > mx
        · rw [if_pos hx] at ih1 ⊢
          exact ih1
        · rw [if_neg hx] at ih1 ⊢
          omega
      · by_cases hx : arr.getD i 0 > mx
        · rw [if_pos hx] at ih2 ⊢
          exact ih2 j (by omega) hj2
        · rw [if_neg hx] at ih2 ⊢
          exact ih2 j (by omega) hj2
  | case2 mx i h =>
    rw [radixGetMaxLoop, dif_neg h]
    exact ⟨le_refl mx, fun j hj1 hj2 => absurd hj2 (by omega)⟩

theorem radixGetMax_ge (arr : List Int) :
    ∀ k, k < arr.length → arr.getD k 0 ≤ radixGetMax arr := by
  intro k hk
  rw [radixGetMax]
  obtain ⟨h1, h2⟩ := radixGetMaxLoop_spec arr (arr.getD 0 0) 1
  by_cases hk0 : k = 0
  · rw [hk0]
    exact h1
  · exact h2 k (by omega) hk

theorem radixLoop_spec :
    ∀ (s : St) (mx : Int) (exp : Nat), 0 < exp →
    (∀ k, k < s.arr.length → 0 ≤ s.arr.getD k 0) →
    (∀ k, k < s.arr.length → s.arr.getD k 0 ≤ mx) →
    (∀ a b, a ≤ b → b < s.arr.length →
      (s.arr.getD a 0).toNat % exp ≤ (s.arr.getD b 0).toNat % exp) →
    ∃ s1, radixLoop s mx exp = some s1 ∧ s1.arr.length = s.arr.length ∧
      s1.arr.Perm s.arr ∧ s1.arr.Sorted (· ≤ ·) := by
  intro s mx exp
  induction s, mx, exp using radixLoop.induct with
  | case1 s mx exp h s1 heq ih =>
    intro hexp hnn hmax hsorted
    obtain ⟨s1x, hrun, hlen, hcnt, hchar⟩ := countingSort_spec s exp hexp hnn
    rw [hrun] at heq
    have hs1 : s1 = s1x := (Option.some_injective _ heq.symm)
    subst hs1
    have hperm : s1.arr.Perm s.arr := by
      refine List.perm_iff_count.mpr (fun a => ?_)
      show s1.arr.countP (· == a) = s.arr.countP (· == a)
      exact hcnt (· == a)
    have hnn1 : ∀ k, k < s1.arr.length → 0 ≤ s1.arr.getD k 0 := by
      intro k hk
      rw [hlen] at hk
      obtain ⟨j, hj1, hj2, hj3⟩ := hchar k hk
      rw [hj3]
      exact hnn j hj1
    have hmax1 : ∀ k, k < s1.arr.length → s1.arr.getD k 0 ≤ mx := by
      intro k hk
      rw [hlen] at hk
      obtain ⟨j, hj1, hj2, hj3⟩ := hchar k hk
      rw [hj3]
      exact hmax j hj1
    have hsorted1 : ∀ a b, a ≤ b → b < s1.arr.length →
        (s1.arr.getD a 0).toNat % (exp * 10) ≤ (s1.arr.getD b 0).toNat % (exp * 10) := by
      intro a b hab hb
      rw [hlen] at hb
      by_cases habe : a = b
      · rw [habe]
      · obtain ⟨j1, hj11, hj12, hj13⟩ := hchar a (by omega)
        obtain ⟨j2, hj21, hj22, hj23⟩ := hchar b hb
        rw [hj13, hj23]
        exact csRank_key_le s.arr exp hexp hnn hsorted j1 j2 hj11 hj21
          (by rw [hj12, hj22]; omega)
    obtain ⟨sF, hF1, hF2, hF3, hF4⟩ := ih (by omega) hnn1 hmax1 hsorted1
    refine ⟨sF, ?_, by rw [hF2, hlen], hF3.trans hperm, hF4⟩
    rw [radixLoop, dif_pos h, hrun]
    exact hF1
  | case2 s mx exp h heq =>
    intro hexp hnn hmax hsorted
    obtain ⟨s1x, hrun, hlen, hcnt, hchar⟩ := countingSort_spec s exp hexp hnn
    rw [hrun] at heq
    exact absurd heq (by simp)
  | case3 s mx exp h =>
    intro hexp hnn hmax hsorted
    have hmxe : mx < (exp : Int) := by
      by_contra hge
      apply h
      have hmx0 : 0 ≤ mx := by omega
      rw [Int.fdiv_eq_ediv _ (by positivity)]
      have h1 : (exp : Int) ≤ mx := by omega
      have h2 : (1 : Int) ≤ mx / exp := by
        rw [Int.le_ediv_iff_mul_le (by positivity)]
        omega
      omega
    refine ⟨s, by rw [radixLoop, dif_neg h], rfl, List.Perm.refl _, ?_⟩
    apply sorted_of_adjSorted
    intro t ht
    have hnn1 := hnn t (by omega)
    have hnn2 := hnn (t + 1) ht
    have hm1 := hmax t (by omega)
    have hm2 := hmax (t + 1) ht
    have hkey := hsorted t (t + 1) (by omega) ht
    rw [Nat.mod_eq_of_lt (by omega), Nat.mod_eq_of_lt (by omega)] at hkey
    omega

/-- Radix sort (radixSortFunc) on an all-nonnegative working array
terminates with a sorted permutation of the input. -/
theorem radixSortFunc_sorts (s : St)
    (hnn : ∀ k, k < s.arr.length → 0 ≤ s.arr.getD k 0) :
    ∃ s1, radixSortFunc s = some s1 ∧ s1.arr.Perm s.arr ∧
      s1.arr.Sorted (· ≤ ·) := by
  obtain ⟨s1, h1, h2, h3, h4⟩ := radixLoop_spec s (radixGetMax s.arr) 1 (by omega)
    hnn (radixGetMax_ge s.arr)
    (by
      intro a b hab hb
      simp [Nat.mod_one])
  exact ⟨s1, by rw [radixSortFunc]; exact h1, h3, h4⟩

/-! ### Bucket sort correctness -/

theorem bucketInsShift_spec (b : List Int) (current : Int) (k : Int) :
    -1 ≤ k → k + 1 < (b.length : Int) →
    -1 ≤ (bucketInsShift b current k).2 ∧ (bucketInsShift b current k).2 ≤ k ∧
    (bucketInsShift b current k).1.length = b.length ∧
    (∀ q : Nat, ((q : Int) < (bucketInsShift b current k).2 + 2 ∨ (q : Int) > k + 1) →
      (bucketInsShift b current k).1.getD q 0 = b.getD q 0) ∧
    (∀ q : Nat, (bucketInsShift b current k).2 + 2 ≤ (q : Int) → (q : Int) ≤ k + 1 →
      (bucketInsShift b current k).1.getD q 0 = b.getD (q - 1) 0) ∧
    ((bucketInsShift b current k).2 < 0 ∨
      b.getD ((bucketInsShift b current k).2).toNat 0 ≤ current) ∧
    (∀ q : Nat, (bucketInsShift b current k).2 + 1 ≤ (q : Int) → (q : Int) ≤ k →
      b.getD q 0 > current) := by
  induction b, current, k using bucketInsShift.induct with
  | case1 b current k h ih =>
    intro hk1 hk2
    obtain ⟨hk0, hgt⟩ := h
    rw [bucketInsShift, dif_pos ⟨hk0, hgt⟩]
    obtain ⟨ih1, ih2, ih3, ih4, ih5, ih6, ih7⟩ := ih (by omega) (by simp; omega)
    have hlen : (b.set (k.toNat + 1) (b.getD k.toNat 0)).length = b.length := by simp
    refine ⟨by omega, by omega, by rw [ih3, hlen], ?_, ?_, ?_, ?_⟩
    · intro q hq
      rcases hq with hq | hq
      · rw [ih4 q (Or.inl hq), getD_set_ne _ _ _ _ _ (by omega)]
      · rw [ih4 q (Or.inr (by omega)), getD_set_ne _ _ _ _ _ (by omega)]
    · intro q hq1 hq2
      by_cases hqk : (q : Int) = k + 1
      · have hqn : q = k.toNat + 1 := by omega
        rw [ih4 q (Or.inr (by omega)), hqn, getD_set_self _ _ _ _ (by omega)]
        simp
      · rw [ih5 q hq1 (by omega), getD_set_ne _ _ _ _ _ (by omega)]
    · rcases ih6 with h6 | h6
      · exact Or.inl h6
      · right
        rw [getD_set_ne _ _ _ _ _ (by omega)] at h6
        exact h6
    · intro q hq1 hq2
      by_cases hqk : (q : Int) = k
      · have hqn : q = k.toNat := by omega
        rw [hqn]
        exact hgt
      · have := ih7 q hq1 (by omega)
        rw [getD_set_ne _ _ _ _ _ (by omega)] at this
        exact this
  | case2 b current k h =>
    intro hk1 hk2
    rw [bucketInsShift, dif_neg h]
    refine ⟨hk1, le_refl _, rfl, fun q hq => rfl, ?_, ?_, ?_⟩
    · intro q hq1 hq2
      omega
    · by_cases hk0 : k < 0
      · exact Or.inl hk0
      · right
        show b.getD k.toNat 0 ≤ current
        by_contra hc
        exact h ⟨by omega, by omega⟩
    · intro q hq1 hq2
      omega

theorem bucketInsLoop_sorted : ∀ (b : List Int) (j : Nat),
    (∀ a c, a < c → c < j → b.getD a 0 ≤ b.getD c 0) →
    adjSorted (bucketInsLoop b j) ∧ (bucketInsLoop b j).Perm b := by
  intro b j
  induction b, j using bucketInsLoop.induct with
  | case1 b j h ih =>
    intro hinv
    have hq := bucketInsShift_spec b (b.getD j 0) ((j : Int) - 1) (by omega) (by omega)
    obtain ⟨hr1, hr2, hr3, hr4, hr5, hr6, hr7⟩ := hq
    rw [bucketInsLoop, dif_pos h]
    have hle : ∀ a c : Nat, a ≤ c → c < j → b.getD a 0 ≤ b.getD c 0 := by
      intro a c hac hci
      rcases Nat.eq_or_lt_of_le hac with he | hl
      · rw [he]
      · exact hinv a c hl hci
    set q := bucketInsShift b (b.getD j 0) ((j : Int) - 1) with hqdef
    set M := (q.2 + 1).toNat with hMdef
    have hMi : (M : Int) = q.2 + 1 := by omega
    have hMle : M ≤ j := by omega
    have hvm : (q.1.set M (b.getD j 0)).getD M 0 = b.getD j 0 :=
      getD_set_self _ _ _ _ (by omega)
    have hvlt : ∀ k, k < M → (q.1.set M (b.getD j 0)).getD k 0 = b.getD k 0 := by
      intro k hk
      rw [getD_set_ne _ _ _ _ _ (by omega)]
      exact hr4 k (Or.inl (by omega))
    have hvmid : ∀ k, M < k → k ≤ j →
        (q.1.set M (b.getD j 0)).getD k 0 = b.getD (k - 1) 0 := by
      intro k hk1 hk2
      rw [getD_set_ne _ _ _ _ _ (by omega)]
      exact hr5 k (by omega) (by omega)
    have hvhi : ∀ k, j < k → (q.1.set M (b.getD j 0)).getD k 0 = b.getD k 0 := by
      intro k hk
      rw [getD_set_ne _ _ _ _ _ (by omega)]
      exact hr4 k (Or.inr (by omega))
    have hstop : 1 ≤ M → b.getD (M - 1) 0 ≤ b.getD j 0 := by
      intro hM1
      rcases hr6 with h6 | h6
      · omega
      · have he : q.2.toNat = M - 1 := by omega
        rw [he] at h6
        exact h6
    have hent : ∀ k : Nat, M ≤ k → k < j → b.getD k 0 > b.getD j 0 := by
      intro k hk1 hk2
      exact hr7 k (by omega) (by omega)
    have hinv2 : ∀ a c, a < c → c < j + 1 →
        (q.1.set M (b.getD j 0)).getD a 0 ≤ (q.1.set M (b.getD j 0)).getD c 0 := by
      intro a c hac hcj
      rcases Nat.lt_trichotomy c M with hcM | hcM | hcM
      · rw [hvlt a (by omega), hvlt c hcM]
        exact hinv a c hac (by omega)
      · rw [hcM, hvm, hvlt a (by omega)]
        have h1M : 1 ≤ M := by omega
        exact le_trans (hle a (M - 1) (by omega) (by omega)) (hstop h1M)
      · rw [hvmid c hcM (by omega)]
        rcases Nat.lt_trichotomy a M with haM | haM | haM
        · rw [hvlt a haM]
          exact hle a (c - 1) (by omega) (by omega)
        · rw [haM, hvm]
          exact le_of_lt (hent (c - 1) (by omega) (by omega))
        · rw [hvmid a haM (by omega)]
          exact hle (a - 1) (c - 1) (by omega) (by omega)
    obtain ⟨hA, hP⟩ := ih hinv2
    have hperm : (q.1.set M (b.getD j 0)).Perm b := by
      apply perm_of_insert_shift (j - M) b _ M j rfl hMle h (by simp [hr3])
      · exact fun k hk => hvlt k hk
      · exact hvm
      · exact fun k hk1 hk2 => hvmid k hk1 hk2
      · exact fun k hk1 hk2 => hvhi k hk1
    exact ⟨hA, hP.trans hperm⟩
  | case2 b j h =>
    intro hinv
    rw [bucketInsLoop, dif_neg h]
    refine ⟨?_, List.Perm.refl _⟩
    intro t ht
    exact hinv t (t + 1) (by omega) (by omega)

theorem foldl_max_ge_init : ∀ (l : List Int) (a : Int), a ≤ l.foldl max a := by
  intro l
  induction l with
  | nil => intro a; exact le_refl a
  | cons x t ih =>
    intro a
    exact le_trans (le_max_left a x) (ih (max a x))

theorem foldl_max_ge_mem : ∀ (l : List Int) (a x : Int), x ∈ l → x ≤ l.foldl max a := by
  intro l
  induction l with
  | nil =>
    intro a x hx
    exact absurd hx (List.not_mem_nil x)
  | cons y t ih =>
    intro a x hx
    rcases List.mem_cons.mp hx with hx | hx
    · rw [hx]
      exact le_trans (le_max_right a y) (foldl_max_ge_init t (max a y))
    · exact ih (max a y) x hx

theorem getD_mem {α : Type} (l : List α) (q : Nat) (d : α) (h : q < l.length) :
    l.getD q d ∈ l := by
  rw [List.getD_eq_getElem?_getD, List.getElem?_eq_getElem h]
  exact List.getElem_mem h

theorem bucketListMax_ge (l : List Int) :
    ∀ k, k < l.length → l.getD k 0 ≤ bucketListMax l := by
  intro k hk
  rw [bucketListMax]
  exact foldl_max_ge_mem l (l.getD 0 0) (l.getD k 0) (getD_mem l k 0 hk)

theorem bucketIndexOf_some (v mx : Int) (bc : Nat) (hv : 0 ≤ v) (hvm : v ≤ mx)
    (hbc : 0 < bc) :
    bucketIndexOf v mx bc = some ((v * bc / (mx + 1)).toNat) ∧
      (v * bc / (mx + 1)).toNat < bc := by
  have hmx1 : (0 : Int) < mx + 1 := by omega
  have hfd : (v * bc).fdiv (mx + 1) = v * bc / (mx + 1) :=
    Int.fdiv_eq_ediv _ (by omega)
  have hnn : 0 ≤ v * bc / (mx + 1) :=
    Int.ediv_nonneg (by positivity) (by omega)
  have hlt : v * bc / (mx + 1) < bc := by
    rw [Int.ediv_lt_iff_lt_mul hmx1, mul_comm ((bc : Int)) (mx + 1)]
    apply mul_lt_mul_of_pos_right (by omega)
    exact_mod_cast hbc
  rw [bucketIndexOf, if_neg (by omega), dif_pos (by rw [hfd]; exact ⟨hnn, hlt⟩)]
  rw [hfd]
  exact ⟨rfl, by omega⟩

theorem bucketIndexOf_mono (v1 v2 mx : Int) (bc : Nat) (hv1 : 0 ≤ v1) (hv2 : 0 ≤ v2)
    (hm1 : v1 ≤ mx) (hm2 : v2 ≤ mx) (hbc : 0 < bc) (hle : v1 ≤ v2) :
    (v1 * bc / (mx + 1)).toNat ≤ (v2 * bc / (mx + 1)).toNat := by
  have hdiv : v1 * bc / (mx + 1) ≤ v2 * bc / (mx + 1) := by
    apply Int.ediv_le_ediv (by omega)
    apply mul_le_mul_of_nonneg_right hle
    positivity
  have hnn : 0 ≤ v1 * bc / (mx + 1) :=
    Int.ediv_nonneg (by positivity) (by omega)
  omega

theorem join_set_append : ∀ (l : List (List Int)) (bi : Nat) (v : Int), bi < l.length →
    (l.set bi (l.getD bi [] ++ [v])).join.Perm (l.join ++ [v]) := by
  intro l
  induction l with
  | nil =>
    intro bi v hbi
    simp at hbi
  | cons b t ih =>
    intro bi v hbi
    match bi with
    | 0 =>
      simp only [List.set_cons_zero, List.getD_cons_zero, List.join_cons]
      rw [List.append_assoc, List.append_assoc]
      exact (List.Perm.append_left b (List.perm_append_comm))
    | bi + 1 =>
      simp only [List.set_cons_succ, List.getD_cons_succ, List.join_cons]
      rw [List.append_assoc]
      exact List.Perm.append_left b (ih bi v (by simpa using hbi))

theorem bucketDistribute_spec :
    ∀ (s : St) (mx : Int) (bc i : Nat) (buckets : List (List Int)),
    0 < bc → buckets.length = bc →
    (∀ k, k < s.arr.length → 0 ≤ s.arr.getD k 0 ∧ s.arr.getD k 0 ≤ mx) →
    ∃ s1 buckets1, bucketDistribute s mx bc i buckets = some (s1, buckets1) ∧
      s1.arr = s.arr ∧
      buckets1.length = bc ∧
      buckets1.join.Perm (buckets.join ++ s.arr.drop i) ∧
      (∀ bi v, v ∈ buckets1.getD bi [] →
        v ∈ buckets.getD bi [] ∨
          (0 ≤ v ∧ v ≤ mx ∧ bi = ((v * bc / (mx + 1)).toNat))) := by
  intro s mx bc i buckets
  induction s, mx, bc, i, buckets using bucketDistribute.induct with
  | case1 s mx bc i buckets h bi heq ih =>
    intro hbc hblen hvals
    obtain ⟨hv0, hvm⟩ := hvals i h
    obtain ⟨hsome, hbilt⟩ := bucketIndexOf_some (s.arr.getD i 0) mx bc hv0 hvm hbc
    have hgA : s.getA i = s.arr.getD i 0 := rfl
    rw [hgA] at heq
    have hbieq : bi = ((s.arr.getD i 0 * bc / (mx + 1)).toNat) := by
      rw [heq] at hsome
      exact Option.some_injective _ hsome
    have hbil : bi < buckets.length := by omega
    obtain ⟨s1, buckets1, hrun, e1, e2, e3, e4⟩ := ih hbc (by rw [List.length_set, hblen])
      (by
        intro k hk
        simp only [St.arr_addS] at hk ⊢
        exact hvals k hk)
    simp only [St.arr_addS] at e1
    refine ⟨s1, buckets1, ?_, e1, e2, ?_, ?_⟩
    · rw [bucketDistribute, dif_pos h, hgA, heq]
      exact hrun
    · refine e3.trans ?_
      have hdrop : s.arr.drop i = s.arr.getD i 0 :: s.arr.drop (i + 1) :=
        drop_eq_getD_cons s.arr i h
      rw [hgA, hdrop]
      have hjs := join_set_append buckets bi (s.arr.getD i 0) hbil
      refine (hjs.append_right (s.arr.drop (i + 1))).trans ?_
      rw [List.append_assoc]
      apply List.Perm.append_left
      exact List.Perm.refl _
    · intro bj v hv
      rcases e4 bj v hv with hv2 | hv2
      · by_cases hbj : bj = bi
        · rw [hbj, hgA, getD_set_self _ _ _ _ hbil] at hv2
          rcases List.mem_append.mp hv2 with hv3 | hv3
          · exact Or.inl (by rw [hbj]; exact hv3)
          · right
            have hveq : v = s.arr.getD i 0 := by simpa using hv3
            rw [hveq, hbj]
            exact ⟨hv0, hvm, hbieq⟩
        · rw [getD_set_ne _ _ _ _ _ (fun he => hbj he.symm)] at hv2
          exact Or.inl hv2
      · exact Or.inr hv2
  | case2 s mx bc i buckets h heq =>
    intro hbc hblen hvals
    obtain ⟨hv0, hvm⟩ := hvals i h
    obtain ⟨hsome, hbilt⟩ := bucketIndexOf_some (s.arr.getD i 0) mx bc hv0 hvm hbc
    have hgA : s.getA i = s.arr.getD i 0 := rfl
    rw [hgA] at heq
    rw [heq] at hsome
    exact absurd hsome (by simp)
  | case3 s mx bc i buckets h =>
    intro hbc hblen hvals
    refine ⟨s, buckets, ?_, rfl, hblen, ?_, fun bi v hv => Or.inl hv⟩
    · rw [bucketDistribute, dif_neg h]
    · rw [List.drop_eq_nil_of_le (by omega)]
      simp

theorem bucketWriteBack_spec : ∀ (b : List Int) (s : St) (index : Nat),
    index + b.length ≤ s.arr.length →
    (bucketWriteBack s b index).2 = index + b.length ∧
    (bucketWriteBack s b index).1.arr.length = s.arr.length ∧
    (∀ q, q < index ∨ index + b.length ≤ q →
      (bucketWriteBack s b index).1.arr.getD q 0 = s.arr.getD q 0) ∧
    (∀ t, t < b.length →
      (bucketWriteBack s b index).1.arr.getD (index + t) 0 = b.getD t 0) := by
  intro b
  induction b with
  | nil =>
    intro s index hroom
    rw [bucketWriteBack]
    refine ⟨by simp, rfl, fun q hq => rfl, fun t ht => ?_⟩
    simp at ht
  | cons v rest ih =>
    intro s index hroom
    rw [bucketWriteBack]
    simp only [List.length_cons] at hroom
    have harr : (((s.setA index v).addW 1).emitE { swapping := some [index] }).arr =
        s.arr.set index v := by
      simp
    obtain ⟨r1, r2, r3, r4⟩ := ih (((s.setA index v).addW 1).emitE
      { swapping := some [index] }) (index + 1)
      (by rw [harr, List.length_set]; omega)
    rw [harr] at r2 r3
    rw [List.length_set] at r2
    refine ⟨by rw [r1]; simp only [List.length_cons]; omega,
      by rw [r2], ?_, ?_⟩
    · intro q hq
      simp only [List.length_cons] at hq
      rw [r3 q (by omega), getD_set_ne _ _ _ _ _ (by omega)]
    · intro t ht
      simp only [List.length_cons] at ht
      match t with
      | 0 =>
        simp only [Nat.add_zero, List.getD_cons_zero]
        rw [r3 index (Or.inl (by omega)), getD_set_self _ _ _ _ (by omega)]
      | t + 1 =>
        rw [List.getD_cons_succ, show index + (t + 1) = index + 1 + t by omega]
        exact r4 t (by omega)

theorem bucketGatherLoop_spec : ∀ (buckets : List (List Int)) (s : St) (index : Nat),
    index + buckets.join.length ≤ s.arr.length →
    (bucketGatherLoop s buckets index).arr.length = s.arr.length ∧
    (∀ q, q < index ∨ index + buckets.join.length ≤ q →
      (bucketGatherLoop s buckets index).arr.getD q 0 = s.arr.getD q 0) ∧
    (∀ t, t < buckets.join.length →
      (bucketGatherLoop s buckets index).arr.getD (index + t) 0 =
        buckets.join.getD t 0) := by
  intro buckets
  induction buckets with
  | nil =>
    intro s index hroom
    rw [bucketGatherLoop]
    refine ⟨rfl, fun q hq => rfl, fun t ht => ?_⟩
    simp at ht
  | cons b rest ih =>
    intro s index hroom
    have hjc : (b :: rest).join = b ++ rest.join := rfl
    rw [hjc, List.length_append] at hroom
    obtain ⟨w1, w2, w3, w4⟩ := bucketWriteBack_spec b s index (by omega)
    rw [bucketGatherLoop, w1]
    obtain ⟨g1, g2, g3⟩ := ih (bucketWriteBack s b index).1 (index + b.length)
      (by rw [w2]; omega)
    rw [w2] at g1
    refine ⟨g1, ?_, ?_⟩
    · intro q hq
      rw [hjc, List.length_append] at hq
      rw [g2 q (by omega), w3 q (by omega)]
    · intro t ht
      rw [hjc, List.length_append] at ht
      rw [hjc]
      by_cases htb : t < b.length
      · rw [g2 (index + t) (by omega), w4 t htb, getD_append_lt _ _ _ _ htb]
      · have hg := g3 (t - b.length) (by omega)
        rw [show index + t = index + b.length + (t - b.length) by omega, hg,
          show t = b.length + (t - b.length) by omega, getD_append_right]
        congr 1
        omega

theorem mem_join_index : ∀ (bs : List (List Int)) (w : Int), w ∈ bs.join →
    ∃ j, j < bs.length ∧ w ∈ bs.getD j [] := by
  intro bs
  induction bs with
  | nil =>
    intro w hw
    simp at hw
  | cons b t ih =>
    intro w hw
    have hjc : (b :: t).join = b ++ t.join := rfl
    rw [hjc] at hw
    rcases List.mem_append.mp hw with hw | hw
    · exact ⟨0, by simp, by simpa using hw⟩
    · obtain ⟨j, hj1, hj2⟩ := ih w hw
      exact ⟨j + 1, by simp; omega, by simpa using hj2⟩

theorem joinSorted : ∀ (bs : List (List Int)),
    (∀ bi, (bs.getD bi []).Sorted (· ≤ ·)) →
    (∀ bi bj v w, bi < bj → v ∈ bs.getD bi [] → w ∈ bs.getD bj [] → v ≤ w) →
    bs.join.Sorted (· ≤ ·) := by
  intro bs
  induction bs with
  | nil =>
    intro hsort hcross
    simp
  | cons b t ih =>
    intro hsort hcross
    have hjc : (b :: t).join = b ++ t.join := rfl
    rw [hjc]
    rw [show (List.Sorted (· ≤ ·) (b ++ t.join)) = List.Pairwise (· ≤ ·) (b ++ t.join) from rfl,
      List.pairwise_append]
    refine ⟨by simpa using hsort 0, ?_, ?_⟩
    · apply ih
      · intro bi
        simpa using hsort (bi + 1)
      · intro bi bj v w hij hv hw
        exact hcross (bi + 1) (bj + 1) v w (by omega) (by simpa using hv)
          (by simpa using hw)
    · intro v hv w hw
      obtain ⟨j, hj1, hj2⟩ := mem_join_index t w hw
      exact hcross 0 (j + 1) v w (by omega) (by simpa using hv) (by simpa using hj2)

theorem map_insLoop_join_perm : ∀ (bs : List (List Int)),
    (bs.map (fun b => bucketInsLoop b 1)).join.Perm bs.join := by
  intro bs
  induction bs with
  | nil => simp
  | cons b t ih =>
    have hjc1 : ((b :: t).map (fun b2 => bucketInsLoop b2 1)).join =
        bucketInsLoop b 1 ++ (t.map (fun b2 => bucketInsLoop b2 1)).join := rfl
    have hjc2 : (b :: t).join = b ++ t.join := rfl
    rw [hjc1, hjc2]
    exact List.Perm.append
      ((bucketInsLoop_sorted b 1 (fun a c hac hc1 => by omega)).2) ih

theorem getD_map_insLoop (l : List (List Int)) (bi : Nat) :
    (l.map (fun b => bucketInsLoop b 1)).getD bi [] = bucketInsLoop (l.getD bi []) 1 := by
  by_cases hbi : bi < l.length
  · rw [List.getD_eq_getElem?_getD, List.getElem?_map, List.getElem?_eq_getElem hbi]
    rw [List.getD_eq_getElem?_getD, List.getElem?_eq_getElem hbi]
    rfl
  · rw [getD_eq_default_of_le _ _ _ (by simp; omega),
      getD_eq_default_of_le _ _ _ (by omega)]
    rw [bucketInsLoop, dif_neg (by simp)]

theorem getD_replicate_nil (bc bi : Nat) :
    (List.replicate bc ([] : List Int)).getD bi [] = [] := by
  by_cases hbi : bi < bc
  · exact getD_replicate_lt _ _ _ _ hbi
  · exact getD_eq_default_of_le _ _ _ (by simp; omega)

theorem join_replicate_nil : ∀ (bc : Nat), (List.replicate bc ([] : List Int)).join = [] := by
  intro bc
  induction bc with
  | zero => rfl
  | succ bc ih =>
    rw [List.replicate_succ]
    have hjc : (([] : List Int) :: List.replicate bc []).join =
        [] ++ (List.replicate bc ([] : List Int)).join := rfl
    rw [hjc, ih]
    rfl

theorem bucketSortFunc_sorts (s : St)
    (hnn : ∀ k, k < s.arr.length → 0 ≤ s.arr.getD k 0) :
    ∃ s1, bucketSortFunc s = some s1 ∧ s1.arr.Perm s.arr ∧
      s1.arr.Sorted (· ≤ ·) := by
  by_cases hn : s.arr.length ≤ 0
  · refine ⟨s, by rw [bucketSortFunc, if_pos hn], List.Perm.refl _, ?_⟩
    have hempty : s.arr = [] := List.length_eq_zero.mp (by omega)
    rw [hempty]
    exact List.sorted_nil
  · set mx := if bucketListMax s.arr = 0 then 1 else bucketListMax s.arr with hmxdef
    set bc := Nat.sqrt s.arr.length with hbcdef
    have hbc : 0 < bc := Nat.sqrt_pos.mpr (by omega)
    have hvals : ∀ k, k < s.arr.length →
        0 ≤ s.arr.getD k 0 ∧ s.arr.getD k 0 ≤ mx := by
      intro k hk
      refine ⟨hnn k hk, ?_⟩
      have hmax := bucketListMax_ge s.arr k hk
      rw [hmxdef]
      by_cases h0 : bucketListMax s.arr = 0
      · rw [if_pos h0]
        rw [h0] at hmax
        omega
      · rw [if_neg h0]
        exact hmax
    obtain ⟨s1, buckets1, hrun, e1, e2, e3, e4⟩ :=
      bucketDistribute_spec s mx bc 0 (List.replicate bc []) hbc (by simp) hvals
    have hb1perm : buckets1.join.Perm s.arr := by
      refine e3.trans ?_
      rw [join_replicate_nil, List.drop_zero, List.nil_append]
    have hmperm : (buckets1.map (fun b => bucketInsLoop b 1)).join.Perm buckets1.join :=
      map_insLoop_join_perm buckets1
    have hjlen : (buckets1.map (fun b => bucketInsLoop b 1)).join.length =
        s.arr.length := by
      rw [hmperm.length_eq, hb1perm.length_eq]
    obtain ⟨g1, g2, g3⟩ := bucketGatherLoop_spec
      (buckets1.map (fun b => bucketInsLoop b 1)) s1 0 (by rw [hjlen, e1]; omega)
    have harrG : (bucketGatherLoop s1 (buckets1.map (fun b => bucketInsLoop b 1)) 0).arr =
        (buckets1.map (fun b => bucketInsLoop b 1)).join := by
      apply eq_of_getD_eq
      · rw [g1, e1, hjlen]
      · intro k hk
        rw [g1, e1, ← hjlen] at hk
        have := g3 k hk
        rw [Nat.zero_add] at this
        exact this
    refine ⟨bucketGatherLoop s1 (buckets1.map (fun b => bucketInsLoop b 1)) 0, ?_, ?_, ?_⟩
    · rw [bucketSortFunc, if_neg hn, ← hmxdef, ← hbcdef, hrun]
    · rw [harrG]
      exact hmperm.trans hb1perm
    · rw [harrG]
      apply joinSorted
      · intro bi
        rw [getD_map_insLoop]
        exact sorted_of_adjSorted _
          (bucketInsLoop_sorted (buckets1.getD bi []) 1 (fun a c hac hc1 => by omega)).1
      · intro bi bj v w hij hv hw
        rw [getD_map_insLoop] at hv hw
        have hvmem : v ∈ buckets1.getD bi [] :=
          ((bucketInsLoop_sorted (buckets1.getD bi []) 1
            (fun a c hac hc1 => by omega)).2.mem_iff).mp hv
        have hwmem : w ∈ buckets1.getD bj [] :=
          ((bucketInsLoop_sorted (buckets1.getD bj []) 1
            (fun a c hac hc1 => by omega)).2.mem_iff).mp hw
        rcases e4 bi v hvmem with hv2 | hv2
        · rw [getD_replicate_nil] at hv2
          exact absurd hv2 (List.not_mem_nil v)
        · rcases e4 bj w hwmem with hw2 | hw2
          · rw [getD_replicate_nil] at hw2
            exact absurd hw2 (List.not_mem_nil w)
          · obtain ⟨hv0, hvm, hveq⟩ := hv2
            obtain ⟨hw0, hwm, hweq⟩ := hw2
            by_contra hc
            push_neg at hc
            have hmono := bucketIndexOf_mono w v mx bc hw0 hv0 hwm hvm hbc
              (le_of_lt hc)
            omega

/-- C1 (counterexample to the claim as stated): radix sort on the input
[-1, -2] terminates (getMax is -1, so the digit-loop guard
`Math.floor(-1 / 1) > 0` is false and zero counting passes run) but
returns the array unchanged and unsorted: negative inputs are not sorted
by radixSortFunc. -/
theorem radixSort_negative_input_unsorted :
    ∃ s1, radixSortFunc { arr := [-1, -2], stats := {}, trace := [] } = some s1 ∧
      ¬ s1.arr.Sorted (· ≤ ·) := by
  refine ⟨{ arr := [-1, -2], stats := {}, trace := [] }, ?_, ?_⟩
  · rw [radixSortFunc]
    show radixLoop { arr := [-1, -2], stats := {}, trace := [] }
      (radixGetMax ([-1, -2] : List Int)) 1 = _
    have h1 : radixGetMax ([-1, -2] : List Int) = -1 := by
      rw [radixGetMax, radixGetMaxLoop, dif_pos (by decide), radixGetMaxLoop,
        dif_neg (by decide)]
      decide
    rw [h1, radixLoop, dif_neg (by decide)]
  · intro hs
    have h2 := adjSorted_of_sorted _ hs 0 (by decide)
    exact absurd h2 (by decide)

/-- C1 (amended): bubble, selection, insertion, quick, merge and heap sort
leave the working array a sorted-ascending permutation of the input on
every input; bogo sort does so on every input on which its unbounded
shuffle loop terminates; radix sort and bucket sort do so on every input
all of whose values are nonnegative (and terminate normally on such
inputs).  On inputs with negative values radix sort can terminate
unsorted, so the unrestricted claim is false. -/
theorem builtinVariants_sort_correct :
    (∀ s : St, (bubbleSortFunc s).arr.Perm s.arr ∧
      (bubbleSortFunc s).arr.Sorted (· ≤ ·)) ∧
    (∀ s : St, (selectionSortFunc s).arr.Perm s.arr ∧
      (selectionSortFunc s).arr.Sorted (· ≤ ·)) ∧
    (∀ s : St, (insertionSortFunc s).arr.Perm s.arr ∧
      (insertionSortFunc s).arr.Sorted (· ≤ ·)) ∧
    (∀ s : St, (quickSortFunc s).arr.Perm s.arr ∧
      (quickSortFunc s).arr.Sorted (· ≤ ·)) ∧
    (∀ s : St, (mergeSortFunc s).arr.Perm s.arr ∧
      (mergeSortFunc s).arr.Sorted (· ≤ ·)) ∧
    (∀ s : St, (heapSortFunc s).arr.Perm s.arr ∧
      (heapSortFunc s).arr.Sorted (· ≤ ·)) ∧
    (∀ (rand : Nat → Nat) (fuel : Nat) (s s1 : St),
      bogoSortFunc rand fuel s = some s1 →
      s1.arr.Perm s.arr ∧ s1.arr.Sorted (· ≤ ·)) ∧
    (∀ s : St, (∀ k, k < s.arr.length → 0 ≤ s.arr.getD k 0) →
      ∃ s1, radixSortFunc s = some s1 ∧ s1.arr.Perm s.arr ∧
        s1.arr.Sorted (· ≤ ·)) ∧
    (∀ s : St, (∀ k, k < s.arr.length → 0 ≤ s.arr.getD k 0) →
      ∃ s1, bucketSortFunc s = some s1 ∧ s1.arr.Perm s.arr ∧
        s1.arr.Sorted (· ≤ ·)) :=
  ⟨bubbleSortFunc_sorts, selectionSortFunc_sorts, insertionSortFunc_sorts,
    quickSortFunc_sorts, mergeSortFunc_sorts, heapSortFunc_sorts,
    fun rand fuel s s1 h => bogoLoop_sorts rand fuel 0 s s1 h,
    radixSortFunc_sorts, bucketSortFunc_sorts⟩

/-- Witness for the amended C1 theorem: the radix and bucket clauses
applied at the concrete all-nonnegative input [3, 1, 2], with the
nonnegativity hypotheses discharged by computation. -/
theorem builtinVariants_sort_correct_witness :
    (∃ s1, radixSortFunc { arr := [3, 1, 2], stats := {}, trace := [] } = some s1 ∧
      s1.arr.Perm ({ arr := [3, 1, 2], stats := {}, trace := [] } : St).arr ∧
      s1.arr.Sorted (· ≤ ·)) ∧
    (∃ s1, bucketSortFunc { arr := [3, 1, 2], stats := {}, trace := [] } = some s1 ∧
      s1.arr.Perm ({ arr := [3, 1, 2], stats := {}, trace := [] } : St).arr ∧
      s1.arr.Sorted (· ≤ ·)) :=
  ⟨builtinVariants_sort_correct.2.2.2.2.2.2.2.1
      { arr := [3, 1, 2], stats := {}, trace := [] } (by decide),
    builtinVariants_sort_correct.2.2.2.2.2.2.2.2
      { arr := [3, 1, 2], stats := {}, trace := [] } (by decide)⟩
